import Mathlib

/-!
# PBOM webhook intake: a shallow embedding

Go strings are modelled as lists of characters (`Str`), raw byte slices as
lists of `Fin 256` (`Bytes`).  Calls into the Go standard library whose
bodies are not part of the repository are taken as parameters:

* `mac secret payload` stands for
  `hmac.New(sha256.New, []byte(secret)); Write(payload); Sum(nil)`;
* `unmarshal body` stands for `json.Unmarshal(body, &event)`
  (`none` when it returns an error);
* `lower s` stands for `strings.ToLower(s)`;
* the structure `Lib` holds the pure library calls of the enrichment code
  (zip reading, JSON decoding and encoding, path joining);
* the structure `Remote W` holds what the outside world answers (the GitHub
  client, timers, the clock, the file system) as functions of a world state
  `W`; the enrichment code threads a state `St W` that also logs every call.

Every theorem is stated for all values of these parameters.
-/

namespace Pbom

/-- Go `string`, seen as its sequence of characters. -/
abbrev Str := List Char

/-- One byte. -/
abbrev Byte := Fin 256

/-- Go `[]byte`. -/
abbrev Bytes := List Byte

/-- Go `time.Time`, as a signed offset from the zero instant. -/
abbrev Time := Int

/-! ## internal/webhook/signature.go -/

/-- Entry of `reverseHexTable` in `encoding/hex`: the value of a hex digit,
`none` where the table holds `0xff`. -/
def fromHexChar (c : Char) : Option Nat :=
  if '0'.toNat ≤ c.toNat ∧ c.toNat ≤ '9'.toNat then some (c.toNat - '0'.toNat)
  else if 'a'.toNat ≤ c.toNat ∧ c.toNat ≤ 'f'.toNat then some (c.toNat - 'a'.toNat + 10)
  else if 'A'.toNat ≤ c.toNat ∧ c.toNat ≤ 'F'.toNat then some (c.toNat - 'A'.toNat + 10)
  else none

/-- Decoder `hex.DecodeString`: pairs of hex digits give one byte each
(`(a << 4) | b`); an odd length or a non-hex character is an error. -/
def hexDecodeString : Str → Option Bytes
  | [] => some []
  | [_] => none
  | p :: q :: rest =>
    match fromHexChar p, fromHexChar q with
    | some a, some b =>
      match hexDecodeString rest with
      | some bs => some (Fin.ofNat (a * 16 + b) :: bs)
      | none => none
    | _, _ => none

/-- Digit `hextable[n]` of `encoding/hex`, with `hextable = "0123456789abcdef"`. -/
def hexDigit (n : Nat) : Char :=
  "0123456789abcdef".toList.getD n '0'

/-- Encoder `hex.EncodeToString`: two lowercase digits per byte,
`hextable[v >> 4]` then `hextable[v & 0x0f]`. -/
def hexEncodeToString : Bytes → Str
  | [] => []
  | v :: rest => hexDigit (v.val / 16) :: hexDigit (v.val % 16) :: hexEncodeToString rest

/-- Splitting at the first occurrence of a one-character separator
(`strings.Cut`): the text before it and the text after it. -/
def cutAt (sep : Char) : Str → Option (Str × Str)
  | [] => none
  | c :: cs =>
    if c = sep then some ([], cs)
    else match cutAt sep cs with
      | some (a, b) => some (c :: a, b)
      | none => none

/-- Call `strings.SplitN(s, sep, 2)` for a one-character separator. -/
def splitN2 (s : Str) (sep : Char) : List Str :=
  match cutAt sep s with
  | some (a, b) => [a, b]
  | none => [s]

/-- The errors `VerifySignature` returns, one per `fmt.Errorf`. -/
inductive SigError where
  | secretEmpty
  | signatureEmpty
  | invalidFormat
  | invalidHex
  | mismatch
  deriving DecidableEq, Repr

deriving instance DecidableEq for Except

/-- Function `VerifySignature` of signature.go.  `hmac.Equal` is equality
of the two byte slices (lengths included). -/
def VerifySignature (mac : Str → Bytes → Bytes) (payload : Bytes)
    (signature secret : Str) : Except SigError Unit :=
  if secret = [] then Except.error SigError.secretEmpty
  else if signature = [] then Except.error SigError.signatureEmpty
  else
    match splitN2 signature '=' with
    | [p0, p1] =>
      if p0 ≠ "sha256".toList then Except.error SigError.invalidFormat
      else
        match hexDecodeString p1 with
        | none => Except.error SigError.invalidHex
        | some sigBytes =>
          if sigBytes = mac secret payload then Except.ok ()
          else Except.error SigError.mismatch
    | _ => Except.error SigError.invalidFormat

/-- Helper `computeSignature` of signature_test.go. -/
def computeSignature (mac : Str → Bytes → Bytes) (payload : Bytes) (secret : Str) : Str :=
  "sha256=".toList ++ hexEncodeToString (mac secret payload)

/-! ## internal/webhook/handler.go, server.go -/

/-- Struct `RunPayload` of handler.go (`Actor.Login` flattened). -/
structure RunPayload where
  ID : Int
  Name : Str
  HeadSHA : Str
  HeadBranch : Str
  Path : Str
  Event : Str
  Status : Str
  Conclusion : Str
  ActorLogin : Str
  deriving DecidableEq, Repr

/-- Struct `RepoPayload` of handler.go (`Owner.Login` flattened). -/
structure RepoPayload where
  Name : Str
  FullName : Str
  OwnerLogin : Str
  deriving DecidableEq, Repr

/-- Struct `WebhookEvent` of handler.go. -/
structure WebhookEvent where
  Action : Str
  WorkflowRun : RunPayload
  Repository : RepoPayload
  deriving DecidableEq, Repr

/-- The request body as a reader: it yields `data` and then either ends
(`fails = false`) or reports a read error (`fails = true`). -/
structure RequestBody where
  data : Bytes
  fails : Bool
  deriving DecidableEq, Repr

/-- The parts of `*http.Request` the handler looks at; the two header fields
are the results of `r.Header.Get` (empty when the header is absent). -/
structure Request where
  Method : Str
  Body : RequestBody
  HubSignature256 : Str
  GitHubEvent : Str
  deriving DecidableEq, Repr

/-- The body cap `10<<20` of handler.go. -/
def maxBodyBytes : Nat := 10 * 2 ^ 20

/-- Call `io.ReadAll(io.LimitReader(r.Body, 10<<20))`: at most `10<<20`
bytes are read, anything beyond is silently left unread; the read fails only
when the reader reports its error before the cap is reached. -/
def readLimitedBody (b : RequestBody) : Option Bytes :=
  if b.fails = true ∧ b.data.length < maxBodyBytes then none
  else some (b.data.take maxBodyBytes)

/-- Number of bytes of the UTF-8 encoding of one character. -/
def runeLen (c : Char) : Nat :=
  if c.toNat < 0x80 then 1
  else if c.toNat < 0x800 then 2
  else if c.toNat < 0x10000 then 3
  else 4

/-- Go `len(s)` for a string: its length in bytes. -/
def byteLen (s : Str) : Nat :=
  (s.map runeLen).sum

/-- Struct `Config` of server.go. -/
structure Config where
  Addr : Str
  WebhookSecret : Str
  GitHubToken : Str
  StorageDir : Str
  deriving DecidableEq, Repr

/-- The state of `Server` that requests can observe: the configuration and
the two atomics read by `handleStatus`. -/
structure Server where
  cfg : Config
  eventsProcessed : Int
  lastEventAt : Option Time
  deriving DecidableEq, Repr

/-- Function `NewServer` of server.go: both atomics hold their zero value. -/
def NewServer (cfg : Config) : Server :=
  { cfg := cfg, eventsProcessed := 0, lastEventAt := none }

/-- What the client gets: a status code, or nothing when the handler
panicked before writing a response (net/http recovers the panic and drops the
connection). -/
inductive Reply where
  | status (code : Nat)
  | panicked
  deriving DecidableEq, Repr

/-- Result of one run of `handleWebhook`: the server state afterwards, the
reply, and the events handed to `go s.enricher.Enrich(...)`. -/
structure Outcome where
  server : Server
  reply : Reply
  dispatched : List WebhookEvent
  deriving DecidableEq, Repr

/-- Method `Server.handleWebhook` of handler.go.  The slice expression
`event.WorkflowRun.HeadSHA[:8]` in the log call panics when the head SHA has
fewer than 8 bytes.  The source stores to neither `eventsProcessed` nor
`lastEventAt`, so the server state is returned as it came. -/
def handleWebhook (mac : Str → Bytes → Bytes) (unmarshal : Bytes → Option WebhookEvent)
    (s : Server) (r : Request) : Outcome :=
  if r.Method ≠ "POST".toList then
    { server := s, reply := Reply.status 405, dispatched := [] }
  else
    match readLimitedBody r.Body with
    | none => { server := s, reply := Reply.status 400, dispatched := [] }
    | some body =>
      match VerifySignature mac body r.HubSignature256 s.cfg.WebhookSecret with
      | Except.error _ => { server := s, reply := Reply.status 401, dispatched := [] }
      | Except.ok _ =>
        if r.GitHubEvent ≠ "workflow_run".toList then
          { server := s, reply := Reply.status 200, dispatched := [] }
        else
          match unmarshal body with
          | none => { server := s, reply := Reply.status 400, dispatched := [] }
          | some event =>
            if event.Action ≠ "completed".toList then
              { server := s, reply := Reply.status 200, dispatched := [] }
            else if event.WorkflowRun.Name = "PBOM Collector".toList then
              { server := s, reply := Reply.status 200, dispatched := [] }
            else if byteLen event.WorkflowRun.HeadSHA < 8 then
              { server := s, reply := Reply.panicked, dispatched := [] }
            else
              { server := s, reply := Reply.status 202, dispatched := [event] }

/-- The JSON object `handleStatus` of server.go encodes: `events_processed`
always, `last_event_at` only when a time has been stored. -/
structure StatusReport where
  events_processed : Int
  last_event_at : Option Time
  deriving DecidableEq, Repr

/-- Method `Server.handleStatus` of server.go. -/
def handleStatus (s : Server) : StatusReport :=
  { events_processed := s.eventsProcessed, last_event_at := s.lastEventAt }

/-- The server state after handling a sequence of webhook requests in order. -/
def handleAll (mac : Str → Bytes → Bytes) (unmarshal : Bytes → Option WebhookEvent)
    (s : Server) : List Request → Server
  | [] => s
  | r :: rs => handleAll mac unmarshal (handleWebhook mac unmarshal s r).server rs

/-! ## internal/github/types.go, pkg/schema/pbom.go, internal/webhook/runner.go -/

/-- Struct `Job` of internal/github/types.go (without `Steps`, which no
function of the webhook package reads). -/
structure Job where
  ID : Int
  RunID : Int
  Name : Str
  Status : Str
  Conclusion : Str
  StartedAt : Time
  CompletedAt : Time
  Labels : List Str
  RunnerName : Str
  RunnerID : Int
  RunnerGroupName : Str
  deriving DecidableEq, Repr

/-- Struct `Runner` of pkg/schema/pbom.go. -/
structure Runner where
  OS : Str
  Arch : Str
  Name : Str
  SelfHosted : Bool
  deriving DecidableEq, Repr

/-- Test `strings.Contains(s, sub)`: does `sub` occur in `s` as a contiguous
run of characters. -/
def stringsContains : Str → Str → Bool
  | [], sub => sub.isEmpty
  | c :: cs, sub => sub.isPrefixOf (c :: cs) || stringsContains cs sub

/-- The body of the label loop of `ExtractRunner`: the `switch` on the
lowercased label, whose first true case assigns one field. -/
def labelStep (lower : Str → Str) (runner : Runner) (label : Str) : Runner :=
  if lower label = "self-hosted".toList then
    { runner with SelfHosted := true }
  else if stringsContains (lower label) "ubuntu".toList ∨ lower label = "linux".toList then
    { runner with OS := "Linux".toList }
  else if stringsContains (lower label) "macos".toList ∨ lower label = "macos".toList then
    { runner with OS := "macOS".toList }
  else if stringsContains (lower label) "windows".toList then
    { runner with OS := "Windows".toList }
  else if lower label = "x64".toList ∨ lower label = "amd64".toList then
    { runner with Arch := "X64".toList }
  else if lower label = "arm64".toList ∨ lower label = "aarch64".toList then
    { runner with Arch := "ARM64".toList }
  else runner

/-- Function `guessOSFromRunnerName` of runner.go. -/
def guessOSFromRunnerName (lower : Str → Str) (name : Str) : Str :=
  if stringsContains (lower name) "ubuntu".toList ∨
      stringsContains (lower name) "linux".toList then "Linux".toList
  else if stringsContains (lower name) "macos".toList then "macOS".toList
  else if stringsContains (lower name) "windows".toList then "Windows".toList
  else "Linux".toList

/-- Function `ExtractRunner` of runner.go; `none` is the nil pointer. -/
def ExtractRunner (lower : Str → Str) (jobs : List Job) : Option Runner :=
  match jobs with
  | [] => none
  | job :: _ =>
    let runner0 : Runner :=
      { OS := [], Arch := [], Name := job.RunnerName,
        SelfHosted := decide (job.RunnerGroupName ≠ [] ∧
          job.RunnerGroupName ≠ "GitHub Actions".toList) }
    let runner1 := job.Labels.foldl (labelStep lower) runner0
    let runner2 : Runner :=
      if runner1.OS = [] then
        { runner1 with OS := guessOSFromRunnerName lower job.RunnerName }
      else runner1
    let runner3 : Runner :=
      if runner2.Arch = [] then { runner2 with Arch := "X64".toList } else runner2
    some runner3

/-- The body of the loop of `ExtractTimestamps` on the pair
(`earliest`, `latest`); `IsZero` is equality with the zero instant, `Before`
and `After` are the order of instants. -/
def timestampStep (st : Time × Time) (job : Job) : Time × Time :=
  (if job.StartedAt ≠ 0 ∧ (st.1 = 0 ∨ job.StartedAt < st.1) then job.StartedAt else st.1,
   if job.CompletedAt ≠ 0 ∧ (st.2 = 0 ∨ st.2 < job.CompletedAt) then job.CompletedAt
   else st.2)

/-- Function `ExtractTimestamps` of runner.go; `none` is the nil pointer. -/
def ExtractTimestamps (jobs : List Job) : Option Time × Option Time :=
  match jobs with
  | [] => (none, none)
  | job :: rest =>
    let r := (job :: rest).foldl timestampStep (0, 0)
    (if r.1 ≠ 0 then some r.1 else none, if r.2 ≠ 0 then some r.2 else none)

/-- The OS a label maps to: the value the `switch` of `ExtractRunner`
assigns to `runner.OS` for this label, `none` when the label takes a case
that leaves `runner.OS` alone. -/
def labelOS (lower : Str → Str) (label : Str) : Option Str :=
  if lower label = "self-hosted".toList then none
  else if stringsContains (lower label) "ubuntu".toList ∨ lower label = "linux".toList then
    some "Linux".toList
  else if stringsContains (lower label) "macos".toList ∨ lower label = "macos".toList then
    some "macOS".toList
  else if stringsContains (lower label) "windows".toList then some "Windows".toList
  else none

/-- The architecture a label maps to: the value the `switch` of
`ExtractRunner` assigns to `runner.Arch` for this label, `none` when the label
takes a case that leaves `runner.Arch` alone. -/
def labelArch (lower : Str → Str) (label : Str) : Option Str :=
  if lower label = "self-hosted".toList then none
  else if stringsContains (lower label) "ubuntu".toList ∨ lower label = "linux".toList then
    none
  else if stringsContains (lower label) "macos".toList ∨ lower label = "macos".toList then
    none
  else if stringsContains (lower label) "windows".toList then none
  else if lower label = "x64".toList ∨ lower label = "amd64".toList then some "X64".toList
  else if lower label = "arm64".toList ∨ lower label = "aarch64".toList then
    some "ARM64".toList
  else none

/-- Lowercasing of ASCII text: what `strings.ToLower` returns on a string
of ASCII characters.  Used to evaluate the functions on concrete ASCII
inputs. -/
def asciiToLower (s : Str) : Str :=
  s.map Char.toLower

/-- A job with the given labels, runner name and runner-group name. -/
def mkJob (labels : List Str) (runnerName groupName : Str) : Job :=
  { ID := 1, RunID := 42, Name := "build".toList, Status := "completed".toList,
    Conclusion := "success".toList, StartedAt := 100, CompletedAt := 200,
    Labels := labels, RunnerName := runnerName, RunnerID := 7,
    RunnerGroupName := groupName }

/-! ## internal/webhook/secrets.go

The pattern is
`\$\{\{\s*secrets\.([A-Za-z_][A-Za-z0-9_]*)\s*\}\}`.
A match starts with `$`, the only `$` it contains.  Each starred class is
followed by a character outside that class (`s` after the first `\s*`, a
whitespace or a closing brace after the name, a closing brace after the
second `\s*`), so a match from a given start consumes every repetition
greedily and is unique; `matchSecretAt` computes it. -/

/-- Perl class `\s` of Go regexp syntax: tab, newline, form feed, carriage
return, space. -/
def isReSpace (c : Char) : Bool :=
  c = '\t' || c = '\n' || c = '\x0c' || c = '\r' || c = ' '

/-- Class `[A-Za-z_]`. -/
def isIdentStart (c : Char) : Bool :=
  ('A'.toNat ≤ c.toNat && c.toNat ≤ 'Z'.toNat) ||
    ('a'.toNat ≤ c.toNat && c.toNat ≤ 'z'.toNat) || c = '_'

/-- Class `[A-Za-z0-9_]`. -/
def isIdentChar (c : Char) : Bool :=
  ('A'.toNat ≤ c.toNat && c.toNat ≤ 'Z'.toNat) ||
    ('a'.toNat ≤ c.toNat && c.toNat ≤ 'z'.toNat) ||
    ('0'.toNat ≤ c.toNat && c.toNat ≤ '9'.toNat) || c = '_'

/-- Matching a literal at the start of the input: the input left after it. -/
def dropLit : Str → Str → Option Str
  | [], s => some s
  | _ :: _, [] => none
  | p :: ps, c :: cs => if p = c then dropLit ps cs else none

/-- The match of the pattern that starts at the first character of the
input, if there is one: the text of capture group 1 and the input left after
the match. -/
def matchSecretAt (s : Str) : Option (Str × Str) :=
  match dropLit ['$', '{', '{'] s with
  | none => none
  | some s1 =>
    match dropLit "secrets.".toList (s1.dropWhile isReSpace) with
    | none => none
    | some [] => none
    | some (c :: s2) =>
      if isIdentStart c then
        match dropLit ['}', '}'] ((s2.dropWhile isIdentChar).dropWhile isReSpace) with
        | none => none
        | some rest => some (c :: s2.takeWhile isIdentChar, rest)
      else none

/-- Call `secretsPattern.FindAllSubmatch(text, -1)`, keeping capture group
1 of each match: matches are searched left to right, and after a match the
search resumes at its end, which is `skip` characters further (the first
argument counts the characters still to step over). -/
def findAllSecretsFrom : Nat → Str → List Str
  | _, [] => []
  | skip + 1, _ :: cs => findAllSecretsFrom skip cs
  | 0, c :: cs =>
    match matchSecretAt (c :: cs) with
    | some (name, rest) => name :: findAllSecretsFrom (cs.length - rest.length) cs
    | none => findAllSecretsFrom 0 cs

/-- One round of the loop over the matches: the state is the key set of the
map `seen` and the slice `secrets`. -/
def collectSecret (st : List Str × List Str) (name : Str) : List Str × List Str :=
  if name = "GITHUB_TOKEN".toList then st
  else if name ∈ st.1 then st
  else (name :: st.1, st.2 ++ [name])

/-- Go string order `a <= b`: lexicographic by byte, which on valid UTF-8
is lexicographic by code point. -/
def strLe : Str → Str → Bool
  | [], _ => true
  | _ :: _, [] => false
  | a :: as, b :: bs => a.toNat < b.toNat || (a.toNat = b.toNat && strLe as bs)

/-- Go string order `a < b`, lexicographic by byte. -/
def strLt : Str → Str → Bool
  | _, [] => false
  | [], _ :: _ => true
  | a :: as, b :: bs => a.toNat < b.toNat || (a.toNat = b.toNat && strLt as bs)

/-- Call `sort.Strings`: the ascending arrangement of the slice. -/
def sortStrings (l : List Str) : List Str :=
  l.insertionSort (fun a b => strLe a b = true)

/-- Function `ExtractSecretsFromWorkflow` of secrets.go; the empty list
stands for the nil slice. -/
def ExtractSecretsFromWorkflow (workflowYAML : Str) : List Str :=
  sortStrings ((findAllSecretsFrom 0 workflowYAML).foldl collectSecret ([], [])).2

/-- An identifier: a letter or underscore, then letters, digits and
underscores. -/
def IsIdentifier (name : Str) : Prop :=
  ∃ c cs, name = c :: cs ∧ isIdentStart c = true ∧ ∀ x ∈ cs, isIdentChar x = true

/-- The text contains the reference form: `$` and two opening braces,
optional whitespace, `secrets.`, the name, optional whitespace, two closing
braces. -/
def SecretRefOccurs (text name : Str) : Prop :=
  ∃ pre ws1 ws2 post : Str,
    text = pre ++ (['$', '{', '{'] ++ (ws1 ++ ("secrets.".toList ++
      (name ++ (ws2 ++ (['}', '}'] ++ post)))))) ∧
    (∀ c ∈ ws1, isReSpace c = true) ∧ (∀ c ∈ ws2, isReSpace c = true)

/-- Some suffix of the text starts with a match of the pattern whose capture
group 1 is `name`. -/
def MatchStartsIn (text name : Str) : Prop :=
  ∃ pre suf rest : Str, text = pre ++ suf ∧ matchSecretAt suf = some (name, rest)

/-- The text of a reference expression: `$`, two opening braces, `inner`,
two closing braces. -/
def refExpr (inner : Str) : Str :=
  ['$', '{', '{'] ++ inner ++ ['}', '}']

/-- A workflow text with four references: two of DEPLOY_KEY, one of
GITHUB_TOKEN, one of API_KEY_2 written with extra spaces. -/
def sampleWorkflow : Str :=
  "a: ".toList ++ ['$', '{', '{'] ++ " secrets.DEPLOY_KEY ".toList ++ ['}', '}'] ++
  "\nb: ".toList ++ ['$', '{', '{'] ++ " secrets.GITHUB_TOKEN ".toList ++ ['}', '}'] ++
  "\nc: ".toList ++ ['$', '{', '{'] ++ "  secrets.API_KEY_2\t".toList ++ ['}', '}'] ++
  "\nd: ".toList ++ ['$', '{', '{'] ++ "secrets.DEPLOY_KEY".toList ++ ['}', '}']

/-! ## pkg/schema/pbom.go, internal/github/types.go -/

/-- Struct `Source` of pkg/schema/pbom.go. -/
structure Source where
  Repository : Str
  CommitSHA : Str
  Branch : Str
  Ref : Str
  Author : Str
  deriving DecidableEq, Repr

/-- Struct `Build` of pkg/schema/pbom.go; the map `ToolVersions` is a list
of key-value pairs, nil pointers are `none`. -/
structure Build where
  WorkflowRunID : Str
  WorkflowName : Str
  WorkflowFile : Str
  Trigger : Str
  Actor : Str
  Runner : Option Runner
  ToolVersions : List (Str × Str)
  SecretsAccessed : List Str
  StartedAt : Option Time
  CompletedAt : Option Time
  Status : Str
  deriving DecidableEq, Repr

/-- Struct `Provenance` of pkg/schema/pbom.go. -/
structure Provenance where
  SLSALevel : Int
  BuilderID : Str
  AttestationURI : Str
  deriving DecidableEq, Repr

/-- Struct `Vulnerabilities` of pkg/schema/pbom.go. -/
structure Vulnerabilities where
  Scanner : Str
  ScannedAt : Option Time
  Critical : Int
  High : Int
  Medium : Int
  Low : Int
  deriving DecidableEq, Repr

/-- Struct `Artifact` of pkg/schema/pbom.go (`Type_` is its field `Type`). -/
structure Artifact where
  Name : Str
  Type_ : Str
  Digest : Str
  URI : Str
  Tags : List Str
  Provenance : Option Provenance
  Vulnerabilities : Option Vulnerabilities
  deriving DecidableEq, Repr

/-- Struct `CoDeployedService` of pkg/schema/pbom.go. -/
structure CoDeployedService where
  Name : Str
  Digest : Str
  Version : Str
  deriving DecidableEq, Repr

/-- Struct `Promotion` of pkg/schema/pbom.go. -/
structure Promotion where
  FreightID : Str
  Stage : Str
  PromotedBy : Str
  PromotedAt : Option Time
  EnvironmentSnapshot : List CoDeployedService
  deriving DecidableEq, Repr

/-- Struct `PBOM` of pkg/schema/pbom.go. -/
structure PBOM where
  PBOMVersion : Str
  ID : Str
  Timestamp : Time
  Source : Source
  Build : Build
  Artifacts : List Artifact
  Promotion : Option Promotion
  deriving DecidableEq, Repr

/-- Constant `Version` of pkg/schema/pbom.go. -/
def schemaVersion : Str := "1.0.0".toList

/-- Struct `WorkflowRun` of internal/github/types.go, with the fields the
webhook package reads and the other string fields of a run. -/
structure gh.WorkflowRun where
  ID : Int
  Name : Str
  HeadSHA : Str
  HeadBranch : Str
  Path : Str
  Event : Str
  Status : Str
  Conclusion : Str
  deriving DecidableEq, Repr

/-- Struct `Artifact` of internal/github/types.go (without the two
timestamps, which no function reads). -/
structure gh.Artifact where
  ID : Int
  Name : Str
  SizeInBytes : Int
  ArchiveDownloadURL : Str
  Digest : Str
  deriving DecidableEq, Repr

/-- Struct `DockerMetadata` of artifacts.go. -/
structure DockerMetadata where
  Image : Str
  Digest : Str
  Tags : Str
  deriving DecidableEq, Repr

/-! ## Errors, library calls and the outside world -/

/-- A Go `error`: a message, a message wrapping a cause (`fmt.Errorf` with
`%w`; `text` is the message before the colon), or the error of a context
that is done (`ctx.Err()`). -/
inductive GoError where
  | msg (text : Str)
  | wrap (text : Str) (cause : GoError)
  | ctxDone
  deriving DecidableEq, Repr

/-- One entry of `zip.Reader.File`: its name, and what `f.Open()` followed
by reading the entry to its end delivers. -/
structure ZipFile where
  Name : Str
  Open : Except GoError Bytes
  deriving DecidableEq, Repr

/-- The pure standard-library calls of the enrichment code, taken as
parameters: `strings.ToLower`, `zip.NewReader`, `json.NewDecoder(rc).Decode`
into a `schema.PBOM` and into a `DockerMetadata`, `json.MarshalIndent` and
`filepath.Join`. -/
structure Lib where
  ToLower : Str → Str
  zipNewReader : Bytes → Except GoError (List ZipFile)
  decodePBOM : Bytes → Except GoError PBOM
  decodeDockerMetadata : Bytes → Except GoError DockerMetadata
  MarshalIndent : PBOM → Except GoError Bytes
  filepathJoin : Str → Str → Str

/-- What the outside world answers, as functions of its state `W`: the five
methods of `gh.Client`, the `select` between `time.After(delay)` and
`ctx.Done()` (`true` when the timer fires first), `time.Now().UTC()`,
`os.MkdirAll` and `os.WriteFile` (`none` when they return a nil error). -/
structure Remote (W : Type) where
  ListRunsByCommit : Str → Str → Str → W → Except GoError (List gh.WorkflowRun) × W
  GetJobs : Str → Str → Int → W → Except GoError (List Job) × W
  GetArtifacts : Str → Str → Int → W → Except GoError (List gh.Artifact) × W
  DownloadArtifact : Str → W → Except GoError Bytes × W
  GetWorkflowContent : Str → Str → Str → Str → W → Except GoError Str × W
  After : Nat → W → Bool × W
  Now : W → Time × W
  MkdirAll : Str → W → Option GoError × W
  WriteFile : Str → Bytes → W → Option GoError × W

/-- The calls made to the outside world, in the order they are made; `Store`
marks the entry into the function `Store`. -/
inductive Call where
  | ListRunsByCommit (owner repo sha : Str)
  | GetJobs (owner repo : Str) (runID : Int)
  | GetArtifacts (owner repo : Str) (runID : Int)
  | DownloadArtifact (url : Str)
  | GetWorkflowContent (owner repo path ref : Str)
  | After (seconds : Nat)
  | Now
  | Store (dir : Str) (pbom : PBOM) (owner repo : Str) (runID : Int)
  | MkdirAll (dir : Str)
  | WriteFile (path : Str) (data : Bytes)
  deriving DecidableEq, Repr

/-- The state threaded through the enrichment code: the world, and the log
of the calls made so far. -/
structure St (W : Type) where
  world : W
  trace : List Call
  deriving DecidableEq, Repr

/-- Method `Client.ListRunsByCommit`, logged. -/
def clientListRunsByCommit {W : Type} (R : Remote W) (owner repo sha : Str) (s : St W) :
    Except GoError (List gh.WorkflowRun) × St W :=
  ((R.ListRunsByCommit owner repo sha s.world).1,
    { world := (R.ListRunsByCommit owner repo sha s.world).2,
      trace := s.trace ++ [Call.ListRunsByCommit owner repo sha] })

/-- Method `Client.GetJobs`, logged. -/
def clientGetJobs {W : Type} (R : Remote W) (owner repo : Str) (runID : Int) (s : St W) :
    Except GoError (List Job) × St W :=
  ((R.GetJobs owner repo runID s.world).1,
    { world := (R.GetJobs owner repo runID s.world).2,
      trace := s.trace ++ [Call.GetJobs owner repo runID] })

/-- Method `Client.GetArtifacts`, logged. -/
def clientGetArtifacts {W : Type} (R : Remote W) (owner repo : Str) (runID : Int)
    (s : St W) : Except GoError (List gh.Artifact) × St W :=
  ((R.GetArtifacts owner repo runID s.world).1,
    { world := (R.GetArtifacts owner repo runID s.world).2,
      trace := s.trace ++ [Call.GetArtifacts owner repo runID] })

/-- Method `Client.DownloadArtifact`, logged. -/
def clientDownloadArtifact {W : Type} (R : Remote W) (url : Str) (s : St W) :
    Except GoError Bytes × St W :=
  ((R.DownloadArtifact url s.world).1,
    { world := (R.DownloadArtifact url s.world).2,
      trace := s.trace ++ [Call.DownloadArtifact url] })

/-- Method `Client.GetWorkflowContent`, logged. -/
def clientGetWorkflowContent {W : Type} (R : Remote W) (owner repo path ref : Str)
    (s : St W) : Except GoError Str × St W :=
  ((R.GetWorkflowContent owner repo path ref s.world).1,
    { world := (R.GetWorkflowContent owner repo path ref s.world).2,
      trace := s.trace ++ [Call.GetWorkflowContent owner repo path ref] })

/-- The `select` of `findSkeletonWithRetry` on a positive delay, logged:
`true` when `time.After(delay)` fires, `false` when `ctx.Done()` does. -/
def waitAfter {W : Type} (R : Remote W) (seconds : Nat) (s : St W) : Bool × St W :=
  ((R.After seconds s.world).1,
    { world := (R.After seconds s.world).2, trace := s.trace ++ [Call.After seconds] })

/-- Call `time.Now().UTC()`, logged. -/
def timeNow {W : Type} (R : Remote W) (s : St W) : Time × St W :=
  ((R.Now s.world).1, { world := (R.Now s.world).2, trace := s.trace ++ [Call.Now] })

/-- Verb `%d` of `fmt.Sprintf` on an integer: its decimal digits, with a
minus sign when negative. -/
def formatInt (n : Int) : Str :=
  if n < 0 then '-' :: Nat.toDigits 10 n.natAbs else Nat.toDigits 10 n.toNat

/-- Call `strings.Split(s, sep)` for a one-character separator. -/
def stringsSplit (sep : Char) : Str → List Str
  | [] => [[]]
  | c :: cs =>
    if c = sep then [] :: stringsSplit sep cs
    else
      match stringsSplit sep cs with
      | part :: parts => (c :: part) :: parts
      | [] => [[c]]

/-- Predicate `unicode.IsSpace`. -/
def isUnicodeSpace (c : Char) : Bool :=
  c = '\t' || c = '\n' || c = '\x0b' || c = '\x0c' || c = '\r' || c = ' ' ||
    c.toNat = 0x85 || c.toNat = 0xA0 || c.toNat = 0x1680 ||
    (0x2000 ≤ c.toNat && c.toNat ≤ 0x200a) || c.toNat = 0x2028 || c.toNat = 0x2029 ||
    c.toNat = 0x202f || c.toNat = 0x205f || c.toNat = 0x3000

/-- Call `strings.TrimSpace`. -/
def stringsTrimSpace (s : Str) : Str :=
  ((s.dropWhile isUnicodeSpace).reverse.dropWhile isUnicodeSpace).reverse

/-! ## internal/webhook/skeleton.go -/

/-- Function `FindCollectorRun` of skeleton.go. -/
def FindCollectorRun {W : Type} (R : Remote W) (owner repo headSHA : Str) (s : St W) :
    Except GoError gh.WorkflowRun × St W :=
  match clientListRunsByCommit R owner repo headSHA s with
  | (Except.error err, s1) =>
    (Except.error (GoError.wrap ("listing runs for commit ".toList ++ headSHA) err), s1)
  | (Except.ok runs, s1) =>
    match runs.find? (fun run => decide (run.Name = "PBOM Collector".toList ∧
        run.Conclusion = "success".toList)) with
    | some run => (Except.ok run, s1)
    | none =>
      (Except.error (GoError.msg
        ("no completed PBOM Collector run found for commit ".toList ++ headSHA)), s1)

/-- Function `extractPBOMFromZip` of skeleton.go. -/
def extractPBOMFromZip (L : Lib) (zipData : Bytes) : Except GoError PBOM :=
  match L.zipNewReader zipData with
  | Except.error err => Except.error (GoError.wrap "opening artifact zip".toList err)
  | Except.ok files =>
    match files.find? (fun f => List.isSuffixOf ".json".toList f.Name) with
    | none => Except.error (GoError.msg "no JSON file found in PBOM artifact zip".toList)
    | some f =>
      match f.Open with
      | Except.error err => Except.error (GoError.wrap ("opening ".toList ++ f.Name) err)
      | Except.ok content =>
        match L.decodePBOM content with
        | Except.error err => Except.error (GoError.wrap "parsing PBOM JSON".toList err)
        | Except.ok pbom => Except.ok pbom

/-- Function `DownloadSkeletonPBOM` of skeleton.go.  The verb `%q` is applied
to the text `pbom-` followed by a decimal numeral, which has no character to
escape, so it yields that text between double quotes. -/
def DownloadSkeletonPBOM {W : Type} (L : Lib) (R : Remote W) (owner repo : Str)
    (collectorRunID : Int) (s : St W) : Except GoError PBOM × St W :=
  match clientGetArtifacts R owner repo collectorRunID s with
  | (Except.error err, s1) =>
    (Except.error (GoError.wrap "getting collector artifacts".toList err), s1)
  | (Except.ok artifacts, s1) =>
    match artifacts.find? (fun a =>
        decide (a.Name = "pbom-".toList ++ formatInt collectorRunID)) with
    | none =>
      (Except.error (GoError.msg ("no artifact named \"".toList ++
        ("pbom-".toList ++ formatInt collectorRunID) ++
        "\" found in collector run ".toList ++ formatInt collectorRunID)), s1)
    | some pbomArtifact =>
      match clientDownloadArtifact R pbomArtifact.ArchiveDownloadURL s1 with
      | (Except.error err, s2) =>
        (Except.error (GoError.wrap "downloading PBOM artifact".toList err), s2)
      | (Except.ok zipData, s2) => (extractPBOMFromZip L zipData, s2)

/-! ## internal/webhook/artifacts.go -/

/-- Function `downloadAndParseDockerMetadata` of artifacts.go. -/
def downloadAndParseDockerMetadata {W : Type} (L : Lib) (R : Remote W) (downloadURL : Str)
    (s : St W) : Except GoError DockerMetadata × St W :=
  match clientDownloadArtifact R downloadURL s with
  | (Except.error err, s1) =>
    (Except.error (GoError.wrap "downloading artifact".toList err), s1)
  | (Except.ok zipData, s1) =>
    match L.zipNewReader zipData with
    | Except.error err => (Except.error (GoError.wrap "opening zip".toList err), s1)
    | Except.ok files =>
      match files.find? (fun f => List.isSuffixOf ".json".toList f.Name) with
      | none => (Except.error (GoError.msg "no JSON file found in artifact zip".toList), s1)
      | some f =>
        match f.Open with
        | Except.error err =>
          (Except.error (GoError.wrap ("opening ".toList ++ f.Name) err), s1)
        | Except.ok content =>
          match L.decodeDockerMetadata content with
          | Except.error err =>
            (Except.error (GoError.wrap ("parsing ".toList ++ f.Name) err), s1)
          | Except.ok dockerMeta => (Except.ok dockerMeta, s1)

/-- Function `parseTags` of artifacts.go; the empty list is the nil slice. -/
def parseTags (tagStr : Str) : List Str :=
  if tagStr = [] then []
  else ((stringsSplit '\n' tagStr).map stringsTrimSpace).filter (fun t => decide (t ≠ []))

/-- Function `repoBaseName` of artifacts.go. -/
def repoBaseName (repo : Str) : Str :=
  match (stringsSplit '/' repo).getLast? with
  | some last => last
  | none => repo

/-- The `schema.Artifact` that `ExtractDockerArtifacts` appends for one
decoded metadata record. -/
def dockerArtifact (repo : Str) (dockerMeta : DockerMetadata) : Artifact :=
  { Name := repoBaseName repo,
    Type_ := "container-image".toList,
    Digest := dockerMeta.Digest,
    URI := if dockerMeta.Digest ≠ [] then dockerMeta.Image ++ "@".toList ++ dockerMeta.Digest
      else dockerMeta.Image,
    Tags := parseTags dockerMeta.Tags,
    Provenance := none,
    Vulnerabilities := none }

/-- The loop of `ExtractDockerArtifacts` over the artifacts still to visit,
with the slice `result` built so far. -/
def extractDockerLoop {W : Type} (L : Lib) (R : Remote W) (repo : Str) :
    List gh.Artifact → List Artifact → St W → List Artifact × St W
  | [], result, s => (result, s)
  | art :: arts, result, s =>
    if List.isPrefixOf "docker-metadata-".toList art.Name = false then
      extractDockerLoop L R repo arts result s
    else
      match downloadAndParseDockerMetadata L R art.ArchiveDownloadURL s with
      | (Except.error _, s1) => extractDockerLoop L R repo arts result s1
      | (Except.ok dockerMeta, s1) =>
        extractDockerLoop L R repo arts (result ++ [dockerArtifact repo dockerMeta]) s1

/-- Function `ExtractDockerArtifacts` of artifacts.go. -/
def ExtractDockerArtifacts {W : Type} (L : Lib) (R : Remote W) (owner repo : Str)
    (runID : Int) (s : St W) : List Artifact × St W :=
  match clientGetArtifacts R owner repo runID s with
  | (Except.error _, s1) => ([], s1)
  | (Except.ok artifacts, s1) => extractDockerLoop L R repo artifacts [] s1

/-! ## internal/webhook/storage.go -/

/-- The file name `Store` formats: owner, repo and run id joined by
underscores, with the extension `.pbom.json`. -/
def storeFileName (owner repo : Str) (runID : Int) : Str :=
  owner ++ "_".toList ++ repo ++ "_".toList ++ formatInt runID ++ ".pbom.json".toList

/-- Function `Store` of storage.go. -/
def Store {W : Type} (L : Lib) (R : Remote W) (dir : Str) (pbom : PBOM) (owner repo : Str)
    (runID : Int) (s : St W) : Except GoError Str × St W :=
  match R.MkdirAll dir s.world with
  | (some err, w1) =>
    (Except.error (GoError.wrap "creating storage dir".toList err),
      { world := w1,
        trace := s.trace ++ [Call.Store dir pbom owner repo runID, Call.MkdirAll dir] })
  | (none, w1) =>
    match L.MarshalIndent pbom with
    | Except.error err =>
      (Except.error (GoError.wrap "marshaling PBOM".toList err),
        { world := w1,
          trace := s.trace ++ [Call.Store dir pbom owner repo runID, Call.MkdirAll dir] })
    | Except.ok data =>
      match R.WriteFile (L.filepathJoin dir (storeFileName owner repo runID)) data w1 with
      | (some err, w2) =>
        (Except.error (GoError.wrap "writing PBOM file".toList err),
          { world := w2,
            trace := s.trace ++ [Call.Store dir pbom owner repo runID, Call.MkdirAll dir,
              Call.WriteFile (L.filepathJoin dir (storeFileName owner repo runID)) data] })
      | (none, w2) =>
        (Except.ok (L.filepathJoin dir (storeFileName owner repo runID)),
          { world := w2,
            trace := s.trace ++ [Call.Store dir pbom owner repo runID, Call.MkdirAll dir,
              Call.WriteFile (L.filepathJoin dir (storeFileName owner repo runID)) data] })

/-! ## internal/webhook/enricher.go -/

/-- The loop of `findSkeletonWithRetry` from attempt index `attempt` on, over
the delays still to go; `len(delays)` is 4. -/
def findSkeletonAttempts {W : Type} (L : Lib) (R : Remote W) (owner repo headSHA : Str) :
    Nat → List Nat → St W → Except GoError PBOM × St W
  | _, [], s => (Except.error (GoError.msg "exhausted retries".toList), s)
  | attempt, delay :: rest, s =>
    match (if delay > 0 then waitAfter R delay s else (true, s)) with
    | (false, s1) => (Except.error GoError.ctxDone, s1)
    | (true, s1) =>
      match FindCollectorRun R owner repo headSHA s1 with
      | (Except.error err, s2) =>
        if attempt < 4 - 1 then
          findSkeletonAttempts L R owner repo headSHA (attempt + 1) rest s2
        else (Except.error (GoError.wrap "after 4 attempts".toList err), s2)
      | (Except.ok collectorRun, s2) =>
        match DownloadSkeletonPBOM L R owner repo collectorRun.ID s2 with
        | (Except.error err, s3) =>
          (Except.error (GoError.wrap "downloading skeleton".toList err), s3)
        | (Except.ok pbom, s3) => (Except.ok pbom, s3)

/-- Method `Enricher.findSkeletonWithRetry` of enricher.go, with the delays
of 0, 10, 30 and 60 seconds. -/
def findSkeletonWithRetry {W : Type} (L : Lib) (R : Remote W) (owner repo headSHA : Str)
    (s : St W) : Except GoError PBOM × St W :=
  findSkeletonAttempts L R owner repo headSHA 0 [0, 10, 30, 60] s

/-- Method `Enricher.buildFallbackPBOM` of enricher.go, given the value of
`time.Now().UTC()`. -/
def buildFallbackPBOM (now : Time) (event : WebhookEvent) : PBOM :=
  { PBOMVersion := schemaVersion,
    ID := "fallback-".toList ++ formatInt event.WorkflowRun.ID,
    Timestamp := now,
    Source :=
      { Repository := event.Repository.FullName,
        CommitSHA := event.WorkflowRun.HeadSHA,
        Branch := event.WorkflowRun.HeadBranch,
        Ref := [],
        Author := event.WorkflowRun.ActorLogin },
    Build :=
      { WorkflowRunID := formatInt event.WorkflowRun.ID,
        WorkflowName := event.WorkflowRun.Name,
        WorkflowFile := event.WorkflowRun.Path,
        Trigger := event.WorkflowRun.Event,
        Actor := event.WorkflowRun.ActorLogin,
        Runner := none,
        ToolVersions := [],
        SecretsAccessed := [],
        StartedAt := some now,
        CompletedAt := none,
        Status := event.WorkflowRun.Conclusion },
    Artifacts := [],
    Promotion := none }

/-- Step 1 of `Enrich`: the skeleton found by `findSkeletonWithRetry`, or
the fallback record when it returns an error. -/
def resolveSkeleton {W : Type} (L : Lib) (R : Remote W) (event : WebhookEvent) (s : St W) :
    PBOM × St W :=
  match findSkeletonWithRetry L R event.Repository.OwnerLogin event.Repository.Name
      event.WorkflowRun.HeadSHA s with
  | (Except.ok pbom, s1) => (pbom, s1)
  | (Except.error _, s1) => (buildFallbackPBOM (timeNow R s1).1 event, (timeNow R s1).2)

/-- The branch of step 2 of `Enrich` taken when `GetJobs` succeeds: the
runner is set when `ExtractRunner` returns one, each timestamp is set when
`ExtractTimestamps` returns one. -/
def applyJobs (L : Lib) (pbom : PBOM) (jobs : List Job) : PBOM :=
  let p1 : PBOM :=
    match ExtractRunner L.ToLower jobs with
    | some runner => { pbom with Build := { pbom.Build with Runner := some runner } }
    | none => pbom
  let p2 : PBOM :=
    match (ExtractTimestamps jobs).1 with
    | some started => { p1 with Build := { p1.Build with StartedAt := some started } }
    | none => p1
  match (ExtractTimestamps jobs).2 with
  | some completed => { p2 with Build := { p2.Build with CompletedAt := some completed } }
  | none => p2

/-- Step 2 of `Enrich`. -/
def enrichFromJobs {W : Type} (L : Lib) (R : Remote W) (event : WebhookEvent)
    (r : PBOM × St W) : PBOM × St W :=
  match clientGetJobs R event.Repository.OwnerLogin event.Repository.Name
      event.WorkflowRun.ID r.2 with
  | (Except.error _, s1) => (r.1, s1)
  | (Except.ok jobs, s1) => (applyJobs L r.1 jobs, s1)

/-- Step 3 of `Enrich`. -/
def overwriteRunFields (event : WebhookEvent) (pbom : PBOM) : PBOM :=
  { pbom with
    Build := { pbom.Build with
      Status := event.WorkflowRun.Conclusion,
      WorkflowName := event.WorkflowRun.Name,
      WorkflowFile := event.WorkflowRun.Path } }

/-- Step 4 of `Enrich`. -/
def enrichSecrets {W : Type} (R : Remote W) (event : WebhookEvent) (r : PBOM × St W) :
    PBOM × St W :=
  if event.WorkflowRun.Path ≠ [] then
    match clientGetWorkflowContent R event.Repository.OwnerLogin event.Repository.Name
        event.WorkflowRun.Path event.WorkflowRun.HeadSHA r.2 with
    | (Except.error _, s1) => (r.1, s1)
    | (Except.ok yamlContent, s1) =>
      if (ExtractSecretsFromWorkflow yamlContent).length > 0 then
        ({ r.1 with Build := { r.1.Build with
            SecretsAccessed := ExtractSecretsFromWorkflow yamlContent } }, s1)
      else (r.1, s1)
  else r

/-- Step 5 of `Enrich`. -/
def enrichArtifacts {W : Type} (L : Lib) (R : Remote W) (event : WebhookEvent)
    (r : PBOM × St W) : PBOM × St W :=
  match ExtractDockerArtifacts L R event.Repository.OwnerLogin event.Repository.Name
      event.WorkflowRun.ID r.2 with
  | (dockerArtifacts, s1) =>
    if dockerArtifacts.length > 0 then
      ({ r.1 with Artifacts := r.1.Artifacts ++ dockerArtifacts }, s1)
    else (r.1, s1)

/-- Steps 1 to 5 of `Enrich`: the record handed to `Store`, and the state in
which `Store` is called. -/
def enrichRecord {W : Type} (L : Lib) (R : Remote W) (event : WebhookEvent) (s : St W) :
    PBOM × St W :=
  enrichArtifacts L R event
    (enrichSecrets R event
      ((overwriteRunFields event (enrichFromJobs L R event (resolveSkeleton L R event s)).1),
        (enrichFromJobs L R event (resolveSkeleton L R event s)).2))

/-- Struct `Enricher` of enricher.go: the storage directory (the client is
the parameter `R`, the logger is left out). -/
structure Enricher where
  storageDir : Str
  deriving DecidableEq, Repr

/-- Method `Enricher.Enrich` of enricher.go: the state after the pipeline
has run. -/
def Enrich {W : Type} (L : Lib) (R : Remote W) (e : Enricher) (event : WebhookEvent)
    (s : St W) : St W :=
  (Store L R e.storageDir (enrichRecord L R event s).1 event.Repository.OwnerLogin
    event.Repository.Name event.WorkflowRun.ID (enrichRecord L R event s).2).2

/-- The entries into `Store` recorded in a call log, in order: directory,
record, owner, repo, run id. -/
def storeCalls : List Call → List (Str × PBOM × Str × Str × Int)
  | [] => []
  | Call.Store dir pbom owner repo runID :: rest =>
    (dir, pbom, owner, repo, runID) :: storeCalls rest
  | _ :: rest => storeCalls rest

/-- The records handed to `Store`, in order, according to a call log. -/
def recordsStored (trace : List Call) : List PBOM :=
  (storeCalls trace).map (fun c => c.2.1)

/-- The identities (directory, owner, repo, run id) under which `Store` was
entered, in order, according to a call log. -/
def storeKeys (trace : List Call) : List (Str × Str × Str × Int) :=
  (storeCalls trace).map (fun c => (c.1, c.2.2))

/-- The paths given to `os.WriteFile`, in order, according to a call log. -/
def writtenPaths : List Call → List Str
  | [] => []
  | Call.WriteFile path _ :: rest => path :: writtenPaths rest
  | _ :: rest => writtenPaths rest

/-- A call that only reads from the outside world: a client method, a wait
or the clock (and not `Store`, `MkdirAll` or `WriteFile`). -/
def Call.isFetch : Call → Bool
  | Call.Store _ _ _ _ _ => false
  | Call.MkdirAll _ => false
  | Call.WriteFile _ _ => false
  | _ => true

/-- From state `s` to state `t` the log grew by reading calls only. -/
def OnlyFetches {W : Type} (s t : St W) : Prop :=
  ∃ extra : List Call, t.trace = s.trace ++ extra ∧ ∀ c ∈ extra, c.isFetch = true

/-- The number of collector-run lookups (`ListRunsByCommit`) in a call log. -/
def lookupCount : List Call → Nat
  | [] => 0
  | Call.ListRunsByCommit _ _ _ :: rest => lookupCount rest + 1
  | _ :: rest => lookupCount rest

/-- The entry one artifact of the listing contributes to the result of
`ExtractDockerArtifacts` when it is visited in state `s`: nothing when its
name lacks the prefix `docker-metadata-` or when its download or decoding
fails, else the artifact built from the decoded metadata. -/
def dockerEntry {W : Type} (L : Lib) (R : Remote W) (repo : Str) (art : gh.Artifact)
    (s : St W) : Option Artifact :=
  if List.isPrefixOf "docker-metadata-".toList art.Name then
    match (downloadAndParseDockerMetadata L R art.ArchiveDownloadURL s).1 with
    | Except.ok dockerMeta => some (dockerArtifact repo dockerMeta)
    | Except.error _ => none
  else none

/-! ## internal/cli/validate.go -/

/-- Call `strings.TrimPrefix(s, lead)`. -/
def trimPrefixStr (s lead : Str) : Str :=
  if List.isPrefixOf lead s then s.drop lead.length else s

/-- The test on one rune in the loops of `isValidSHA` and `isValidDigest`:
`(c >= '0' && c <= '9') || (c >= 'a' && c <= 'f')`. -/
def isLowerHexRune (c : Char) : Bool :=
  ('0'.toNat ≤ c.toNat && c.toNat ≤ '9'.toNat) ||
    ('a'.toNat ≤ c.toNat && c.toNat ≤ 'f'.toNat)

/-- Function `isValidDigest` of validate.go; the loop that returns false at
the first rune failing the test is `List.all`. -/
def isValidDigest (s : Str) : Bool :=
  if List.isPrefixOf "sha256:".toList s = false then false
  else if byteLen (trimPrefixStr s "sha256:".toList) ≠ 64 then false
  else (trimPrefixStr s "sha256:".toList).all isLowerHexRune

/-- Reading a decimal numeral back, one character at a time: the value so
far times ten plus the value of the digit. -/
def digitStep (acc : Nat) (c : Char) : Nat := acc * 10 + (c.toNat - 48)

/-! ## A file system as a map -/

/-- A file system seen as a map from path to content; `none` is a path
without a file. -/
abbrev FileMap := Str → Option Bytes

/-- A world that is only a file system: `os.WriteFile` replaces the content
of its path and leaves every other path alone, `os.MkdirAll` succeeds, and
nothing can be fetched. -/
def fileMapRemote : Remote FileMap :=
  { ListRunsByCommit := fun _ _ _ w => (Except.error (GoError.msg "offline".toList), w),
    GetJobs := fun _ _ _ w => (Except.error (GoError.msg "offline".toList), w),
    GetArtifacts := fun _ _ _ w => (Except.error (GoError.msg "offline".toList), w),
    DownloadArtifact := fun _ w => (Except.error (GoError.msg "offline".toList), w),
    GetWorkflowContent := fun _ _ _ _ w => (Except.error (GoError.msg "offline".toList), w),
    After := fun _ w => (true, w),
    Now := fun w => (0, w),
    MkdirAll := fun _ w => (none, w),
    WriteFile := fun path data w => (none, fun q => if q = path then some data else w q) }

/-! ## internal/cli/validate.go, continued -/

/-- Function `isValidSHA` of validate.go; the loop that returns false at the
first rune failing the test is `List.all`. -/
def isValidSHA (s : Str) : Bool :=
  if byteLen s ≠ 40 then false
  else s.all isLowerHexRune

/-! ## Record invariants -/

/-- Struct `Rule` of config.go. -/
structure filter.Rule where
  Property : Str
  Value : Str
  Values : List Str
  Action : Str
  deriving DecidableEq, Repr

/-- Struct `FilterConfig` of config.go. -/
structure filter.FilterConfig where
  DefaultAction : Str
  Rules : List filter.Rule
  deriving DecidableEq, Repr

/-- Struct `Config` of config.go. -/
structure filter.Config where
  Version : Str
  Filtering : filter.FilterConfig
  deriving DecidableEq, Repr

/-- Function `matches` of eval.go; the loop over `rule.Values` that returns
true at the first equal value is `List.any`. -/
def filter.matches (rule : filter.Rule) (propVal : Str) : Bool :=
  if rule.Value ≠ [] ∧ propVal = rule.Value then true
  else rule.Values.any (fun v => decide (propVal = v))

/-- The loop of `Evaluate` over the rules still to visit, and the statements
after it.  `quote` is the verb `%q` of `fmt.Sprintf`; a map is its lookup
function, the nil map the one that finds nothing. -/
def filter.evaluateRules (quote : Str → Str) (cfg : filter.Config)
    (properties : Str → Option Str) : List filter.Rule → Bool × Str
  | [] =>
    (decide (cfg.Filtering.DefaultAction = "include".toList),
      "no rules matched → default_action ".toList ++ quote cfg.Filtering.DefaultAction)
  | rule :: rest =>
    match properties rule.Property with
    | none => filter.evaluateRules quote cfg properties rest
    | some propVal =>
      if filter.matches rule propVal then
        (decide (rule.Action = "include".toList),
          "matched rule: property ".toList ++ quote rule.Property ++ " = ".toList ++
            quote propVal ++ " → ".toList ++ rule.Action)
      else filter.evaluateRules quote cfg properties rest

/-- Function `Evaluate` of eval.go. -/
def filter.Evaluate (quote : Str → Str) (cfg : filter.Config)
    (properties : Str → Option Str) : Bool × Str :=
  filter.evaluateRules quote cfg properties cfg.Filtering.Rules

/-- The body of the loop of `validateConfig` for rule number `i`: the error
it returns, `none` when it falls through to the next rule. -/
def filter.ruleError (quote : Str → Str) (i : Nat) (r : filter.Rule) : Option GoError :=
  if r.Property = [] then
    some (GoError.msg ("rule ".toList ++ formatInt i ++
      ": missing required field: property".toList))
  else if r.Value = [] ∧ r.Values.length = 0 then
    some (GoError.msg ("rule ".toList ++ formatInt i ++
      ": must specify value or values".toList))
  else if r.Action ≠ "include".toList ∧ r.Action ≠ "exclude".toList then
    some (GoError.msg ("rule ".toList ++ formatInt i ++ ": invalid action ".toList ++
      quote r.Action ++ ": must be \"include\" or \"exclude\"".toList))
  else none

/-- The loop of `validateConfig` from rule number `i` on. -/
def filter.validateRules (quote : Str → Str) : Nat → List filter.Rule → Option GoError
  | _, [] => none
  | i, r :: rest =>
    match filter.ruleError quote i r with
    | some err => some err
    | none => filter.validateRules quote (i + 1) rest

/-- Function `validateConfig` of config.go; `none` is the nil error. -/
def filter.validateConfig (quote : Str → Str) (cfg : filter.Config) : Option GoError :=
  if cfg.Version = [] then
    some (GoError.msg "config missing required field: version".toList)
  else if cfg.Filtering.DefaultAction ≠ "include".toList ∧
      cfg.Filtering.DefaultAction ≠ "exclude".toList then
    some (GoError.msg ("invalid default_action ".toList ++ quote cfg.Filtering.DefaultAction ++
      ": must be \"include\" or \"exclude\"".toList))
  else filter.validateRules quote 0 cfg.Filtering.Rules

/-! ## internal/detect/tools.go -/

/-- The scan of `strings.Fields` over the text still to read, with the
characters of the field being read, last one first. -/
def fieldsFrom : Str → Str → List Str
  | cur, [] => if cur = [] then [] else [cur.reverse]
  | cur, c :: cs =>
    if isUnicodeSpace c then
      if cur = [] then fieldsFrom [] cs else cur.reverse :: fieldsFrom [] cs
    else fieldsFrom (c :: cur) cs

/-- Call `strings.Fields(s)`. -/
def stringsFields (s : Str) : List Str :=
  fieldsFrom [] s

/-- The first byte of the UTF-8 encoding of a character. -/
def firstByte (c : Char) : Nat :=
  if c.toNat < 0x80 then c.toNat
  else if c.toNat < 0x800 then 0xC0 + c.toNat / 0x40
  else if c.toNat < 0x10000 then 0xE0 + c.toNat / 0x1000
  else 0xF0 + c.toNat / 0x40000

/-- The test of the loop of `parseGo` on one field. -/
def isGoVersionField (field : Str) : Bool :=
  List.isPrefixOf "go".toList field && decide (byteLen field > 2) &&
    match field.drop 2 with
    | c :: _ => decide ('0'.toNat ≤ firstByte c) && decide (firstByte c ≤ '9'.toNat)
    | [] => false

/-- Function `parseGo` of tools.go. -/
def parseGo (s : Str) : Str :=
  match (stringsFields s).find? isGoVersionField with
  | some field => field.drop 2
  | none => s

/-! ## Sample data -/

/-- A configuration whose webhook secret is "s3cret". -/
def sampleConfig : Config :=
  { Addr := ":8080".toList, WebhookSecret := "s3cret".toList,
    GitHubToken := "token".toList, StorageDir := "/data".toList }

/-- A stand-in for the keyed hash, for evaluating the handler on concrete
requests: it returns the payload itself. -/
def sampleMac : Str → Bytes → Bytes :=
  fun _ payload => payload

/-- A sample event: run 42 of workflow "CI" on repository acme/widget, with
a forty-character head SHA. -/
def sampleEvent : WebhookEvent :=
  { Action := "completed".toList,
    WorkflowRun :=
      { ID := 42, Name := "CI".toList, HeadSHA := List.replicate 40 'a',
        HeadBranch := "main".toList, Path := ".github/workflows/ci.yml".toList,
        Event := "push".toList, Status := "completed".toList,
        Conclusion := "success".toList, ActorLogin := "dev".toList },
    Repository :=
      { Name := "widget".toList, FullName := "acme/widget".toList,
        OwnerLogin := "acme".toList } }

/-- A decoder for concrete requests: the body `[1, 2, 3]` decodes to
`sampleEvent`, the body `[4]` to the same event with head SHA "abc", the
body `[5]` to the same event named "PBOM Collector", every other body is
rejected. -/
def sampleUnmarshal : Bytes → Option WebhookEvent :=
  fun body =>
    if body = [1, 2, 3] then some sampleEvent
    else if body = [4] then
      some { sampleEvent with
        WorkflowRun := { sampleEvent.WorkflowRun with HeadSHA := "abc".toList } }
    else if body = [5] then
      some { sampleEvent with
        WorkflowRun := { sampleEvent.WorkflowRun with Name := "PBOM Collector".toList } }
    else none

/-- A signed POST request carrying `body` with the given event-type header,
for a server whose secret is "s3cret". -/
def signedRequest (body : Bytes) (eventType : Str) : Request :=
  { Method := "POST".toList,
    Body := { data := body, fails := false },
    HubSignature256 := computeSignature sampleMac body "s3cret".toList,
    GitHubEvent := eventType }

/-- A world without state whose answers are fixed: the runs listed for any
commit, the jobs of any run, the artifacts of a run by run id, the archive
behind a URL, the workflow text, and the clock; timers fire, directories and
files can be written. -/
def fixedRemote (runs : Except GoError (List gh.WorkflowRun))
    (jobs : Except GoError (List Job))
    (artifacts : Int → Except GoError (List gh.Artifact))
    (download : Str → Except GoError Bytes)
    (content : Except GoError Str) (now : Time) : Remote Unit :=
  { ListRunsByCommit := fun _ _ _ w => (runs, w),
    GetJobs := fun _ _ _ w => (jobs, w),
    GetArtifacts := fun _ _ runID w => (artifacts runID, w),
    DownloadArtifact := fun url w => (download url, w),
    GetWorkflowContent := fun _ _ _ _ w => (content, w),
    After := fun _ w => (true, w),
    Now := fun w => (now, w),
    MkdirAll := fun _ w => (none, w),
    WriteFile := fun _ _ w => (none, w) }

/-- A skeleton record as a collector run would have produced it, with a
start time, two secrets and one artifact of its own. -/
def sampleSkeleton : PBOM :=
  { PBOMVersion := schemaVersion,
    ID := "skeleton-7".toList,
    Timestamp := 900,
    Source :=
      { Repository := "acme/widget".toList, CommitSHA := List.replicate 40 'a',
        Branch := "main".toList, Ref := "refs/heads/main".toList, Author := "dev".toList },
    Build :=
      { WorkflowRunID := "7".toList, WorkflowName := "PBOM Collector".toList,
        WorkflowFile := ".github/workflows/pbom.yml".toList, Trigger := "push".toList,
        Actor := "dev".toList, Runner := none,
        ToolVersions := [("go".toList, "1.22.4".toList)],
        SecretsAccessed := ["OLD_A".toList, "OLD_B".toList],
        StartedAt := some 950, CompletedAt := some 960, Status := "in_progress".toList },
    Artifacts :=
      [{ Name := "widget".toList, Type_ := "binary".toList, Digest := [], URI := [],
         Tags := [], Provenance := none, Vulnerabilities := none }],
    Promotion := none }

/-- Library stand-ins for concrete evaluation: an archive is read as one
entry `pbom.json` holding the archive bytes themselves, the bytes `[1]` decode
to `sampleSkeleton`, the bytes `[2]` to a metadata record, every record
serializes to the bytes `[0]`, paths are joined with a slash. -/
def sampleLib : Lib :=
  { ToLower := asciiToLower,
    zipNewReader := fun data => Except.ok [{ Name := "pbom.json".toList, Open := Except.ok data }],
    decodePBOM := fun data =>
      if data = [1] then Except.ok sampleSkeleton
      else Except.error (GoError.msg "invalid character".toList),
    decodeDockerMetadata := fun data =>
      if data = [2] then
        Except.ok { Image := "ghcr.io/acme/widget".toList,
                    Digest := "sha256:".toList ++ List.replicate 64 'b',
                    Tags := "v1\nlatest\n".toList }
      else Except.error (GoError.msg "invalid character".toList),
    MarshalIndent := fun _ => Except.ok [0],
    filepathJoin := fun dir name => dir ++ "/".toList ++ name }

/-- A successful collector run with id 7. -/
def sampleCollectorRun : gh.WorkflowRun :=
  { ID := 7, Name := "PBOM Collector".toList, HeadSHA := List.replicate 40 'a',
    HeadBranch := "main".toList, Path := ".github/workflows/pbom.yml".toList,
    Event := "push".toList, Status := "completed".toList, Conclusion := "success".toList }

/-- A world in which nothing can be fetched: every client call fails. -/
def offlineRemote : Remote Unit :=
  fixedRemote (Except.error (GoError.msg "offline".toList))
    (Except.error (GoError.msg "offline".toList))
    (fun _ => Except.error (GoError.msg "offline".toList))
    (fun _ => Except.error (GoError.msg "offline".toList))
    (Except.error (GoError.msg "offline".toList)) 5000

/-- A world in which the collector run 7 is listed and carries the artifact
`pbom-7` decoding to `sampleSkeleton`, the triggering run 42 has the given
jobs and one `docker-metadata-42` artifact, and the workflow file is
`sampleWorkflow`. -/
def onlineRemote (jobs : List Job) : Remote Unit :=
  fixedRemote (Except.ok [sampleCollectorRun]) (Except.ok jobs)
    (fun runID =>
      if runID = 7 then
        Except.ok [{ ID := 70, Name := "pbom-7".toList, SizeInBytes := 1,
                     ArchiveDownloadURL := "url/pbom".toList, Digest := [] }]
      else
        Except.ok [{ ID := 71, Name := "docker-metadata-42".toList, SizeInBytes := 1,
                     ArchiveDownloadURL := "url/docker".toList, Digest := [] }])
    (fun url => if url = "url/pbom".toList then Except.ok [1] else Except.ok [2])
    (Except.ok sampleWorkflow) 5000

/-- The initial state over the stateless world: nothing logged yet. -/
def startState : St Unit :=
  { world := (), trace := [] }

/-- A world in which no collector run is listed and the other fetches fail,
except that the jobs fetch succeeds with the given jobs. -/
def jobsOnlyRemote (jobs : List Job) : Remote Unit :=
  fixedRemote (Except.ok []) (Except.ok jobs)
    (fun _ => Except.error (GoError.msg "offline".toList))
    (fun _ => Except.error (GoError.msg "offline".toList))
    (Except.error (GoError.msg "offline".toList)) 5000

/-- A job without timestamps. -/
def untimedJob : Job :=
  { mkJob ["ubuntu-latest".toList] [] [] with StartedAt := 0, CompletedAt := 0 }

/-- A world in which the collector run 7 is listed at once, with the given
answers for its artifact list and for the archive download. -/
def collectorFoundRemote (artifacts : Except GoError (List gh.Artifact))
    (download : Except GoError Bytes) : Remote Unit :=
  fixedRemote (Except.ok [sampleCollectorRun]) (Except.ok [])
    (fun _ => artifacts) (fun _ => download)
    (Except.error (GoError.msg "offline".toList)) 5000

/-- The artifact `pbom-7` of the collector run 7. -/
def samplePbomArtifact : gh.Artifact :=
  { ID := 70, Name := "pbom-7".toList, SizeInBytes := 1,
    ArchiveDownloadURL := "url/pbom".toList, Digest := [] }

/-- An archive reader that sees three entries in every archive: a text file,
then `a.json` holding the bytes `[9]`, which decode as nothing, then `b.json`
holding `[1]` and `c.json` holding `[2]`, which decode as a skeleton record
and as a metadata record. -/
def threeEntryLib : Lib :=
  { sampleLib with
    zipNewReader := fun _ =>
      Except.ok [{ Name := "README.txt".toList, Open := Except.ok [1] },
                 { Name := "a.json".toList, Open := Except.ok [9] },
                 { Name := "b.json".toList, Open := Except.ok [1] },
                 { Name := "c.json".toList, Open := Except.ok [2] }] }

/-- Four artifacts of a run: a metadata artifact that decodes, one whose
archive does not decode, one without the prefix, and one more that decodes. -/
def fourArtifacts : List gh.Artifact :=
  [{ ID := 1, Name := "docker-metadata-api".toList, SizeInBytes := 1,
     ArchiveDownloadURL := "url/docker".toList, Digest := [] },
   { ID := 2, Name := "docker-metadata-web".toList, SizeInBytes := 1,
     ArchiveDownloadURL := "url/pbom".toList, Digest := [] },
   { ID := 3, Name := "coverage".toList, SizeInBytes := 1,
     ArchiveDownloadURL := "url/docker".toList, Digest := [] },
   { ID := 4, Name := "docker-metadata-db".toList, SizeInBytes := 1,
     ArchiveDownloadURL := "url/docker".toList, Digest := [] }]

/-- A world whose run has the artifacts `fourArtifacts`; the archive behind
`url/pbom` holds `[1]`, which is no metadata record, every other archive
holds `[2]`, which is one. -/
def fourArtifactsRemote : Remote Unit :=
  fixedRemote (Except.ok []) (Except.ok []) (fun _ => Except.ok fourArtifacts)
    (fun url => if url = "url/pbom".toList then Except.ok [1] else Except.ok [2])
    (Except.ok []) 5000

/-- The library of `sampleLib`, except that a record serializes to the
character codes of its id, so that records with different ids serialize
differently. -/
def idMarshalLib : Lib :=
  { sampleLib with
    MarshalIndent := fun pbom => Except.ok (pbom.ID.map (fun c => Fin.ofNat c.toNat)) }

/-- The empty file system, nothing logged yet. -/
def emptyDisk : St FileMap :=
  { world := fun _ => none, trace := [] }

/-- A body of three bytes followed by 10 MiB of spaces: three bytes longer
than the cap. -/
def oversizedBody : Bytes :=
  [1, 2, 3] ++ List.replicate maxBodyBytes 32

/-- A decoder that reads the event from the first three bytes as
`sampleUnmarshal` does and accepts whatever follows them, the way
`json.Unmarshal` accepts white space after the value. -/
def paddedUnmarshal : Bytes → Option WebhookEvent :=
  fun body => sampleUnmarshal (body.take 3)

/-- A POST "workflow_run" request carrying `oversizedBody`, whose signature
header is the signature of the first 10 MiB of that body under the secret
"s3cret". -/
def oversizedRequest : Request :=
  { Method := "POST".toList,
    Body := { data := oversizedBody, fails := false },
    HubSignature256 :=
      computeSignature sampleMac (oversizedBody.take maxBodyBytes) "s3cret".toList,
    GitHubEvent := "workflow_run".toList }

/-- The sample event with the repository name changed to "gadget" while the
full name stays "acme/widget". -/
def renamedEvent : WebhookEvent :=
  { sampleEvent with
    Repository := { sampleEvent.Repository with Name := "gadget".toList } }

/-- Verb `%q` on text without quotes, backslashes or control characters: the
text between double quotes. -/
def sampleQuote (s : Str) : Str :=
  '"' :: s ++ ['"']

/-- Helper `makeConfig` of filter_test.go. -/
def makeConfig (defaultAction : Str) (rules : List filter.Rule) : filter.Config :=
  { Version := "1.0".toList,
    Filtering := { DefaultAction := defaultAction, Rules := rules } }

/-- A properties map given by its entries. -/
def propertiesOf (entries : List (Str × Str)) : Str → Option Str :=
  fun key => (entries.find? (fun entry => decide (entry.1 = key))).map Prod.snd

/-- The rule `pbom-enabled = true, include` of filter_test.go. -/
def enabledRule : filter.Rule :=
  { Property := "pbom-enabled".toList, Value := "true".toList, Values := [],
    Action := "include".toList }

/-- The rule `tier in production, staging, include` of filter_test.go. -/
def tierRule : filter.Rule :=
  { Property := "tier".toList, Value := [],
    Values := ["production".toList, "staging".toList], Action := "include".toList }

/-- The rule `lifecycle = deprecated, exclude` of filter_test.go. -/
def deprecatedRule : filter.Rule :=
  { Property := "lifecycle".toList, Value := "deprecated".toList, Values := [],
    Action := "exclude".toList }

/-- A world in which nothing can be fetched and no timer fires: every wait
ends because the context is done. -/
def stalledRemote : Remote Unit :=
  { offlineRemote with After := fun _ w => (false, w) }

/-! # Theorems -/

/-! ## Signature verification -/

theorem cutAt_append (sep : Char) (a b : Str) (h : sep ∉ a) :
    cutAt sep (a ++ sep :: b) = some (a, b) := by
  induction a with
  | nil => simp [cutAt]
  | cons x xs ih =>
    simp only [List.mem_cons, not_or] at h
    have hx : ¬ x = sep := fun e => h.1 e.symm
    simp [cutAt, hx, ih h.2]

theorem cutAt_some (sep : Char) (s a b : Str) (h : cutAt sep s = some (a, b)) :
    s = a ++ sep :: b ∧ sep ∉ a := by
  induction s generalizing a b with
  | nil => simp [cutAt] at h
  | cons c cs ih =>
    unfold cutAt at h
    by_cases hc : c = sep
    · simp only [hc, if_true, Option.some.injEq, Prod.mk.injEq] at h
      obtain ⟨rfl, rfl⟩ := h
      simp [hc]
    · simp only [hc, if_false] at h
      cases hcut : cutAt sep cs with
      | none => simp [hcut] at h
      | some p =>
        obtain ⟨a1, b1⟩ := p
        simp only [hcut, Option.some.injEq, Prod.mk.injEq] at h
        obtain ⟨rfl, rfl⟩ := h
        have h1 := ih a1 b1 hcut
        refine ⟨by simp [← h1.1], ?_⟩
        simp only [List.mem_cons, not_or]
        exact ⟨fun e => hc e.symm, h1.2⟩

theorem cutAt_eq_some_iff (sep : Char) (s a b : Str) :
    cutAt sep s = some (a, b) ↔ s = a ++ sep :: b ∧ sep ∉ a :=
  ⟨cutAt_some sep s a b, fun h => by rw [h.1]; exact cutAt_append sep a b h.2⟩

theorem cutAt_sha256 (hex : Str) :
    cutAt '=' ("sha256=".toList ++ hex) = some ("sha256".toList, hex) := by
  rw [cutAt_eq_some_iff]
  exact ⟨by simp, by decide⟩

theorem verifySignature_ok_iff (mac : Str → Bytes → Bytes) (payload : Bytes)
    (signature secret : Str) :
    VerifySignature mac payload signature secret = Except.ok () ↔
      (secret ≠ [] ∧ ∃ hex : Str, signature = "sha256=".toList ++ hex ∧
        hexDecodeString hex = some (mac secret payload)) := by
  constructor
  · intro h
    unfold VerifySignature at h
    by_cases hs : secret = []
    · simp [hs] at h
    by_cases hg : signature = []
    · simp [hs, hg] at h
    simp only [hs, hg, if_false] at h
    unfold splitN2 at h
    cases hcut : cutAt '=' signature with
    | none => simp [hcut] at h
    | some p =>
      obtain ⟨a, b⟩ := p
      simp only [hcut] at h
      by_cases ha : a = "sha256".toList
      · simp only [ha, ne_eq, not_true_eq_false, if_false] at h
        cases hd : hexDecodeString b with
        | none => simp [hd] at h
        | some bs =>
          simp only [hd] at h
          by_cases he : bs = mac secret payload
          · refine ⟨hs, b, ?_, by rw [hd, he]⟩
            have := (cutAt_eq_some_iff _ _ _ _).mp hcut
            rw [this.1, ha]
            simp
          · simp [he] at h
      · have ha2 : ¬ a = ['s', 'h', 'a', '2', '5', '6'] := ha
        simp [ha2] at h
  · rintro ⟨hs, hex, rfl, hd⟩
    unfold VerifySignature
    have hg : ¬ ("sha256=".toList ++ hex = []) := by simp
    simp only [hs, hg, if_false]
    unfold splitN2
    rw [cutAt_sha256]
    simp [hd]

theorem fromHexChar_hexDigit : ∀ n : Nat, n < 16 → fromHexChar (hexDigit n) = some n := by
  decide

theorem hexDecode_encode (bs : Bytes) : hexDecodeString (hexEncodeToString bs) = some bs := by
  induction bs with
  | nil => rfl
  | cons v rest ih =>
    have h1 : v.val / 16 < 16 := by omega
    have h2 : v.val % 16 < 16 := by omega
    have hv : (Fin.ofNat (v.val / 16 * 16 + v.val % 16) : Fin 256) = v := by
      apply Fin.ext
      simp only [Fin.ofNat, Fin.val_mk]
      omega
    simp only [hexEncodeToString, hexDecodeString, fromHexChar_hexDigit _ h1,
      fromHexChar_hexDigit _ h2, ih, hv]

theorem verifySignature_no_sha256 (mac : Str → Bytes → Bytes) (payload : Bytes)
    (signature secret : Str) (hs : secret ≠ []) (hg : signature ≠ [])
    (hf : ∀ hex : Str, signature ≠ "sha256=".toList ++ hex) :
    VerifySignature mac payload signature secret = Except.error SigError.invalidFormat := by
  unfold VerifySignature
  rw [if_neg hs, if_neg hg]
  unfold splitN2
  cases hcut : cutAt '=' signature with
  | none => rfl
  | some p =>
    obtain ⟨a, b⟩ := p
    have hab := (cutAt_some _ _ _ _ hcut).1
    have ha : a ≠ "sha256".toList := by
      intro e
      apply hf b
      rw [hab, e]
      simp
    simp only [ha, ne_eq, not_false_eq_true, if_true]

theorem verifySignature_sha256 (mac : Str → Bytes → Bytes) (payload : Bytes)
    (hex secret : Str) (hs : secret ≠ []) :
    VerifySignature mac payload ("sha256=".toList ++ hex) secret =
      match hexDecodeString hex with
      | none => Except.error SigError.invalidHex
      | some sigBytes =>
        if sigBytes = mac secret payload then Except.ok ()
        else Except.error SigError.mismatch := by
  have hg : ¬ ("sha256=".toList ++ hex = []) := by simp
  unfold VerifySignature
  rw [if_neg hs, if_neg hg]
  unfold splitN2
  rw [cutAt_sha256]
  simp only [ne_eq, not_true_eq_false, if_false]

/-- C1: `VerifySignature` succeeds exactly when the secret is non-empty and
the header is "sha256=" followed by a hex string that decodes to the keyed
hash of the payload; in every other case it returns an error: for an empty
secret, an empty header, a header that is not "sha256=" plus some text,
undecodable hex, and a digest that differs. -/
theorem C1_verifySignature_contract (mac : Str → Bytes → Bytes) (payload : Bytes)
    (signature secret : Str) :
    (VerifySignature mac payload signature secret = Except.ok () ↔
      (secret ≠ [] ∧ ∃ hex : Str, signature = "sha256=".toList ++ hex ∧
        hexDecodeString hex = some (mac secret payload))) ∧
    (¬ (secret ≠ [] ∧ ∃ hex : Str, signature = "sha256=".toList ++ hex ∧
        hexDecodeString hex = some (mac secret payload)) →
      ∃ e, VerifySignature mac payload signature secret = Except.error e) ∧
    (secret = [] →
      VerifySignature mac payload signature secret
        = Except.error SigError.secretEmpty) ∧
    (secret ≠ [] → signature = [] →
      VerifySignature mac payload signature secret
        = Except.error SigError.signatureEmpty) ∧
    (secret ≠ [] → signature ≠ [] →
      (∀ hex : Str, signature ≠ "sha256=".toList ++ hex) →
      VerifySignature mac payload signature secret
        = Except.error SigError.invalidFormat) ∧
    (∀ hex : Str, secret ≠ [] → signature = "sha256=".toList ++ hex →
      hexDecodeString hex = none →
      VerifySignature mac payload signature secret
        = Except.error SigError.invalidHex) ∧
    (∀ (hex : Str) (digest : Bytes), secret ≠ [] →
      signature = "sha256=".toList ++ hex → hexDecodeString hex = some digest →
      digest ≠ mac secret payload →
      VerifySignature mac payload signature secret
        = Except.error SigError.mismatch) := by
  refine ⟨verifySignature_ok_iff mac payload signature secret, fun hn => ?_, ?_, ?_,
    verifySignature_no_sha256 mac payload signature secret, ?_, ?_⟩
  · cases hv : VerifySignature mac payload signature secret with
    | error e => exact ⟨e, rfl⟩
    | ok u =>
      exact absurd ((verifySignature_ok_iff mac payload signature secret).mp hv) hn
  · intro hs
    unfold VerifySignature
    rw [if_pos hs]
  · intro hs hg
    unfold VerifySignature
    rw [if_neg hs, if_pos hg]
  · intro hex hs hsig hd
    rw [hsig, verifySignature_sha256 mac payload hex secret hs, hd]
  · intro hex digest hs hsig hd hne
    rw [hsig, verifySignature_sha256 mac payload hex secret hs, hd]
    simp only [hne, if_false]

/-- C2 (as stated, refuted): for no keyed hash does every payload and every
secret verify, because the empty secret is rejected before any hashing. -/
theorem C2_empty_secret_rejected :
    ¬ ∃ mac : Str → Bytes → Bytes, ∀ (payload : Bytes) (secret : Str),
      VerifySignature mac payload (computeSignature mac payload secret) secret
        = Except.ok () := by
  rintro ⟨mac, h⟩
  have h0 := h [] []
  simp [VerifySignature] at h0

/-- C2 (amended): for every payload and every non-empty secret, the header
"sha256=" followed by the hex encoding of the keyed hash verifies. -/
theorem C2_computed_signature_verifies (mac : Str → Bytes → Bytes) (payload : Bytes)
    (secret : Str) (hs : secret ≠ []) :
    VerifySignature mac payload (computeSignature mac payload secret) secret
      = Except.ok () :=
  (verifySignature_ok_iff mac payload _ secret).mpr
    ⟨hs, hexEncodeToString (mac secret payload), rfl, hexDecode_encode _⟩

theorem C2_computed_signature_verifies_witness :
    "s3cret".toList ≠ [] ∧
      VerifySignature sampleMac [1, 2, 3]
        (computeSignature sampleMac [1, 2, 3] "s3cret".toList) "s3cret".toList
        = Except.ok () :=
  ⟨by decide, C2_computed_signature_verifies sampleMac [1, 2, 3] "s3cret".toList (by decide)⟩

/-! ## The intake handler -/

theorem handleWebhook_verified (mac : Str → Bytes → Bytes)
    (unmarshal : Bytes → Option WebhookEvent) (s : Server) (r : Request) (body : Bytes)
    (hm : r.Method = "POST".toList) (hb : readLimitedBody r.Body = some body)
    (hv : VerifySignature mac body r.HubSignature256 s.cfg.WebhookSecret = Except.ok ()) :
    handleWebhook mac unmarshal s r =
      if r.GitHubEvent ≠ "workflow_run".toList then
        { server := s, reply := Reply.status 200, dispatched := [] }
      else
        match unmarshal body with
        | none => { server := s, reply := Reply.status 400, dispatched := [] }
        | some event =>
          if event.Action ≠ "completed".toList then
            { server := s, reply := Reply.status 200, dispatched := [] }
          else if event.WorkflowRun.Name = "PBOM Collector".toList then
            { server := s, reply := Reply.status 200, dispatched := [] }
          else if byteLen event.WorkflowRun.HeadSHA < 8 then
            { server := s, reply := Reply.panicked, dispatched := [] }
          else
            { server := s, reply := Reply.status 202, dispatched := [event] } := by
  unfold handleWebhook
  simp only [hm, ne_eq, not_true_eq_false, if_false, hb, hv]

theorem handleWebhook_dispatch_cases (mac : Str → Bytes → Bytes)
    (unmarshal : Bytes → Option WebhookEvent) (s : Server) (r : Request)
    (h : (handleWebhook mac unmarshal s r).dispatched ≠ []) :
    r.Method = "POST".toList ∧
      ∃ body, readLimitedBody r.Body = some body ∧
        VerifySignature mac body r.HubSignature256 s.cfg.WebhookSecret = Except.ok () ∧
        r.GitHubEvent = "workflow_run".toList ∧
        ∃ event, unmarshal body = some event ∧
          event.Action = "completed".toList ∧
          event.WorkflowRun.Name ≠ "PBOM Collector".toList ∧
          8 ≤ byteLen event.WorkflowRun.HeadSHA ∧
          (handleWebhook mac unmarshal s r).dispatched = [event] := by
  by_cases hm : r.Method = "POST".toList
  swap
  · refine absurd ?_ h
    unfold handleWebhook
    simp only [ne_eq, hm, not_false_eq_true, if_true]
  cases hb : readLimitedBody r.Body with
  | none =>
    refine absurd ?_ h
    unfold handleWebhook
    simp only [ne_eq, hm, not_true_eq_false, if_false, hb]
  | some body =>
    cases hv : VerifySignature mac body r.HubSignature256 s.cfg.WebhookSecret with
    | error e =>
      refine absurd ?_ h
      unfold handleWebhook
      simp only [ne_eq, hm, not_true_eq_false, if_false, hb, hv]
    | ok u =>
      have hfull := handleWebhook_verified mac unmarshal s r body hm hb hv
      rw [hfull] at h
      by_cases he : r.GitHubEvent = "workflow_run".toList
      swap
      · refine absurd ?_ h
        simp only [ne_eq, he, not_false_eq_true, if_true]
      cases hp : unmarshal body with
      | none =>
        refine absurd ?_ h
        simp only [ne_eq, he, not_true_eq_false, if_false, hp]
      | some event =>
        by_cases ha : event.Action = "completed".toList
        swap
        · refine absurd ?_ h
          simp only [ne_eq, he, not_true_eq_false, if_false, hp, ha, not_false_eq_true, if_true]
        by_cases hn : event.WorkflowRun.Name = "PBOM Collector".toList
        · refine absurd ?_ h
          simp only [ne_eq, he, not_true_eq_false, if_false, hp, ha, hn, if_true]
        by_cases hl : byteLen event.WorkflowRun.HeadSHA < 8
        · refine absurd ?_ h
          simp only [ne_eq, he, not_true_eq_false, if_false, hp, ha, hn, hl, if_true]
        refine ⟨hm, body, rfl, hv, he, event, hp, ha, hn, by omega, ?_⟩
        rw [hfull]
        simp only [ne_eq, he, not_true_eq_false, if_false, hp, ha, hn, hl]

theorem handleWebhook_server (mac : Str → Bytes → Bytes)
    (unmarshal : Bytes → Option WebhookEvent) (s : Server) (r : Request) :
    (handleWebhook mac unmarshal s r).server = s := by
  unfold handleWebhook
  repeat (first | rfl | split)

theorem handleAll_server (mac : Str → Bytes → Bytes)
    (unmarshal : Bytes → Option WebhookEvent) (s : Server) (rs : List Request) :
    handleAll mac unmarshal s rs = s := by
  induction rs with
  | nil => rfl
  | cons r rs ih => rw [handleAll, handleWebhook_server, ih]

/-- C3: the intake dispatches enrichment only for a POST request whose read
body passes `VerifySignature` with the configured secret, whose event-type
header is "workflow_run" and whose body parses to an event with action
"completed" and a run name other than "PBOM Collector"; a request that fails
signature verification causes no dispatch. -/
theorem C3_dispatch_requires_all_checks (mac : Str → Bytes → Bytes)
    (unmarshal : Bytes → Option WebhookEvent) (s : Server) (r : Request) :
    ((handleWebhook mac unmarshal s r).dispatched ≠ [] →
      r.Method = "POST".toList ∧
      ∃ body, readLimitedBody r.Body = some body ∧
        VerifySignature mac body r.HubSignature256 s.cfg.WebhookSecret = Except.ok () ∧
        r.GitHubEvent = "workflow_run".toList ∧
        ∃ event, unmarshal body = some event ∧
          event.Action = "completed".toList ∧
          event.WorkflowRun.Name ≠ "PBOM Collector".toList) ∧
    (∀ body e, readLimitedBody r.Body = some body →
      VerifySignature mac body r.HubSignature256 s.cfg.WebhookSecret = Except.error e →
      (handleWebhook mac unmarshal s r).dispatched = []) := by
  constructor
  · intro h
    obtain ⟨hm, body, hb, hv, he, event, hp, ha, hn, _, _⟩ :=
      handleWebhook_dispatch_cases mac unmarshal s r h
    exact ⟨hm, body, hb, hv, he, event, hp, ha, hn⟩
  · intro body e hb hv
    by_contra h
    obtain ⟨_, body2, hb2, hv2, _⟩ := handleWebhook_dispatch_cases mac unmarshal s r h
    rw [hb] at hb2
    cases hb2
    rw [hv] at hv2
    cases hv2

theorem C3_dispatch_requires_all_checks_witness :
    (handleWebhook sampleMac sampleUnmarshal (NewServer sampleConfig)
        (signedRequest [1, 2, 3] "workflow_run".toList)).dispatched ≠ [] ∧
      (signedRequest [1, 2, 3] "workflow_run".toList).Method = "POST".toList ∧
      ∃ body, readLimitedBody (signedRequest [1, 2, 3] "workflow_run".toList).Body
          = some body ∧
        VerifySignature sampleMac body
          (signedRequest [1, 2, 3] "workflow_run".toList).HubSignature256
          (NewServer sampleConfig).cfg.WebhookSecret = Except.ok () ∧
        (signedRequest [1, 2, 3] "workflow_run".toList).GitHubEvent
          = "workflow_run".toList ∧
        ∃ event, sampleUnmarshal body = some event ∧
          event.Action = "completed".toList ∧
          event.WorkflowRun.Name ≠ "PBOM Collector".toList :=
  ⟨by decide,
    (C3_dispatch_requires_all_checks sampleMac sampleUnmarshal (NewServer sampleConfig)
      (signedRequest [1, 2, 3] "workflow_run".toList)).1 (by decide)⟩

/-- C4 (the code at the failing input): a signed POST "workflow_run" request
whose body parses to a "completed" event of a run not named "PBOM Collector"
but whose head SHA is shorter than 8 bytes makes the handler panic at
`HeadSHA[:8]`: no 202 is written and nothing is dispatched. -/
theorem C4_short_head_sha_panics (mac : Str → Bytes → Bytes)
    (unmarshal : Bytes → Option WebhookEvent) (s : Server) (r : Request)
    (body : Bytes) (event : WebhookEvent)
    (hm : r.Method = "POST".toList) (hb : readLimitedBody r.Body = some body)
    (hv : VerifySignature mac body r.HubSignature256 s.cfg.WebhookSecret = Except.ok ())
    (he : r.GitHubEvent = "workflow_run".toList) (hp : unmarshal body = some event)
    (ha : event.Action = "completed".toList)
    (hn : event.WorkflowRun.Name ≠ "PBOM Collector".toList)
    (hl : byteLen event.WorkflowRun.HeadSHA < 8) :
    (handleWebhook mac unmarshal s r).reply = Reply.panicked ∧
      (handleWebhook mac unmarshal s r).dispatched = [] := by
  rw [handleWebhook_verified mac unmarshal s r body hm hb hv]
  simp only [ne_eq, he, not_true_eq_false, if_false, hp, ha, hn, hl, if_true, and_self]

theorem C4_short_head_sha_panics_witness :
    (handleWebhook sampleMac sampleUnmarshal (NewServer sampleConfig)
        (signedRequest [4] "workflow_run".toList)).reply = Reply.panicked ∧
      (handleWebhook sampleMac sampleUnmarshal (NewServer sampleConfig)
        (signedRequest [4] "workflow_run".toList)).dispatched = [] :=
  C4_short_head_sha_panics sampleMac sampleUnmarshal (NewServer sampleConfig)
    (signedRequest [4] "workflow_run".toList) [4]
    { sampleEvent with
      WorkflowRun := { sampleEvent.WorkflowRun with HeadSHA := "abc".toList } }
    (by decide) (by decide) (by decide) (by decide) (by decide) (by decide) (by decide)
    (by decide)

theorem handleWebhook_accepts (mac : Str → Bytes → Bytes)
    (unmarshal : Bytes → Option WebhookEvent) (s : Server) (r : Request)
    (body : Bytes) (event : WebhookEvent)
    (hm : r.Method = "POST".toList) (hb : readLimitedBody r.Body = some body)
    (hv : VerifySignature mac body r.HubSignature256 s.cfg.WebhookSecret = Except.ok ())
    (he : r.GitHubEvent = "workflow_run".toList) (hp : unmarshal body = some event)
    (ha : event.Action = "completed".toList)
    (hn : event.WorkflowRun.Name ≠ "PBOM Collector".toList)
    (hl : 8 ≤ byteLen event.WorkflowRun.HeadSHA) :
    (handleWebhook mac unmarshal s r).reply = Reply.status 202 ∧
      (handleWebhook mac unmarshal s r).dispatched = [event] := by
  have hl2 : ¬ byteLen event.WorkflowRun.HeadSHA < 8 := by omega
  rw [handleWebhook_verified mac unmarshal s r body hm hb hv]
  simp only [ne_eq, he, not_true_eq_false, if_false, hp, ha, hn, hl2, and_self]

/-- C5: a validly signed POST request whose event-type header is not
"workflow_run", or whose body parses to an event with an action other than
"completed" or with run name "PBOM Collector", is answered 200 and nothing
is dispatched. -/
theorem C5_filtered_events_acknowledged (mac : Str → Bytes → Bytes)
    (unmarshal : Bytes → Option WebhookEvent) (s : Server) (r : Request) (body : Bytes)
    (hm : r.Method = "POST".toList) (hb : readLimitedBody r.Body = some body)
    (hv : VerifySignature mac body r.HubSignature256 s.cfg.WebhookSecret = Except.ok ())
    (hf : r.GitHubEvent ≠ "workflow_run".toList ∨
      ∃ event, unmarshal body = some event ∧
        (event.Action ≠ "completed".toList ∨
          event.WorkflowRun.Name = "PBOM Collector".toList)) :
    (handleWebhook mac unmarshal s r).reply = Reply.status 200 ∧
      (handleWebhook mac unmarshal s r).dispatched = [] := by
  rw [handleWebhook_verified mac unmarshal s r body hm hb hv]
  by_cases he : r.GitHubEvent = "workflow_run".toList
  swap
  · simp only [ne_eq, he, not_false_eq_true, if_true, and_self]
  rcases hf with hf | ⟨event, hp, hf⟩
  · exact absurd he hf
  simp only [ne_eq, he, not_true_eq_false, if_false, hp]
  by_cases ha : event.Action = "completed".toList
  swap
  · simp only [ha, not_false_eq_true, if_true, and_self]
  rcases hf with hf | hf
  · exact absurd ha hf
  simp only [ha, not_true_eq_false, if_false, hf, if_true, and_self]

theorem C5_filtered_events_acknowledged_witness :
    (handleWebhook sampleMac sampleUnmarshal (NewServer sampleConfig)
        (signedRequest [5] "workflow_run".toList)).reply = Reply.status 200 ∧
      (handleWebhook sampleMac sampleUnmarshal (NewServer sampleConfig)
        (signedRequest [5] "workflow_run".toList)).dispatched = [] :=
  C5_filtered_events_acknowledged sampleMac sampleUnmarshal (NewServer sampleConfig)
    (signedRequest [5] "workflow_run".toList) [5] (by decide) (by decide) (by decide)
    (Or.inr ⟨{ sampleEvent with
      WorkflowRun := { sampleEvent.WorkflowRun with Name := "PBOM Collector".toList } },
      by decide, Or.inr (by decide)⟩)

/-- C6 (as stated, refuted): a signed POST whose body does not parse and
whose event-type header is "push" is answered 200, not 400. -/
theorem C6_unparseable_push_gets_200 :
    (signedRequest [7] "push".toList).Method = "POST".toList ∧
      readLimitedBody (signedRequest [7] "push".toList).Body = some [7] ∧
      VerifySignature sampleMac [7] (signedRequest [7] "push".toList).HubSignature256
        (NewServer sampleConfig).cfg.WebhookSecret = Except.ok () ∧
      sampleUnmarshal [7] = none ∧
      (handleWebhook sampleMac sampleUnmarshal (NewServer sampleConfig)
        (signedRequest [7] "push".toList)).reply = Reply.status 200 ∧
      (handleWebhook sampleMac sampleUnmarshal (NewServer sampleConfig)
        (signedRequest [7] "push".toList)).reply ≠ Reply.status 400 := by
  decide

/-- C6 (amended): a signed POST request whose body does not parse is
answered 400 when its event-type header is "workflow_run", and 200 (filtered
before any parsing) for every other event-type header; nothing is
dispatched either way. -/
theorem C6_unparseable_body_reply (mac : Str → Bytes → Bytes)
    (unmarshal : Bytes → Option WebhookEvent) (s : Server) (r : Request) (body : Bytes)
    (hm : r.Method = "POST".toList) (hb : readLimitedBody r.Body = some body)
    (hv : VerifySignature mac body r.HubSignature256 s.cfg.WebhookSecret = Except.ok ())
    (hp : unmarshal body = none) :
    (handleWebhook mac unmarshal s r).reply =
        (if r.GitHubEvent = "workflow_run".toList then Reply.status 400
          else Reply.status 200) ∧
      (handleWebhook mac unmarshal s r).dispatched = [] := by
  rw [handleWebhook_verified mac unmarshal s r body hm hb hv]
  by_cases he : r.GitHubEvent = "workflow_run".toList
  · simp only [ne_eq, he, not_true_eq_false, if_false, hp, if_true, and_self]
  · simp only [ne_eq, he, not_false_eq_true, if_true, if_false, and_self]

theorem C6_unparseable_body_reply_witness :
    (handleWebhook sampleMac sampleUnmarshal (NewServer sampleConfig)
        (signedRequest [7] "workflow_run".toList)).reply =
        (if (signedRequest [7] "workflow_run".toList).GitHubEvent = "workflow_run".toList
          then Reply.status 400 else Reply.status 200) ∧
      (handleWebhook sampleMac sampleUnmarshal (NewServer sampleConfig)
        (signedRequest [7] "workflow_run".toList)).dispatched = [] :=
  C6_unparseable_body_reply sampleMac sampleUnmarshal (NewServer sampleConfig)
    (signedRequest [7] "workflow_run".toList) [7] (by decide) (by decide) (by decide)
    (by decide)

/-- C7 (the code as it is): whatever requests a fresh server has handled,
the status query still reports `events_processed = 0` and no
`last_event_at`, because `handleWebhook` stores to neither field; this holds
in particular after one accepted (202) event. -/
theorem C7_status_never_advances (mac : Str → Bytes → Bytes)
    (unmarshal : Bytes → Option WebhookEvent) (cfg : Config) (rs : List Request) :
    handleStatus (handleAll mac unmarshal (NewServer cfg) rs) =
        { events_processed := 0, last_event_at := none } ∧
      (handleWebhook sampleMac sampleUnmarshal (NewServer sampleConfig)
          (signedRequest [1, 2, 3] "workflow_run".toList)).reply = Reply.status 202 ∧
      handleStatus (handleAll sampleMac sampleUnmarshal (NewServer sampleConfig)
          [signedRequest [1, 2, 3] "workflow_run".toList]) =
        { events_processed := 0, last_event_at := none } := by
  refine ⟨?_, by decide, by decide⟩
  rw [handleAll_server]
  rfl

/-! ## Runner inference -/

theorem labelStep_OS (lower : Str → Str) (r : Runner) (l : Str) :
    (labelStep lower r l).OS = (labelOS lower l).getD r.OS := by
  unfold labelStep labelOS
  split_ifs <;> rfl

theorem labelStep_Arch (lower : Str → Str) (r : Runner) (l : Str) :
    (labelStep lower r l).Arch = (labelArch lower l).getD r.Arch := by
  unfold labelStep labelArch
  split_ifs <;> rfl

theorem labelStep_SelfHosted (lower : Str → Str) (r : Runner) (l : Str) :
    (labelStep lower r l).SelfHosted =
      (r.SelfHosted || decide (lower l = "self-hosted".toList)) := by
  unfold labelStep
  split_ifs with h1
  · simp only [decide_eq_true h1, Bool.or_true]
  all_goals simp only [decide_eq_false h1, Bool.or_false]

theorem labelStep_Name (lower : Str → Str) (r : Runner) (l : Str) :
    (labelStep lower r l).Name = r.Name := by
  unfold labelStep
  split_ifs <;> rfl

theorem labelOS_ne_nil (lower : Str → Str) (l o : Str) (h : labelOS lower l = some o) :
    o ≠ [] := by
  unfold labelOS at h
  split_ifs at h <;> simp at h <;> subst h <;> decide

theorem labelArch_ne_nil (lower : Str → Str) (l a : Str) (h : labelArch lower l = some a) :
    a ≠ [] := by
  unfold labelArch at h
  split_ifs at h <;> simp at h <;> subst h <;> decide

theorem foldl_labelStep_OS_none (lower : Str → Str) (labels : List Str) (r : Runner)
    (h : ∀ x ∈ labels, labelOS lower x = none) :
    (labels.foldl (labelStep lower) r).OS = r.OS := by
  induction labels generalizing r with
  | nil => rfl
  | cons x xs ih =>
    rw [List.foldl_cons, ih _ (fun y hy => h y (List.mem_cons_of_mem _ hy)),
      labelStep_OS, h x (List.mem_cons_self _ _)]
    rfl

theorem foldl_labelStep_Arch_none (lower : Str → Str) (labels : List Str) (r : Runner)
    (h : ∀ x ∈ labels, labelArch lower x = none) :
    (labels.foldl (labelStep lower) r).Arch = r.Arch := by
  induction labels generalizing r with
  | nil => rfl
  | cons x xs ih =>
    rw [List.foldl_cons, ih _ (fun y hy => h y (List.mem_cons_of_mem _ hy)),
      labelStep_Arch, h x (List.mem_cons_self _ _)]
    rfl

theorem foldl_labelStep_OS_last (lower : Str → Str) (pre post : List Str) (l o : Str)
    (r : Runner) (hl : labelOS lower l = some o)
    (hpost : ∀ x ∈ post, labelOS lower x = none) :
    ((pre ++ l :: post).foldl (labelStep lower) r).OS = o := by
  rw [List.foldl_append, List.foldl_cons, foldl_labelStep_OS_none lower post _ hpost,
    labelStep_OS, hl]
  rfl

theorem foldl_labelStep_Arch_last (lower : Str → Str) (pre post : List Str) (l a : Str)
    (r : Runner) (hl : labelArch lower l = some a)
    (hpost : ∀ x ∈ post, labelArch lower x = none) :
    ((pre ++ l :: post).foldl (labelStep lower) r).Arch = a := by
  rw [List.foldl_append, List.foldl_cons, foldl_labelStep_Arch_none lower post _ hpost,
    labelStep_Arch, hl]
  rfl

theorem foldl_labelStep_SelfHosted (lower : Str → Str) (labels : List Str) (r : Runner) :
    (labels.foldl (labelStep lower) r).SelfHosted =
      (r.SelfHosted || labels.any (fun l => decide (lower l = "self-hosted".toList))) := by
  induction labels generalizing r with
  | nil => simp
  | cons x xs ih =>
    rw [List.foldl_cons, ih, labelStep_SelfHosted, List.any_cons, Bool.or_assoc]

/-- The runner `ExtractRunner` builds from the first job, given the runner
left by the label loop: the OS and architecture defaults are filled in. -/
theorem extractRunner_cons (lower : Str → Str) (job : Job) (rest : List Job) :
    ∃ r, ExtractRunner lower (job :: rest) = some r ∧
      r.SelfHosted =
        (decide (job.RunnerGroupName ≠ [] ∧ job.RunnerGroupName ≠ "GitHub Actions".toList)
          || job.Labels.any (fun l => decide (lower l = "self-hosted".toList))) ∧
      (∀ (pre post : List Str) (l o : Str), job.Labels = pre ++ l :: post →
        labelOS lower l = some o → (∀ x ∈ post, labelOS lower x = none) → r.OS = o) ∧
      (∀ (pre post : List Str) (l a : Str), job.Labels = pre ++ l :: post →
        labelArch lower l = some a → (∀ x ∈ post, labelArch lower x = none) →
        r.Arch = a) := by
  refine ⟨_, rfl, ?_, ?_, ?_⟩
  · show Runner.SelfHosted (ite _ _ _) = _
    split_ifs <;> exact foldl_labelStep_SelfHosted lower job.Labels _
  · intro pre post l o hl ho hpost
    have hne := labelOS_ne_nil lower l o ho
    show Runner.OS (ite _ _ _) = _
    rw [hl]
    have key := foldl_labelStep_OS_last lower pre post l o
      { OS := [], Arch := [], Name := job.RunnerName,
        SelfHosted := decide (job.RunnerGroupName ≠ [] ∧
          job.RunnerGroupName ≠ "GitHub Actions".toList) } ho hpost
    split_ifs with h1 h2 h2
    · exact absurd (key ▸ h1) hne
    · exact absurd (key ▸ h1) hne
    · exact key
    · exact key
  · intro pre post l a hl ha hpost
    have hne := labelArch_ne_nil lower l a ha
    show Runner.Arch (ite _ _ _) = _
    rw [hl]
    have key := foldl_labelStep_Arch_last lower pre post l a
      { OS := [], Arch := [], Name := job.RunnerName,
        SelfHosted := decide (job.RunnerGroupName ≠ [] ∧
          job.RunnerGroupName ≠ "GitHub Actions".toList) } ha hpost
    split_ifs with h1 h2 h2
    · exact absurd (key ▸ h2) hne
    · exact key
    · exact absurd (key ▸ h2) hne
    · exact key

/-- C8 (as stated, refuted): with labels "ubuntu-latest" then
"windows-latest", both of which map to an OS, the inferred OS is the one of
the later label, "Windows"; with labels "arm64" then "x64" the inferred
architecture is the one of the later label, "X64". -/
theorem C8_earliest_label_does_not_win :
    labelOS asciiToLower "ubuntu-latest".toList = some "Linux".toList ∧
      labelOS asciiToLower "windows-latest".toList = some "Windows".toList ∧
      (ExtractRunner asciiToLower
          [mkJob ["ubuntu-latest".toList, "windows-latest".toList] "runner-1".toList
            "GitHub Actions".toList]).map Runner.OS = some "Windows".toList ∧
      labelArch asciiToLower "arm64".toList = some "ARM64".toList ∧
      labelArch asciiToLower "x64".toList = some "X64".toList ∧
      (ExtractRunner asciiToLower
          [mkJob ["arm64".toList, "x64".toList] "runner-1".toList
            "GitHub Actions".toList]).map Runner.Arch = some "X64".toList := by
  decide

/-- C8 (amended): in `ExtractRunner` the last matching label per category
wins: when a label of the first job maps to an OS (respectively to an
architecture) and no later label does, the inferred OS (respectively Arch) is
the one mapped from that label, whatever the earlier labels are. -/
theorem C8_last_matching_label_wins (lower : Str → Str) (job : Job) (rest : List Job)
    (pre post : List Str) (l : Str) (hl : job.Labels = pre ++ l :: post) :
    ∃ r, ExtractRunner lower (job :: rest) = some r ∧
      (∀ o, labelOS lower l = some o → (∀ x ∈ post, labelOS lower x = none) →
        r.OS = o) ∧
      (∀ a, labelArch lower l = some a → (∀ x ∈ post, labelArch lower x = none) →
        r.Arch = a) := by
  obtain ⟨r, hr, _, hos, harch⟩ := extractRunner_cons lower job rest
  exact ⟨r, hr, fun o ho hp => hos pre post l o hl ho hp,
    fun a ha hp => harch pre post l a hl ha hp⟩

theorem C8_last_matching_label_wins_witness :
    (mkJob ["ubuntu-latest".toList, "windows-latest".toList, "self-hosted".toList]
        "runner-1".toList "pool".toList).Labels
        = ["ubuntu-latest".toList] ++ "windows-latest".toList :: ["self-hosted".toList] ∧
      ∃ r, ExtractRunner asciiToLower
          [mkJob ["ubuntu-latest".toList, "windows-latest".toList, "self-hosted".toList]
            "runner-1".toList "pool".toList] = some r ∧
        r.OS = "Windows".toList :=
  ⟨rfl,
    match C8_last_matching_label_wins asciiToLower
      (mkJob ["ubuntu-latest".toList, "windows-latest".toList, "self-hosted".toList]
        "runner-1".toList "pool".toList) []
      ["ubuntu-latest".toList] ["self-hosted".toList] "windows-latest".toList rfl with
    | ⟨r, hr, hos, _⟩ => ⟨r, hr, hos "Windows".toList (by decide) (by decide)⟩⟩

/-- C9 (as stated, refuted): a first job with an empty runner-group name
whose only label is "Self-Hosted" (not literally "self-hosted") is reported
as self-hosted. -/
theorem C9_label_match_is_not_literal :
    (ExtractRunner asciiToLower
        [mkJob ["Self-Hosted".toList] "runner-1".toList []]).map Runner.SelfHosted
        = some true ∧
      ¬ (((mkJob ["Self-Hosted".toList] "runner-1".toList []).RunnerGroupName ≠ [] ∧
          (mkJob ["Self-Hosted".toList] "runner-1".toList []).RunnerGroupName
            ≠ "GitHub Actions".toList) ∨
        "self-hosted".toList ∈
          (mkJob ["Self-Hosted".toList] "runner-1".toList []).Labels) := by
  decide

/-- C9 (amended): for every non-empty job list, SelfHosted is true exactly
when the first job's runner-group name is non-empty and different from
"GitHub Actions", or one of the first job's labels lowercases to
"self-hosted".  In particular labels self-hosted, linux, arm64 give true for
every runner-group name, and the label ubuntu-latest with group
"GitHub Actions" gives false. -/
theorem C9_selfHosted_iff (lower : Str → Str) (job : Job) (rest : List Job) :
    (∃ r, ExtractRunner lower (job :: rest) = some r ∧
      (r.SelfHosted = true ↔
        ((job.RunnerGroupName ≠ [] ∧ job.RunnerGroupName ≠ "GitHub Actions".toList) ∨
          ∃ l ∈ job.Labels, lower l = "self-hosted".toList))) ∧
    (∀ name group : Str,
      (ExtractRunner asciiToLower
        [mkJob ["self-hosted".toList, "linux".toList, "arm64".toList] name group]).map
          Runner.SelfHosted = some true) ∧
    (∀ name : Str,
      (ExtractRunner asciiToLower
        [mkJob ["ubuntu-latest".toList] name "GitHub Actions".toList]).map
          Runner.SelfHosted = some false) := by
  refine ⟨?_, ?_, ?_⟩
  · obtain ⟨r, hr, hsh, _⟩ := extractRunner_cons lower job rest
    refine ⟨r, hr, ?_⟩
    rw [hsh, Bool.or_eq_true, decide_eq_true_iff, List.any_eq_true]
    constructor
    · rintro (h | ⟨l, hl, hd⟩)
      · exact Or.inl h
      · exact Or.inr ⟨l, hl, of_decide_eq_true hd⟩
    · rintro (h | ⟨l, hl, hd⟩)
      · exact Or.inl h
      · exact Or.inr ⟨l, hl, decide_eq_true hd⟩
  · intro name group
    obtain ⟨r, hr, hsh, _⟩ := extractRunner_cons asciiToLower
      (mkJob ["self-hosted".toList, "linux".toList, "arm64".toList] name group) []
    have h1 : List.any ["self-hosted".toList, "linux".toList, "arm64".toList]
        (fun l => decide (asciiToLower l = "self-hosted".toList)) = true := by decide
    rw [hr, Option.map_some', hsh]
    show some (_ || List.any ["self-hosted".toList, "linux".toList, "arm64".toList] _)
      = some true
    rw [h1, Bool.or_true]
  · intro name
    obtain ⟨r, hr, hsh, _⟩ := extractRunner_cons asciiToLower
      (mkJob ["ubuntu-latest".toList] name "GitHub Actions".toList) []
    have h1 : List.any ["ubuntu-latest".toList]
        (fun l => decide (asciiToLower l = "self-hosted".toList)) = false := by decide
    have h2 : decide (("GitHub Actions".toList : Str) ≠ [] ∧
        ("GitHub Actions".toList : Str) ≠ "GitHub Actions".toList) = false := by decide
    rw [hr, Option.map_some', hsh]
    show some (decide (("GitHub Actions".toList : Str) ≠ [] ∧
        ("GitHub Actions".toList : Str) ≠ "GitHub Actions".toList)
      || List.any ["ubuntu-latest".toList] _) = some false
    rw [h1, h2]
    rfl

/-! ## Secret scanning -/

theorem dropLit_eq_some (p s r : Str) : dropLit p s = some r ↔ s = p ++ r := by
  induction p generalizing s with
  | nil =>
    simp only [dropLit, Option.some.injEq, List.nil_append]
  | cons a ps ih =>
    cases s with
    | nil => simp [dropLit]
    | cons c cs =>
      simp only [dropLit, List.cons_append, List.cons.injEq]
      by_cases hac : a = c
      · subst hac
        simp [ih]
      · have hca : ¬ c = a := fun e => hac e.symm
        simp [hac, hca]

theorem while_append_stop (p : Char → Bool) (l r : Str) (hl : ∀ x ∈ l, p x = true)
    (hr : ∀ x r2, r = x :: r2 → p x = false) :
    (l ++ r).dropWhile p = r ∧ (l ++ r).takeWhile p = l := by
  induction l with
  | nil =>
    cases r with
    | nil => simp
    | cons x r2 =>
      have hx := hr x r2 rfl
      simp [hx]
  | cons a l ih =>
    have ha := hl a (List.mem_cons_self _ _)
    have ih2 := ih (fun x hx => hl x (List.mem_cons_of_mem _ hx))
    simp [ha, ih2.1, ih2.2]

theorem isReSpace_cases (c : Char) (h : isReSpace c = true) :
    c = '\t' ∨ c = '\n' ∨ c = '\x0c' ∨ c = '\r' ∨ c = ' ' := by
  simp only [isReSpace, Bool.or_eq_true, decide_eq_true_eq] at h
  tauto

theorem isReSpace_not_ident (c : Char) (h : isReSpace c = true) : isIdentChar c = false := by
  rcases isReSpace_cases c h with h | h | h | h | h <;> subst h <;> decide

theorem isReSpace_ne_dollar (c : Char) (h : isReSpace c = true) : c ≠ '$' := by
  rcases isReSpace_cases c h with h | h | h | h | h <;> subst h <;> decide

theorem isIdentChar_ne_dollar (c : Char) (h : isIdentChar c = true) : c ≠ '$' := by
  intro e
  subst e
  exact absurd h (by decide)

theorem isIdentStart_isIdentChar (c : Char) (h : isIdentStart c = true) :
    isIdentChar c = true := by
  simp only [isIdentStart, isIdentChar, Bool.or_eq_true, Bool.and_eq_true,
    decide_eq_true_eq] at h ⊢
  tauto

theorem matchSecretAt_some (s name rest : Str) (h : matchSecretAt s = some (name, rest)) :
    ∃ ws1 ws2 : Str,
      s = ['$', '{', '{'] ++ (ws1 ++ ("secrets.".toList ++
        (name ++ (ws2 ++ (['}', '}'] ++ rest))))) ∧
      (∀ c ∈ ws1, isReSpace c = true) ∧ (∀ c ∈ ws2, isReSpace c = true) ∧
      IsIdentifier name := by
  cases h1 : dropLit ['$', '{', '{'] s with
  | none =>
    unfold matchSecretAt at h
    rw [h1] at h
    cases h
  | some s1 =>
    cases h2 : dropLit "secrets.".toList (s1.dropWhile isReSpace) with
    | none =>
      unfold matchSecretAt at h
      rw [h1] at h
      simp only [] at h
      rw [h2] at h
      cases h
    | some s2full =>
      cases s2full with
      | nil =>
        unfold matchSecretAt at h
        rw [h1] at h
        simp only [] at h
        rw [h2] at h
        cases h
      | cons c s2 =>
        have hm : matchSecretAt s =
            if isIdentStart c = true then
              match dropLit ['}', '}']
                ((s2.dropWhile isIdentChar).dropWhile isReSpace) with
              | none => none
              | some rest => some (c :: s2.takeWhile isIdentChar, rest)
            else none := by
          unfold matchSecretAt
          rw [h1]
          simp only []
          rw [h2]
        rw [hm] at h
        by_cases hc : isIdentStart c = true
        · rw [if_pos hc] at h
          cases h3 : dropLit ['}', '}'] ((s2.dropWhile isIdentChar).dropWhile isReSpace) with
          | none =>
            rw [h3] at h
            cases h
          | some r =>
            rw [h3] at h
            simp only [Option.some.injEq, Prod.mk.injEq] at h
            obtain ⟨rfl, rfl⟩ := h
            have e1 := (dropLit_eq_some _ _ _).mp h1
            have e2 := (dropLit_eq_some _ _ _).mp h2
            have e3 := (dropLit_eq_some _ _ _).mp h3
            have t1 := List.takeWhile_append_dropWhile isReSpace s1
            have t2 := List.takeWhile_append_dropWhile isIdentChar s2
            have t3 := List.takeWhile_append_dropWhile isReSpace (s2.dropWhile isIdentChar)
            have k3 : (s2.dropWhile isIdentChar).takeWhile isReSpace ++ (['}', '}'] ++ r)
                = s2.dropWhile isIdentChar := by
              rw [← e3]
              exact t3
            have k2 : (c :: s2.takeWhile isIdentChar) ++
                ((s2.dropWhile isIdentChar).takeWhile isReSpace ++ (['}', '}'] ++ r))
                = c :: s2 := by
              rw [k3, List.cons_append, t2]
            have k1 : s1.takeWhile isReSpace ++ ("secrets.".toList ++
                ((c :: s2.takeWhile isIdentChar) ++
                  ((s2.dropWhile isIdentChar).takeWhile isReSpace ++ (['}', '}'] ++ r))))
                = s1 := by
              rw [k2, ← e2]
              exact t1
            refine ⟨s1.takeWhile isReSpace,
              (s2.dropWhile isIdentChar).takeWhile isReSpace, ?_, ?_, ?_, ?_⟩
            · rw [k1]
              exact e1
            · intro x hx
              exact List.mem_takeWhile_imp hx
            · intro x hx
              exact List.mem_takeWhile_imp hx
            · exact ⟨c, _, rfl, hc, fun x hx => List.mem_takeWhile_imp hx⟩
        · rw [if_neg hc] at h
          cases h

theorem matchSecretAt_of_form (ws1 ws2 name post : Str)
    (h1 : ∀ c ∈ ws1, isReSpace c = true) (h2 : ∀ c ∈ ws2, isReSpace c = true)
    (hN : IsIdentifier name) :
    matchSecretAt (['$', '{', '{'] ++ (ws1 ++ ("secrets.".toList ++
      (name ++ (ws2 ++ (['}', '}'] ++ post)))))) = some (name, post) := by
  obtain ⟨c, cs, rfl, hc, hcs⟩ := hN
  have d1 : dropLit ['$', '{', '{'] (['$', '{', '{'] ++ (ws1 ++ ("secrets.".toList ++
      (c :: cs ++ (ws2 ++ (['}', '}'] ++ post)))))) =
      some (ws1 ++ ("secrets.".toList ++ (c :: cs ++ (ws2 ++ (['}', '}'] ++ post))))) :=
    (dropLit_eq_some _ _ _).mpr rfl
  have d2 : (ws1 ++ ("secrets.".toList ++
      (c :: cs ++ (ws2 ++ (['}', '}'] ++ post))))).dropWhile isReSpace =
      "secrets.".toList ++ (c :: cs ++ (ws2 ++ (['}', '}'] ++ post))) := by
    refine (while_append_stop isReSpace ws1 _ h1 ?_).1
    intro x r2 hx
    have hx2 : 's' = x := (List.cons.inj hx).1
    subst hx2
    decide
  have d3 : dropLit "secrets.".toList
      ("secrets.".toList ++ (c :: cs ++ (ws2 ++ (['}', '}'] ++ post)))) =
      some (c :: (cs ++ (ws2 ++ (['}', '}'] ++ post)))) :=
    (dropLit_eq_some _ _ _).mpr rfl
  have stop2 : ∀ x r2, ws2 ++ (['}', '}'] ++ post) = x :: r2 → isIdentChar x = false := by
    intro x r2 hx
    cases ws2 with
    | nil =>
      have hx2 : '}' = x := (List.cons.inj hx).1
      subst hx2
      decide
    | cons w ws =>
      have hx2 : w = x := (List.cons.inj hx).1
      subst hx2
      exact isReSpace_not_ident _ (h2 _ (List.mem_cons_self _ _))
  have d4 := while_append_stop isIdentChar cs (ws2 ++ (['}', '}'] ++ post)) hcs stop2
  have d5 : (ws2 ++ (['}', '}'] ++ post)).dropWhile isReSpace = ['}', '}'] ++ post := by
    refine (while_append_stop isReSpace ws2 _ h2 ?_).1
    intro x r2 hx
    have hx2 : '}' = x := (List.cons.inj hx).1
    subst hx2
    decide
  have d6 : dropLit ['}', '}'] (['}', '}'] ++ post) = some post :=
    (dropLit_eq_some _ _ _).mpr rfl
  unfold matchSecretAt
  simp only [d1, d2, d3, hc, if_true, d4.1, d4.2, d5, d6]

theorem matchSecretAt_shape (c : Char) (cs name rest : Str)
    (h : matchSecretAt (c :: cs) = some (name, rest)) :
    c = '$' ∧ ∃ m : Str, cs = m ++ rest ∧ ∀ x ∈ m, x ≠ '$' := by
  obtain ⟨ws1, ws2, hs, h1, h2, c0, cs0, rfl, hc0, hcs0⟩ := matchSecretAt_some _ _ _ h
  have hs2 : c :: cs = '$' :: (('{' :: '{' :: (ws1 ++ ("secrets.".toList ++
      (c0 :: cs0 ++ (ws2 ++ ['}', '}']))))) ++ rest) := by
    rw [hs]
    simp
  obtain ⟨hc, hcs⟩ := List.cons.inj hs2
  refine ⟨hc, _, hcs, ?_⟩
  intro x hx
  simp only [List.mem_cons, List.mem_append, List.cons_append] at hx
  rcases hx with hx | hx | hx | hx | hx | hx | hx
  · rw [hx]; decide
  · rw [hx]; decide
  · exact isReSpace_ne_dollar _ (h1 _ hx)
  · intro e
    rw [e] at hx
    exact absurd hx (by decide)
  · rw [hx]
    exact isIdentChar_ne_dollar _ (isIdentStart_isIdentChar _ hc0)
  · exact isIdentChar_ne_dollar _ (hcs0 _ hx)
  · rcases hx with hx | hx
    · exact isReSpace_ne_dollar _ (h2 _ hx)
    · intro e
      rw [e] at hx
      exact absurd hx (by decide)

theorem matchStartsIn_nil (name : Str) : ¬ MatchStartsIn [] name := by
  rintro ⟨pre, suf, rest, hs, hm⟩
  have hsuf : suf = [] := (List.append_eq_nil.mp hs.symm).2
  rw [hsuf] at hm
  have h0 : matchSecretAt [] = none := rfl
  rw [h0] at hm
  cases hm

theorem matchStartsIn_cons (c : Char) (cs name : Str) :
    MatchStartsIn (c :: cs) name ↔
      (∃ rest, matchSecretAt (c :: cs) = some (name, rest)) ∨ MatchStartsIn cs name := by
  constructor
  · rintro ⟨pre, suf, rest, hs, hm⟩
    cases pre with
    | nil =>
      rw [List.nil_append] at hs
      exact Or.inl ⟨rest, hs ▸ hm⟩
    | cons a pre2 =>
      rw [List.cons_append] at hs
      exact Or.inr ⟨pre2, suf, rest, (List.cons.inj hs).2, hm⟩
  · rintro (⟨rest, hm⟩ | ⟨pre, suf, rest, hs, hm⟩)
    · exact ⟨[], c :: cs, rest, rfl, hm⟩
    · exact ⟨c :: pre, suf, rest, by rw [hs]; rfl, hm⟩

theorem mem_findAllSecretsFrom (s : Str) (skip : Nat) (name : Str)
    (hskip : ∀ x ∈ s.take skip, x ≠ '$') :
    name ∈ findAllSecretsFrom skip s ↔ MatchStartsIn s name := by
  induction s generalizing skip with
  | nil =>
    have h0 : findAllSecretsFrom skip [] = [] := by
      cases skip <;> rfl
    rw [h0]
    simp only [List.not_mem_nil, false_iff]
    exact matchStartsIn_nil name
  | cons c cs ih =>
    rw [matchStartsIn_cons]
    cases skip with
    | succ k =>
      have hstep : findAllSecretsFrom (k + 1) (c :: cs) = findAllSecretsFrom k cs := rfl
      have hc : c ≠ '$' := hskip c (by simp)
      have hk : ∀ x ∈ cs.take k, x ≠ '$' := fun x hx => hskip x (by simp [hx])
      rw [hstep, ih k hk]
      constructor
      · exact Or.inr
      · rintro (⟨rest, hm⟩ | h)
        · exact absurd (matchSecretAt_shape c cs name rest hm).1 hc
        · exact h
    | zero =>
      cases hm : matchSecretAt (c :: cs) with
      | none =>
        have hstep : findAllSecretsFrom 0 (c :: cs) = findAllSecretsFrom 0 cs := by
          simp only [findAllSecretsFrom, hm]
        rw [hstep, ih 0 (by simp)]
        constructor
        · exact Or.inr
        · rintro (⟨rest, hm2⟩ | h)
          · cases hm2
          · exact h
      | some p =>
        obtain ⟨name0, rest0⟩ := p
        have hstep : findAllSecretsFrom 0 (c :: cs) =
            name0 :: findAllSecretsFrom (cs.length - rest0.length) cs := by
          simp only [findAllSecretsFrom, hm]
        obtain ⟨_, m, hcs, hm0⟩ := matchSecretAt_shape c cs name0 rest0 hm
        have hlen : cs.length - rest0.length = m.length := by
          rw [hcs, List.length_append]
          omega
        have htake : cs.take m.length = m := by
          rw [hcs]
          exact List.take_left _ _
        rw [hstep, hlen, List.mem_cons, ih m.length (by rw [htake]; exact hm0)]
        constructor
        · rintro (h | h)
          · exact Or.inl ⟨rest0, by rw [h]⟩
          · exact Or.inr h
        · rintro (⟨rest, hm2⟩ | h)
          · left
            cases hm2
            rfl
          · exact Or.inr h

theorem matchStartsIn_iff (text name : Str) :
    MatchStartsIn text name ↔ IsIdentifier name ∧ SecretRefOccurs text name := by
  constructor
  · rintro ⟨pre, suf, rest, hs, hm⟩
    obtain ⟨ws1, ws2, hsuf, h1, h2, hid⟩ := matchSecretAt_some _ _ _ hm
    exact ⟨hid, pre, ws1, ws2, rest, by rw [hs, hsuf], h1, h2⟩
  · rintro ⟨hid, pre, ws1, ws2, post, hs, h1, h2⟩
    exact ⟨pre, _, post, hs, matchSecretAt_of_form ws1 ws2 name post h1 h2 hid⟩

theorem collectSecret_spec (st : List Str × List Str) (name : Str)
    (hinv : ∀ x, x ∈ st.1 ↔ x ∈ st.2) :
    (∀ x, x ∈ (collectSecret st name).1 ↔ x ∈ (collectSecret st name).2) ∧
    (∀ x, x ∈ (collectSecret st name).2 ↔
      x ∈ st.2 ∨ (x = name ∧ x ≠ "GITHUB_TOKEN".toList)) := by
  unfold collectSecret
  by_cases hg : name = "GITHUB_TOKEN".toList
  · rw [if_pos hg]
    refine ⟨hinv, fun x => ⟨Or.inl, ?_⟩⟩
    rintro (h | ⟨h1, h2⟩)
    · exact h
    · exact absurd (h1.trans hg) h2
  · rw [if_neg hg]
    by_cases hs : name ∈ st.1
    · rw [if_pos hs]
      refine ⟨hinv, fun x => ⟨Or.inl, ?_⟩⟩
      rintro (h | ⟨h1, _⟩)
      · exact h
      · rw [h1]
        exact (hinv name).mp hs
    · rw [if_neg hs]
      constructor
      · intro x
        simp only [List.mem_cons, List.mem_append, List.mem_singleton, hinv x]
        tauto
      · intro x
        simp only [List.mem_append, List.mem_singleton]
        constructor
        · rintro (h | h)
          · exact Or.inl h
          · exact Or.inr ⟨h, by rw [h]; exact hg⟩
        · rintro (h | ⟨h, _⟩)
          · exact Or.inl h
          · exact Or.inr h

theorem foldl_collectSecret_spec (names : List Str) (st : List Str × List Str)
    (hinv : ∀ x, x ∈ st.1 ↔ x ∈ st.2) (x : Str) :
    x ∈ (names.foldl collectSecret st).2 ↔
      x ∈ st.2 ∨ (x ∈ names ∧ x ≠ "GITHUB_TOKEN".toList) := by
  induction names generalizing st with
  | nil => simp
  | cons n ns ih =>
    obtain ⟨h1, h2⟩ := collectSecret_spec st n hinv
    rw [List.foldl_cons, ih _ h1, h2 x, List.mem_cons]
    tauto

theorem mem_sortStrings (l : List Str) (x : Str) : x ∈ sortStrings l ↔ x ∈ l :=
  (List.perm_insertionSort _ l).mem_iff

theorem mem_extractSecrets_iff (text name : Str) :
    name ∈ ExtractSecretsFromWorkflow text ↔
      name ≠ "GITHUB_TOKEN".toList ∧ IsIdentifier name ∧ SecretRefOccurs text name := by
  unfold ExtractSecretsFromWorkflow
  rw [mem_sortStrings, foldl_collectSecret_spec _ _ (fun _ => Iff.rfl),
    mem_findAllSecretsFrom text 0 name (by simp), matchStartsIn_iff]
  simp only [List.not_mem_nil, false_or]
  tauto

/-- C10: a name is in `ExtractSecretsFromWorkflow(text)` exactly when it is
not "GITHUB_TOKEN", is an identifier, and the text contains the reference form
with that name (optional whitespace after the opening and before the closing
braces); so the result is empty when the text has no reference or references
only GITHUB_TOKEN. -/
theorem C10_secret_membership (text name : Str) :
    (name ∈ ExtractSecretsFromWorkflow text ↔
      name ≠ "GITHUB_TOKEN".toList ∧ IsIdentifier name ∧ SecretRefOccurs text name) ∧
    ((∀ other : Str, IsIdentifier other → SecretRefOccurs text other →
        other = "GITHUB_TOKEN".toList) →
      ExtractSecretsFromWorkflow text = []) := by
  refine ⟨mem_extractSecrets_iff text name, fun h => ?_⟩
  apply List.eq_nil_iff_forall_not_mem.mpr
  intro x hx
  obtain ⟨hne, hid, hocc⟩ := (mem_extractSecrets_iff text x).mp hx
  exact hne (h x hid hocc)

/-! ## The cases of the repository's test tables -/

theorem test_VerifySignature_table :
    VerifySignature sampleMac [1, 2, 3] (computeSignature sampleMac [1, 2, 3] "k".toList)
        "k".toList = Except.ok () ∧
      VerifySignature sampleMac [9, 9] (computeSignature sampleMac [1, 2, 3] "k".toList)
        "k".toList = Except.error SigError.mismatch ∧
      VerifySignature sampleMac [1, 2, 3] [] "k".toList
        = Except.error SigError.signatureEmpty ∧
      VerifySignature sampleMac [1, 2, 3] (computeSignature sampleMac [1, 2, 3] "k".toList)
        [] = Except.error SigError.secretEmpty ∧
      VerifySignature sampleMac [1, 2, 3] "md5=abcdef".toList "k".toList
        = Except.error SigError.invalidFormat ∧
      VerifySignature sampleMac [1, 2, 3] "sha256=notvalidhex".toList "k".toList
        = Except.error SigError.invalidHex := by
  decide

theorem test_ExtractRunner_table :
    ExtractRunner asciiToLower [] = none ∧
      ExtractRunner asciiToLower
          [mkJob ["ubuntu-latest".toList] "GitHub Actions 42".toList
            "GitHub Actions".toList] =
        some { OS := "Linux".toList, Arch := "X64".toList,
               Name := "GitHub Actions 42".toList, SelfHosted := false } ∧
      ExtractRunner asciiToLower
          [mkJob ["macos-14".toList] "GitHub Actions 99".toList "GitHub Actions".toList] =
        some { OS := "macOS".toList, Arch := "X64".toList,
               Name := "GitHub Actions 99".toList, SelfHosted := false } ∧
      ExtractRunner asciiToLower
          [mkJob ["self-hosted".toList, "linux".toList, "x64".toList]
            "my-runner-01".toList "Custom Runners".toList] =
        some { OS := "Linux".toList, Arch := "X64".toList,
               Name := "my-runner-01".toList, SelfHosted := true } ∧
      ExtractRunner asciiToLower
          [mkJob ["self-hosted".toList, "linux".toList, "arm64".toList]
            "arm-runner".toList "ARM Pool".toList] =
        some { OS := "Linux".toList, Arch := "ARM64".toList,
               Name := "arm-runner".toList, SelfHosted := true } ∧
      ExtractRunner asciiToLower
          [mkJob ["windows-latest".toList] "GitHub Actions 7".toList
            "GitHub Actions".toList] =
        some { OS := "Windows".toList, Arch := "X64".toList,
               Name := "GitHub Actions 7".toList, SelfHosted := false } := by
  decide

theorem test_ExtractSecretsFromWorkflow_table :
    ExtractSecretsFromWorkflow
        ("password: ".toList ++ refExpr " secrets.DOCKER_PASSWORD ".toList)
        = ["DOCKER_PASSWORD".toList] ∧
      ExtractSecretsFromWorkflow
        ("\n  username: ".toList ++ refExpr " secrets.REGISTRY_USER ".toList ++
          "\n  password: ".toList ++ refExpr " secrets.REGISTRY_PASS ".toList ++
          "\n  token: ".toList ++ refExpr " secrets.DEPLOY_TOKEN ".toList)
        = ["DEPLOY_TOKEN".toList, "REGISTRY_PASS".toList, "REGISTRY_USER".toList] ∧
      ExtractSecretsFromWorkflow
        ("\n  step1: ".toList ++ refExpr " secrets.MY_SECRET ".toList ++
          "\n  step2: ".toList ++ refExpr " secrets.MY_SECRET ".toList)
        = ["MY_SECRET".toList] ∧
      ExtractSecretsFromWorkflow
        ("\n  token: ".toList ++ refExpr " secrets.GITHUB_TOKEN ".toList ++
          "\n  key: ".toList ++ refExpr " secrets.DEPLOY_KEY ".toList)
        = ["DEPLOY_KEY".toList] ∧
      ExtractSecretsFromWorkflow
        ("token: ".toList ++ refExpr " secrets.GITHUB_TOKEN ".toList) = [] ∧
      ExtractSecretsFromWorkflow
        "name: CI\non: push\njobs:\n  build:\n    runs-on: ubuntu-latest".toList = [] ∧
      ExtractSecretsFromWorkflow
        ("token: ".toList ++ refExpr "  secrets.SPACED_SECRET  ".toList)
        = ["SPACED_SECRET".toList] ∧
      ExtractSecretsFromWorkflow
        ("key: ".toList ++ refExpr " secrets.AWS_ACCESS_KEY_2 ".toList)
        = ["AWS_ACCESS_KEY_2".toList] ∧
      ExtractSecretsFromWorkflow sampleWorkflow
        = ["API_KEY_2".toList, "DEPLOY_KEY".toList] := by
  decide

/-! ## Order of the scanner's result -/

theorem char_eq_of_toNat_eq (a b : Char) (h : a.toNat = b.toNat) : a = b := by
  rw [← Char.ofNat_toNat a, ← Char.ofNat_toNat b, h]

theorem strLe_total (a b : Str) : strLe a b = true ∨ strLe b a = true := by
  induction a generalizing b with
  | nil => exact Or.inl rfl
  | cons x xs ih =>
    cases b with
    | nil => exact Or.inr rfl
    | cons y ys =>
      simp only [strLe, Bool.or_eq_true, Bool.and_eq_true, decide_eq_true_eq]
      rcases Nat.lt_trichotomy x.toNat y.toNat with h | h | h
      · exact Or.inl (Or.inl h)
      · rcases ih ys with h2 | h2
        · exact Or.inl (Or.inr ⟨h, h2⟩)
        · exact Or.inr (Or.inr ⟨h.symm, h2⟩)
      · exact Or.inr (Or.inl h)

theorem strLe_trans (a b c : Str) (hab : strLe a b = true) (hbc : strLe b c = true) :
    strLe a c = true := by
  induction a generalizing b c with
  | nil => rfl
  | cons x xs ih =>
    cases b with
    | nil => simp [strLe] at hab
    | cons y ys =>
      cases c with
      | nil => simp [strLe] at hbc
      | cons z zs =>
        simp only [strLe, Bool.or_eq_true, Bool.and_eq_true, decide_eq_true_eq] at hab hbc ⊢
        rcases hab with h1 | ⟨h1, h1r⟩ <;> rcases hbc with h2 | ⟨h2, h2r⟩
        · exact Or.inl (by omega)
        · exact Or.inl (by omega)
        · exact Or.inl (by omega)
        · exact Or.inr ⟨by omega, ih ys zs h1r h2r⟩

theorem strLt_of_strLe_of_ne (a b : Str) (hab : strLe a b = true) (hne : a ≠ b) :
    strLt a b = true := by
  induction a generalizing b with
  | nil =>
    cases b with
    | nil => exact absurd rfl hne
    | cons y ys => rfl
  | cons x xs ih =>
    cases b with
    | nil => simp [strLe] at hab
    | cons y ys =>
      simp only [strLe, strLt, Bool.or_eq_true, Bool.and_eq_true, decide_eq_true_eq] at hab ⊢
      rcases hab with h | ⟨h, hr⟩
      · exact Or.inl h
      · refine Or.inr ⟨h, ih ys hr ?_⟩
        intro e
        exact hne (by rw [char_eq_of_toNat_eq x y h, e])

theorem strLt_irrefl (a : Str) : strLt a a = false := by
  induction a with
  | nil => rfl
  | cons x xs ih => simp [strLt, ih]

theorem sortStrings_sorted (l : List Str) :
    List.Pairwise (fun a b => strLe a b = true) (sortStrings l) :=
  @List.sorted_insertionSort Str (fun a b => strLe a b = true) _
    ⟨strLe_total⟩ ⟨strLe_trans⟩ l

theorem collectSecret_nodup (st : List Str × List Str) (name : Str)
    (hinv : ∀ x, x ∈ st.1 ↔ x ∈ st.2) (hnd : st.2.Nodup) :
    (collectSecret st name).2.Nodup := by
  unfold collectSecret
  by_cases hg : name = "GITHUB_TOKEN".toList
  · rw [if_pos hg]
    exact hnd
  · rw [if_neg hg]
    by_cases hs : name ∈ st.1
    · rw [if_pos hs]
      exact hnd
    · rw [if_neg hs]
      have hs2 : name ∉ st.2 := fun h => hs ((hinv name).mpr h)
      refine List.Nodup.append hnd (List.nodup_singleton name) ?_
      intro x hx hx2
      rw [List.mem_singleton] at hx2
      exact hs2 (hx2 ▸ hx)

theorem foldl_collectSecret_nodup (names : List Str) (st : List Str × List Str)
    (hinv : ∀ x, x ∈ st.1 ↔ x ∈ st.2) (hnd : st.2.Nodup) :
    (names.foldl collectSecret st).2.Nodup := by
  induction names generalizing st with
  | nil => exact hnd
  | cons n ns ih =>
    rw [List.foldl_cons]
    exact ih _ (collectSecret_spec st n hinv).1 (collectSecret_nodup st n hinv hnd)

theorem extractSecrets_nodup (text : Str) : (ExtractSecretsFromWorkflow text).Nodup := by
  unfold ExtractSecretsFromWorkflow sortStrings
  rw [(List.perm_insertionSort _ _).nodup_iff]
  exact foldl_collectSecret_nodup _ _ (fun _ => Iff.rfl) List.nodup_nil

/-- C11: for every text the result of `ExtractSecretsFromWorkflow` is
strictly ascending in Go string order (each entry is less than every later
one), hence sorted and free of duplicates. -/
theorem C11_result_strictly_ascending (text : Str) :
    List.Pairwise (fun a b => strLt a b = true) (ExtractSecretsFromWorkflow text) ∧
      List.Pairwise (fun a b => strLe a b = true) (ExtractSecretsFromWorkflow text) ∧
      (ExtractSecretsFromWorkflow text).Nodup := by
  have hs : List.Pairwise (fun a b => strLe a b = true) (ExtractSecretsFromWorkflow text) :=
    sortStrings_sorted _
  have hn := extractSecrets_nodup text
  refine ⟨?_, hs, hn⟩
  exact (hs.and hn).imp (fun h => strLt_of_strLe_of_ne _ _ h.1 h.2)

/-! ## Where the scanner tolerates whitespace -/

theorem foldl_timestampStep_fst (jobs : List Job) (st : Time × Time) :
    (jobs.foldl timestampStep st).1 =
      jobs.foldl (fun e job =>
        if job.StartedAt ≠ 0 ∧ (e = 0 ∨ job.StartedAt < e) then job.StartedAt else e) st.1 := by
  induction jobs generalizing st with
  | nil => rfl
  | cons j js ih => rw [List.foldl_cons, List.foldl_cons, ih]; rfl

theorem foldl_timestampStep_snd (jobs : List Job) (st : Time × Time) :
    (jobs.foldl timestampStep st).2 =
      jobs.foldl (fun e job =>
        if job.CompletedAt ≠ 0 ∧ (e = 0 ∨ e < job.CompletedAt) then job.CompletedAt else e)
        st.2 := by
  induction jobs generalizing st with
  | nil => rfl
  | cons j js ih => rw [List.foldl_cons, List.foldl_cons, ih]; rfl

theorem foldl_earliest (jobs : List Job) (e0 : Time) :
    (jobs.foldl (fun e job =>
        if job.StartedAt ≠ 0 ∧ (e = 0 ∨ job.StartedAt < e) then job.StartedAt else e) e0 = 0 ↔
      (e0 = 0 ∧ ∀ j ∈ jobs, j.StartedAt = 0)) ∧
    (jobs.foldl (fun e job =>
        if job.StartedAt ≠ 0 ∧ (e = 0 ∨ job.StartedAt < e) then job.StartedAt else e) e0 = e0 ∨
      ∃ j ∈ jobs, j.StartedAt = jobs.foldl (fun e job =>
        if job.StartedAt ≠ 0 ∧ (e = 0 ∨ job.StartedAt < e) then job.StartedAt else e) e0) ∧
    (e0 ≠ 0 → jobs.foldl (fun e job =>
        if job.StartedAt ≠ 0 ∧ (e = 0 ∨ job.StartedAt < e) then job.StartedAt else e) e0 ≤ e0) ∧
    (∀ j ∈ jobs, j.StartedAt ≠ 0 → jobs.foldl (fun e job =>
        if job.StartedAt ≠ 0 ∧ (e = 0 ∨ job.StartedAt < e) then job.StartedAt else e) e0
        ≤ j.StartedAt) := by
  induction jobs generalizing e0 with
  | nil => simp
  | cons j js ih =>
    rw [List.foldl_cons]
    by_cases hc : j.StartedAt ≠ 0 ∧ (e0 = 0 ∨ j.StartedAt < e0)
    · rw [if_pos hc]
      obtain ⟨i1, i2, i3, i4⟩ := ih j.StartedAt
      refine ⟨?_, ?_, ?_, ?_⟩
      · constructor
        · intro h
          exact absurd (i1.mp h).1 hc.1
        · rintro ⟨_, h⟩
          exact absurd (h j (List.mem_cons_self _ _)) hc.1
      · rcases i2 with h | ⟨k, hk, hke⟩
        · exact Or.inr ⟨j, List.mem_cons_self _ _, h.symm⟩
        · exact Or.inr ⟨k, List.mem_cons_of_mem _ hk, hke⟩
      · intro h0
        have h3 := i3 hc.1
        rcases hc.2 with h | h
        · exact absurd h h0
        · exact Int.le_trans h3 (Int.le_of_lt h)
      · intro k hk hk0
        rcases List.mem_cons.mp hk with rfl | hk
        · exact i3 hk0
        · exact i4 k hk hk0
    · rw [if_neg hc]
      obtain ⟨i1, i2, i3, i4⟩ := ih e0
      refine ⟨?_, ?_, ?_, ?_⟩
      · rw [i1]
        constructor
        · rintro ⟨h0, h⟩
          refine ⟨h0, fun k hk => ?_⟩
          rcases List.mem_cons.mp hk with rfl | hk
          · by_contra hne
            exact hc ⟨hne, Or.inl h0⟩
          · exact h k hk
        · rintro ⟨h0, h⟩
          exact ⟨h0, fun k hk => h k (List.mem_cons_of_mem _ hk)⟩
      · rcases i2 with h | ⟨k, hk, hke⟩
        · exact Or.inl h
        · exact Or.inr ⟨k, List.mem_cons_of_mem _ hk, hke⟩
      · exact i3
      · intro k hk hk0
        rcases List.mem_cons.mp hk with rfl | hk
        · have h0 : e0 ≠ 0 := fun h => hc ⟨hk0, Or.inl h⟩
          have h1 : ¬ k.StartedAt < e0 := fun h => hc ⟨hk0, Or.inr h⟩
          exact Int.le_trans (i3 h0) (Int.not_lt.mp h1)
        · exact i4 k hk hk0

theorem foldl_latest (jobs : List Job) (e0 : Time) :
    (jobs.foldl (fun e job =>
        if job.CompletedAt ≠ 0 ∧ (e = 0 ∨ e < job.CompletedAt) then job.CompletedAt else e) e0
        = 0 ↔ (e0 = 0 ∧ ∀ j ∈ jobs, j.CompletedAt = 0)) ∧
    (jobs.foldl (fun e job =>
        if job.CompletedAt ≠ 0 ∧ (e = 0 ∨ e < job.CompletedAt) then job.CompletedAt else e) e0
        = e0 ∨
      ∃ j ∈ jobs, j.CompletedAt = jobs.foldl (fun e job =>
        if job.CompletedAt ≠ 0 ∧ (e = 0 ∨ e < job.CompletedAt) then job.CompletedAt else e)
        e0) ∧
    (e0 ≠ 0 → e0 ≤ jobs.foldl (fun e job =>
        if job.CompletedAt ≠ 0 ∧ (e = 0 ∨ e < job.CompletedAt) then job.CompletedAt else e)
        e0) ∧
    (∀ j ∈ jobs, j.CompletedAt ≠ 0 → j.CompletedAt ≤ jobs.foldl (fun e job =>
        if job.CompletedAt ≠ 0 ∧ (e = 0 ∨ e < job.CompletedAt) then job.CompletedAt else e)
        e0) := by
  induction jobs generalizing e0 with
  | nil => simp
  | cons j js ih =>
    rw [List.foldl_cons]
    by_cases hc : j.CompletedAt ≠ 0 ∧ (e0 = 0 ∨ e0 < j.CompletedAt)
    · rw [if_pos hc]
      obtain ⟨i1, i2, i3, i4⟩ := ih j.CompletedAt
      refine ⟨?_, ?_, ?_, ?_⟩
      · constructor
        · intro h
          exact absurd (i1.mp h).1 hc.1
        · rintro ⟨_, h⟩
          exact absurd (h j (List.mem_cons_self _ _)) hc.1
      · rcases i2 with h | ⟨k, hk, hke⟩
        · exact Or.inr ⟨j, List.mem_cons_self _ _, h.symm⟩
        · exact Or.inr ⟨k, List.mem_cons_of_mem _ hk, hke⟩
      · intro h0
        have h3 := i3 hc.1
        rcases hc.2 with h | h
        · exact absurd h h0
        · exact Int.le_trans (Int.le_of_lt h) h3
      · intro k hk hk0
        rcases List.mem_cons.mp hk with rfl | hk
        · exact i3 hk0
        · exact i4 k hk hk0
    · rw [if_neg hc]
      obtain ⟨i1, i2, i3, i4⟩ := ih e0
      refine ⟨?_, ?_, ?_, ?_⟩
      · rw [i1]
        constructor
        · rintro ⟨h0, h⟩
          refine ⟨h0, fun k hk => ?_⟩
          rcases List.mem_cons.mp hk with rfl | hk
          · by_contra hne
            exact hc ⟨hne, Or.inl h0⟩
          · exact h k hk
        · rintro ⟨h0, h⟩
          exact ⟨h0, fun k hk => h k (List.mem_cons_of_mem _ hk)⟩
      · rcases i2 with h | ⟨k, hk, hke⟩
        · exact Or.inl h
        · exact Or.inr ⟨k, List.mem_cons_of_mem _ hk, hke⟩
      · exact i3
      · intro k hk hk0
        rcases List.mem_cons.mp hk with rfl | hk
        · have h0 : e0 ≠ 0 := fun h => hc ⟨hk0, Or.inl h⟩
          have h1 : ¬ e0 < k.CompletedAt := fun h => hc ⟨hk0, Or.inr h⟩
          exact Int.le_trans (Int.not_lt.mp h1) (i3 h0)
        · exact i4 k hk hk0

theorem extractTimestamps_fst (jobs : List Job) :
    (ExtractTimestamps jobs).1 =
      if jobs.foldl (fun e job =>
          if job.StartedAt ≠ 0 ∧ (e = 0 ∨ job.StartedAt < e) then job.StartedAt else e) 0 ≠ 0
      then some (jobs.foldl (fun e job =>
          if job.StartedAt ≠ 0 ∧ (e = 0 ∨ job.StartedAt < e) then job.StartedAt else e) 0)
      else none := by
  cases jobs with
  | nil => rfl
  | cons j js =>
    show (if ((j :: js).foldl timestampStep (0, 0)).1 ≠ 0 then
      some ((j :: js).foldl timestampStep (0, 0)).1 else none) = _
    rw [foldl_timestampStep_fst]

theorem extractTimestamps_snd (jobs : List Job) :
    (ExtractTimestamps jobs).2 =
      if jobs.foldl (fun e job =>
          if job.CompletedAt ≠ 0 ∧ (e = 0 ∨ e < job.CompletedAt) then job.CompletedAt else e)
          0 ≠ 0
      then some (jobs.foldl (fun e job =>
          if job.CompletedAt ≠ 0 ∧ (e = 0 ∨ e < job.CompletedAt) then job.CompletedAt else e)
          0)
      else none := by
  cases jobs with
  | nil => rfl
  | cons j js =>
    show (if ((j :: js).foldl timestampStep (0, 0)).2 ≠ 0 then
      some ((j :: js).foldl timestampStep (0, 0)).2 else none) = _
    rw [foldl_timestampStep_snd]

theorem extractTimestamps_started (jobs : List Job) :
    ((ExtractTimestamps jobs).1 = none ↔ ∀ j ∈ jobs, j.StartedAt = 0) ∧
    (∀ t, (ExtractTimestamps jobs).1 = some t →
      t ≠ 0 ∧ (∃ j ∈ jobs, j.StartedAt = t) ∧
        ∀ j ∈ jobs, j.StartedAt ≠ 0 → t ≤ j.StartedAt) := by
  obtain ⟨i1, i2, _, i4⟩ := foldl_earliest jobs 0
  rw [extractTimestamps_fst]
  constructor
  · constructor
    · intro h
      by_contra hn
      have h0 : ¬ (jobs.foldl (fun e job =>
          if job.StartedAt ≠ 0 ∧ (e = 0 ∨ job.StartedAt < e) then job.StartedAt else e) 0
          = 0) := fun e => hn (i1.mp e).2
      rw [if_pos h0] at h
      cases h
    · intro h
      have h0 := i1.mpr ⟨rfl, h⟩
      rw [if_neg (fun hn => hn h0)]
  · intro t ht
    by_cases h0 : jobs.foldl (fun e job =>
        if job.StartedAt ≠ 0 ∧ (e = 0 ∨ job.StartedAt < e) then job.StartedAt else e) 0 = 0
    · rw [if_neg (fun hn => hn h0)] at ht
      cases ht
    · rw [if_pos h0] at ht
      have hte := Option.some.inj ht
      rw [hte] at h0 i2 i4
      refine ⟨h0, ?_, i4⟩
      rcases i2 with h | h
      · exact absurd h h0
      · exact h

theorem extractTimestamps_completed (jobs : List Job) :
    ((ExtractTimestamps jobs).2 = none ↔ ∀ j ∈ jobs, j.CompletedAt = 0) ∧
    (∀ t, (ExtractTimestamps jobs).2 = some t →
      t ≠ 0 ∧ (∃ j ∈ jobs, j.CompletedAt = t) ∧
        ∀ j ∈ jobs, j.CompletedAt ≠ 0 → j.CompletedAt ≤ t) := by
  obtain ⟨i1, i2, _, i4⟩ := foldl_latest jobs 0
  rw [extractTimestamps_snd]
  constructor
  · constructor
    · intro h
      by_contra hn
      have h0 : ¬ (jobs.foldl (fun e job =>
          if job.CompletedAt ≠ 0 ∧ (e = 0 ∨ e < job.CompletedAt) then job.CompletedAt
          else e) 0 = 0) := fun e => hn (i1.mp e).2
      rw [if_pos h0] at h
      cases h
    · intro h
      have h0 := i1.mpr ⟨rfl, h⟩
      rw [if_neg (fun hn => hn h0)]
  · intro t ht
    by_cases h0 : jobs.foldl (fun e job =>
        if job.CompletedAt ≠ 0 ∧ (e = 0 ∨ e < job.CompletedAt) then job.CompletedAt
        else e) 0 = 0
    · rw [if_neg (fun hn => hn h0)] at ht
      cases ht
    · rw [if_pos h0] at ht
      have hte := Option.some.inj ht
      rw [hte] at h0 i2 i4
      refine ⟨h0, ?_, i4⟩
      rcases i2 with h | h
      · exact absurd h h0
      · exact h

/-- C13: `ExtractTimestamps` returns as start the least non-zero StartedAt
and as completion the greatest non-zero CompletedAt over all jobs; the start
(respectively completion) is absent exactly when no job has a non-zero
StartedAt (respectively CompletedAt), in particular for the empty list. -/
theorem C13_extractTimestamps_min_max (jobs : List Job) :
    ((ExtractTimestamps jobs).1 = none ↔ ∀ j ∈ jobs, j.StartedAt = 0) ∧
    (∀ t, (ExtractTimestamps jobs).1 = some t →
      t ≠ 0 ∧ (∃ j ∈ jobs, j.StartedAt = t) ∧
        ∀ j ∈ jobs, j.StartedAt ≠ 0 → t ≤ j.StartedAt) ∧
    ((ExtractTimestamps jobs).2 = none ↔ ∀ j ∈ jobs, j.CompletedAt = 0) ∧
    (∀ t, (ExtractTimestamps jobs).2 = some t →
      t ≠ 0 ∧ (∃ j ∈ jobs, j.CompletedAt = t) ∧
        ∀ j ∈ jobs, j.CompletedAt ≠ 0 → j.CompletedAt ≤ t) ∧
    ExtractTimestamps [] = (none, none) :=
  ⟨(extractTimestamps_started jobs).1, (extractTimestamps_started jobs).2,
    (extractTimestamps_completed jobs).1, (extractTimestamps_completed jobs).2, rfl⟩

theorem test_ExtractTimestamps_table :
    ExtractTimestamps [] = (none, none) ∧
      ExtractTimestamps
        [{ mkJob [] [] [] with StartedAt := 1000, CompletedAt := 1005 }]
        = (some 1000, some 1005) ∧
      ExtractTimestamps
        [{ mkJob [] [] [] with StartedAt := 1002, CompletedAt := 1005 },
         { mkJob [] [] [] with StartedAt := 1000, CompletedAt := 1008 }]
        = (some 1000, some 1008) ∧
      ExtractTimestamps
        [{ mkJob [] [] [] with StartedAt := 0, CompletedAt := 0 },
         { mkJob [] [] [] with StartedAt := 1000, CompletedAt := 0 }]
        = (some 1000, none) := by
  decide

/-! ## The call log of the enrichment pipeline -/

theorem onlyFetches_refl {W : Type} (s : St W) : OnlyFetches s s :=
  ⟨[], by simp, by simp⟩

theorem onlyFetches_trans {W : Type} {s t u : St W} (h1 : OnlyFetches s t)
    (h2 : OnlyFetches t u) : OnlyFetches s u := by
  obtain ⟨e1, ht, hf1⟩ := h1
  obtain ⟨e2, hu, hf2⟩ := h2
  refine ⟨e1 ++ e2, by rw [hu, ht, List.append_assoc], ?_⟩
  intro c hc
  rcases List.mem_append.mp hc with h | h
  · exact hf1 c h
  · exact hf2 c h

theorem onlyFetches_step {W : Type} (s : St W) (w : W) (c : Call) (hc : c.isFetch = true) :
    OnlyFetches s { world := w, trace := s.trace ++ [c] } :=
  ⟨[c], rfl, by simpa using hc⟩

theorem clientListRunsByCommit_fetches {W : Type} (R : Remote W) (owner repo sha : Str)
    (s : St W) : OnlyFetches s (clientListRunsByCommit R owner repo sha s).2 :=
  onlyFetches_step s _ _ rfl

theorem clientGetJobs_fetches {W : Type} (R : Remote W) (owner repo : Str) (runID : Int)
    (s : St W) : OnlyFetches s (clientGetJobs R owner repo runID s).2 :=
  onlyFetches_step s _ _ rfl

theorem clientGetArtifacts_fetches {W : Type} (R : Remote W) (owner repo : Str)
    (runID : Int) (s : St W) : OnlyFetches s (clientGetArtifacts R owner repo runID s).2 :=
  onlyFetches_step s _ _ rfl

theorem clientDownloadArtifact_fetches {W : Type} (R : Remote W) (url : Str) (s : St W) :
    OnlyFetches s (clientDownloadArtifact R url s).2 :=
  onlyFetches_step s _ _ rfl

theorem clientGetWorkflowContent_fetches {W : Type} (R : Remote W)
    (owner repo path ref : Str) (s : St W) :
    OnlyFetches s (clientGetWorkflowContent R owner repo path ref s).2 :=
  onlyFetches_step s _ _ rfl

theorem waitAfter_fetches {W : Type} (R : Remote W) (seconds : Nat) (s : St W) :
    OnlyFetches s (waitAfter R seconds s).2 :=
  onlyFetches_step s _ _ rfl

theorem timeNow_fetches {W : Type} (R : Remote W) (s : St W) :
    OnlyFetches s (timeNow R s).2 :=
  onlyFetches_step s _ _ rfl

theorem findCollectorRun_fetches {W : Type} (R : Remote W) (owner repo headSHA : Str)
    (s : St W) : OnlyFetches s (FindCollectorRun R owner repo headSHA s).2 := by
  have h := clientListRunsByCommit_fetches R owner repo headSHA s
  unfold FindCollectorRun
  split
  · next err s1 heq => rw [heq] at h; exact h
  · next runs s1 heq =>
    rw [heq] at h
    split <;> exact h

theorem downloadSkeletonPBOM_fetches {W : Type} (L : Lib) (R : Remote W) (owner repo : Str)
    (collectorRunID : Int) (s : St W) :
    OnlyFetches s (DownloadSkeletonPBOM L R owner repo collectorRunID s).2 := by
  have h := clientGetArtifacts_fetches R owner repo collectorRunID s
  unfold DownloadSkeletonPBOM
  split
  · next err s1 heq => rw [heq] at h; exact h
  · next artifacts s1 heq =>
    rw [heq] at h
    split
    · exact h
    · next art _ =>
      have h2 := clientDownloadArtifact_fetches R art.ArchiveDownloadURL s1
      split
      · next err s2 heq2 => rw [heq2] at h2; exact onlyFetches_trans h h2
      · next zipData s2 heq2 => rw [heq2] at h2; exact onlyFetches_trans h h2

theorem findSkeletonAttempts_fetches {W : Type} (L : Lib) (R : Remote W)
    (owner repo headSHA : Str) (delays : List Nat) (attempt : Nat) (s : St W) :
    OnlyFetches s (findSkeletonAttempts L R owner repo headSHA attempt delays s).2 := by
  induction delays generalizing attempt s with
  | nil => exact onlyFetches_refl s
  | cons delay rest ih =>
    unfold findSkeletonAttempts
    have hw : OnlyFetches s (if delay > 0 then waitAfter R delay s else (true, s)).2 := by
      split
      · exact waitAfter_fetches R delay s
      · exact onlyFetches_refl s
    split
    · next s1 heq => rw [heq] at hw; exact hw
    · next s1 heq =>
      rw [heq] at hw
      have hf := findCollectorRun_fetches R owner repo headSHA s1
      split
      · next err s2 heq2 =>
        rw [heq2] at hf
        split
        · exact onlyFetches_trans hw (onlyFetches_trans hf (ih _ s2))
        · exact onlyFetches_trans hw hf
      · next run s2 heq2 =>
        rw [heq2] at hf
        have hd := downloadSkeletonPBOM_fetches L R owner repo run.ID s2
        split
        · next err s3 heq3 =>
          rw [heq3] at hd
          exact onlyFetches_trans hw (onlyFetches_trans hf hd)
        · next pbom s3 heq3 =>
          rw [heq3] at hd
          exact onlyFetches_trans hw (onlyFetches_trans hf hd)

theorem resolveSkeleton_fetches {W : Type} (L : Lib) (R : Remote W) (event : WebhookEvent)
    (s : St W) : OnlyFetches s (resolveSkeleton L R event s).2 := by
  have h := findSkeletonAttempts_fetches L R event.Repository.OwnerLogin
    event.Repository.Name event.WorkflowRun.HeadSHA [0, 10, 30, 60] 0 s
  unfold resolveSkeleton findSkeletonWithRetry
  split
  · next pbom s1 heq => rw [heq] at h; exact h
  · next err s1 heq =>
    rw [heq] at h
    exact onlyFetches_trans h (timeNow_fetches R s1)

theorem enrichFromJobs_fetches {W : Type} (L : Lib) (R : Remote W) (event : WebhookEvent)
    (r : PBOM × St W) : OnlyFetches r.2 (enrichFromJobs L R event r).2 := by
  have h := clientGetJobs_fetches R event.Repository.OwnerLogin event.Repository.Name
    event.WorkflowRun.ID r.2
  unfold enrichFromJobs
  split
  · next err s1 heq => rw [heq] at h; exact h
  · next jobs s1 heq => rw [heq] at h; exact h

theorem enrichSecrets_fetches {W : Type} (R : Remote W) (event : WebhookEvent)
    (r : PBOM × St W) : OnlyFetches r.2 (enrichSecrets R event r).2 := by
  have h := clientGetWorkflowContent_fetches R event.Repository.OwnerLogin
    event.Repository.Name event.WorkflowRun.Path event.WorkflowRun.HeadSHA r.2
  unfold enrichSecrets
  split
  · split
    · next err s1 heq => rw [heq] at h; exact h
    · next text s1 heq =>
      rw [heq] at h
      split <;> exact h
  · exact onlyFetches_refl r.2

theorem downloadAndParseDockerMetadata_fetches {W : Type} (L : Lib) (R : Remote W)
    (url : Str) (s : St W) :
    OnlyFetches s (downloadAndParseDockerMetadata L R url s).2 := by
  have h := clientDownloadArtifact_fetches R url s
  unfold downloadAndParseDockerMetadata
  split
  · next err s1 heq => rw [heq] at h; exact h
  · next zipData s1 heq =>
    rw [heq] at h
    repeat (first | exact h | split)

theorem extractDockerLoop_fetches {W : Type} (L : Lib) (R : Remote W) (repo : Str)
    (arts : List gh.Artifact) (result : List Artifact) (s : St W) :
    OnlyFetches s (extractDockerLoop L R repo arts result s).2 := by
  induction arts generalizing result s with
  | nil => exact onlyFetches_refl s
  | cons art arts ih =>
    unfold extractDockerLoop
    split
    · exact ih result s
    · have h := downloadAndParseDockerMetadata_fetches L R art.ArchiveDownloadURL s
      split
      · next err s1 heq => rw [heq] at h; exact onlyFetches_trans h (ih _ s1)
      · next dockerMeta s1 heq => rw [heq] at h; exact onlyFetches_trans h (ih _ s1)

theorem extractDockerArtifacts_fetches {W : Type} (L : Lib) (R : Remote W)
    (owner repo : Str) (runID : Int) (s : St W) :
    OnlyFetches s (ExtractDockerArtifacts L R owner repo runID s).2 := by
  have h := clientGetArtifacts_fetches R owner repo runID s
  unfold ExtractDockerArtifacts
  split
  · next err s1 heq => rw [heq] at h; exact h
  · next artifacts s1 heq =>
    rw [heq] at h
    exact onlyFetches_trans h (extractDockerLoop_fetches L R repo artifacts [] s1)

theorem enrichArtifacts_fetches {W : Type} (L : Lib) (R : Remote W) (event : WebhookEvent)
    (r : PBOM × St W) : OnlyFetches r.2 (enrichArtifacts L R event r).2 := by
  have h := extractDockerArtifacts_fetches L R event.Repository.OwnerLogin
    event.Repository.Name event.WorkflowRun.ID r.2
  unfold enrichArtifacts
  split
  next dockerArtifacts s1 heq =>
  rw [heq] at h
  split <;> exact h

theorem enrichRecord_fetches {W : Type} (L : Lib) (R : Remote W) (event : WebhookEvent)
    (s : St W) : OnlyFetches s (enrichRecord L R event s).2 := by
  have h1 := resolveSkeleton_fetches L R event s
  have h2 := enrichFromJobs_fetches L R event (resolveSkeleton L R event s)
  have h3 := enrichSecrets_fetches R event
    (overwriteRunFields event (enrichFromJobs L R event (resolveSkeleton L R event s)).1,
      (enrichFromJobs L R event (resolveSkeleton L R event s)).2)
  have h4 := enrichArtifacts_fetches L R event
    (enrichSecrets R event
      (overwriteRunFields event (enrichFromJobs L R event (resolveSkeleton L R event s)).1,
        (enrichFromJobs L R event (resolveSkeleton L R event s)).2))
  exact onlyFetches_trans h1 (onlyFetches_trans h2 (onlyFetches_trans h3 h4))

theorem storeCalls_append (a b : List Call) :
    storeCalls (a ++ b) = storeCalls a ++ storeCalls b := by
  induction a with
  | nil => rfl
  | cons c cs ih => cases c <;> simp [storeCalls, ih]

theorem writtenPaths_append (a b : List Call) :
    writtenPaths (a ++ b) = writtenPaths a ++ writtenPaths b := by
  induction a with
  | nil => rfl
  | cons c cs ih => cases c <;> simp [writtenPaths, ih]

theorem storeCalls_fetches (extra : List Call) (h : ∀ c ∈ extra, c.isFetch = true) :
    storeCalls extra = [] := by
  induction extra with
  | nil => rfl
  | cons c cs ih =>
    have hc := h c (List.mem_cons_self _ _)
    have ih2 := ih (fun x hx => h x (List.mem_cons_of_mem _ hx))
    cases c <;> first | exact ih2 | exact absurd hc (by simp [Call.isFetch])

theorem writtenPaths_fetches (extra : List Call) (h : ∀ c ∈ extra, c.isFetch = true) :
    writtenPaths extra = [] := by
  induction extra with
  | nil => rfl
  | cons c cs ih =>
    have hc := h c (List.mem_cons_self _ _)
    have ih2 := ih (fun x hx => h x (List.mem_cons_of_mem _ hx))
    cases c <;> first | exact ih2 | exact absurd hc (by simp [Call.isFetch])

theorem store_trace {W : Type} (L : Lib) (R : Remote W) (dir : Str) (pbom : PBOM)
    (owner repo : Str) (runID : Int) (s : St W) :
    ∃ writes : List Call,
      (Store L R dir pbom owner repo runID s).2.trace =
        s.trace ++ (Call.Store dir pbom owner repo runID :: Call.MkdirAll dir :: writes) ∧
      (writes = [] ∨ ∃ data, writes =
        [Call.WriteFile (L.filepathJoin dir (storeFileName owner repo runID)) data]) := by
  unfold Store
  split
  · exact ⟨[], rfl, Or.inl rfl⟩
  · split
    · exact ⟨[], rfl, Or.inl rfl⟩
    · next data _ =>
      split
      · exact ⟨_, rfl, Or.inr ⟨data, rfl⟩⟩
      · exact ⟨_, rfl, Or.inr ⟨data, rfl⟩⟩

theorem enrich_trace {W : Type} (L : Lib) (R : Remote W) (e : Enricher)
    (event : WebhookEvent) (s : St W) :
    ∃ (fetches writes : List Call),
      (Enrich L R e event s).trace = s.trace ++ fetches ++
        (Call.Store e.storageDir (enrichRecord L R event s).1 event.Repository.OwnerLogin
          event.Repository.Name event.WorkflowRun.ID ::
          Call.MkdirAll e.storageDir :: writes) ∧
      (∀ c ∈ fetches, c.isFetch = true) ∧
      (writes = [] ∨ ∃ data, writes =
        [Call.WriteFile (L.filepathJoin e.storageDir
          (storeFileName event.Repository.OwnerLogin event.Repository.Name
            event.WorkflowRun.ID)) data]) := by
  obtain ⟨fetches, hf, hall⟩ := enrichRecord_fetches L R event s
  obtain ⟨writes, hw, hcase⟩ := store_trace L R e.storageDir (enrichRecord L R event s).1
    event.Repository.OwnerLogin event.Repository.Name event.WorkflowRun.ID
    (enrichRecord L R event s).2
  refine ⟨fetches, writes, ?_, hall, hcase⟩
  unfold Enrich
  rw [hw, hf]

theorem enrich_storeCalls {W : Type} (L : Lib) (R : Remote W) (e : Enricher)
    (event : WebhookEvent) (s : St W) :
    storeCalls (Enrich L R e event s).trace = storeCalls s.trace ++
      [(e.storageDir, (enrichRecord L R event s).1, event.Repository.OwnerLogin,
        event.Repository.Name, event.WorkflowRun.ID)] := by
  obtain ⟨fetches, writes, ht, hall, hcase⟩ := enrich_trace L R e event s
  rw [ht, storeCalls_append, storeCalls_append, storeCalls_fetches fetches hall]
  rcases hcase with h | ⟨data, h⟩ <;> subst h <;> simp [storeCalls]

/-! ## What each step of Enrich does to the record -/

theorem applyJobs_eq (L : Lib) (pbom : PBOM) (jobs : List Job) :
    applyJobs L pbom jobs =
      { pbom with Build := { pbom.Build with
          Runner := (ExtractRunner L.ToLower jobs).or pbom.Build.Runner,
          StartedAt := (ExtractTimestamps jobs).1.or pbom.Build.StartedAt,
          CompletedAt := (ExtractTimestamps jobs).2.or pbom.Build.CompletedAt } } := by
  unfold applyJobs
  cases ExtractRunner L.ToLower jobs <;> cases (ExtractTimestamps jobs).1 <;>
    cases (ExtractTimestamps jobs).2 <;> rfl

theorem enrichFromJobs_record {W : Type} (L : Lib) (R : Remote W) (event : WebhookEvent)
    (r : PBOM × St W) :
    (enrichFromJobs L R event r).1 =
      match (R.GetJobs event.Repository.OwnerLogin event.Repository.Name
          event.WorkflowRun.ID r.2.world).1 with
      | Except.error _ => r.1
      | Except.ok jobs => applyJobs L r.1 jobs := by
  unfold enrichFromJobs clientGetJobs
  cases (R.GetJobs event.Repository.OwnerLogin event.Repository.Name
    event.WorkflowRun.ID r.2.world).1 <;> rfl

theorem enrichSecrets_record {W : Type} (R : Remote W) (event : WebhookEvent)
    (r : PBOM × St W) :
    (enrichSecrets R event r).1 =
      { r.1 with Build := { r.1.Build with
          SecretsAccessed :=
            if event.WorkflowRun.Path ≠ [] then
              match (R.GetWorkflowContent event.Repository.OwnerLogin event.Repository.Name
                  event.WorkflowRun.Path event.WorkflowRun.HeadSHA r.2.world).1 with
              | Except.error _ => r.1.Build.SecretsAccessed
              | Except.ok yamlContent =>
                if ExtractSecretsFromWorkflow yamlContent ≠ [] then
                  ExtractSecretsFromWorkflow yamlContent
                else r.1.Build.SecretsAccessed
            else r.1.Build.SecretsAccessed } } := by
  unfold enrichSecrets clientGetWorkflowContent
  by_cases hp : event.WorkflowRun.Path = []
  · simp only [hp, ne_eq, not_true_eq_false, if_false]
  · simp only [hp, ne_eq, not_false_eq_true, if_true]
    cases (R.GetWorkflowContent event.Repository.OwnerLogin event.Repository.Name
      event.WorkflowRun.Path event.WorkflowRun.HeadSHA r.2.world).1 with
    | error err => rfl
    | ok text =>
      by_cases hs : ExtractSecretsFromWorkflow text = []
      · simp only [hs, List.length_nil, gt_iff_lt, Nat.lt_irrefl, if_false, not_true_eq_false]
      · have hl : (ExtractSecretsFromWorkflow text).length > 0 :=
          List.length_pos.mpr hs
        simp only [hl, if_true, hs, not_false_eq_true]

theorem enrichArtifacts_record {W : Type} (L : Lib) (R : Remote W) (event : WebhookEvent)
    (r : PBOM × St W) :
    (enrichArtifacts L R event r).1 =
      { r.1 with Artifacts := r.1.Artifacts ++
          (ExtractDockerArtifacts L R event.Repository.OwnerLogin event.Repository.Name
            event.WorkflowRun.ID r.2).1 } := by
  unfold enrichArtifacts
  cases hd : ExtractDockerArtifacts L R event.Repository.OwnerLogin event.Repository.Name
    event.WorkflowRun.ID r.2 with
  | mk docker s1 =>
    cases docker with
    | nil => simp
    | cons a as => simp

theorem enrichFromJobs_keeps {W : Type} (L : Lib) (R : Remote W) (event : WebhookEvent)
    (r : PBOM × St W) :
    (enrichFromJobs L R event r).1.Build.SecretsAccessed = r.1.Build.SecretsAccessed ∧
      (enrichFromJobs L R event r).1.Artifacts = r.1.Artifacts := by
  rw [enrichFromJobs_record]
  split
  · exact ⟨rfl, rfl⟩
  · rw [applyJobs_eq]
    exact ⟨rfl, rfl⟩

theorem enrichRecord_stored {W : Type} (L : Lib) (R : Remote W) (e : Enricher)
    (event : WebhookEvent) (s : St W) :
    recordsStored (Enrich L R e event s).trace =
      recordsStored s.trace ++ [(enrichRecord L R event s).1] := by
  unfold recordsStored
  rw [enrich_storeCalls, List.map_append]
  rfl

/-- C14: whatever the remote calls return and whatever the skeleton held,
the one record `Enrich` hands to `Store` has build.status, build.workflow_name
and build.workflow_file equal to the conclusion, name and path of the event's
run. -/
theorem C14_run_fields_from_event {W : Type} (L : Lib) (R : Remote W) (e : Enricher)
    (event : WebhookEvent) (s : St W) :
    recordsStored (Enrich L R e event s).trace =
        recordsStored s.trace ++ [(enrichRecord L R event s).1] ∧
      (enrichRecord L R event s).1.Build.Status = event.WorkflowRun.Conclusion ∧
      (enrichRecord L R event s).1.Build.WorkflowName = event.WorkflowRun.Name ∧
      (enrichRecord L R event s).1.Build.WorkflowFile = event.WorkflowRun.Path := by
  refine ⟨enrichRecord_stored L R e event s, ?_, ?_, ?_⟩ <;>
  · unfold enrichRecord
    rw [enrichArtifacts_record, enrichSecrets_record]
    rfl

/-- C15: the secret list of the record handed to `Store` is the scanner's
result when the workflow path is non-empty, the content fetch succeeds and
the scan result is non-empty; in every other case it is the list of the
skeleton or fallback record of step 1. -/
theorem C15_secret_list {W : Type} (L : Lib) (R : Remote W) (event : WebhookEvent)
    (s : St W) :
    (enrichRecord L R event s).1.Build.SecretsAccessed =
      if event.WorkflowRun.Path ≠ [] then
        match (R.GetWorkflowContent event.Repository.OwnerLogin event.Repository.Name
            event.WorkflowRun.Path event.WorkflowRun.HeadSHA
            (enrichFromJobs L R event (resolveSkeleton L R event s)).2.world).1 with
        | Except.error _ => (resolveSkeleton L R event s).1.Build.SecretsAccessed
        | Except.ok yamlContent =>
          if ExtractSecretsFromWorkflow yamlContent ≠ [] then
            ExtractSecretsFromWorkflow yamlContent
          else (resolveSkeleton L R event s).1.Build.SecretsAccessed
      else (resolveSkeleton L R event s).1.Build.SecretsAccessed := by
  have hk := (enrichFromJobs_keeps L R event (resolveSkeleton L R event s)).1
  unfold enrichRecord
  rw [enrichArtifacts_record, enrichSecrets_record]
  show (if event.WorkflowRun.Path ≠ [] then _ else _) = _
  have hk2 : (overwriteRunFields event
      (enrichFromJobs L R event (resolveSkeleton L R event s)).1).Build.SecretsAccessed =
      (resolveSkeleton L R event s).1.Build.SecretsAccessed := hk
  simp only [hk2]

/-- C16: the artifact sequence of the record handed to `Store` is the
artifact sequence of the skeleton (or fallback) record of step 1, unchanged
and in order, followed by the entries `ExtractDockerArtifacts` returns, in
their order. -/
theorem C16_artifacts_appended {W : Type} (L : Lib) (R : Remote W) (e : Enricher)
    (event : WebhookEvent) (s : St W) :
    recordsStored (Enrich L R e event s).trace =
        recordsStored s.trace ++ [(enrichRecord L R event s).1] ∧
      (enrichRecord L R event s).1.Artifacts =
        (resolveSkeleton L R event s).1.Artifacts ++
          (ExtractDockerArtifacts L R event.Repository.OwnerLogin event.Repository.Name
            event.WorkflowRun.ID
            (enrichSecrets R event
              ((overwriteRunFields event
                  (enrichFromJobs L R event (resolveSkeleton L R event s)).1),
                (enrichFromJobs L R event (resolveSkeleton L R event s)).2)).2).1 := by
  refine ⟨enrichRecord_stored L R e event s, ?_⟩
  have hk := (enrichFromJobs_keeps L R event (resolveSkeleton L R event s)).2
  unfold enrichRecord
  rw [enrichArtifacts_record, enrichSecrets_record]
  show (overwriteRunFields event
    (enrichFromJobs L R event (resolveSkeleton L R event s)).1).Artifacts ++ _ = _
  have hk2 : (overwriteRunFields event
      (enrichFromJobs L R event (resolveSkeleton L R event s)).1).Artifacts =
      (resolveSkeleton L R event s).1.Artifacts := hk
  rw [hk2]

theorem enrichRecord_times {W : Type} (L : Lib) (R : Remote W) (event : WebhookEvent)
    (s : St W) :
    (enrichRecord L R event s).1.Build.StartedAt =
        (enrichFromJobs L R event (resolveSkeleton L R event s)).1.Build.StartedAt ∧
      (enrichRecord L R event s).1.Build.CompletedAt =
        (enrichFromJobs L R event (resolveSkeleton L R event s)).1.Build.CompletedAt ∧
      (enrichRecord L R event s).1.Build.Runner =
        (enrichFromJobs L R event (resolveSkeleton L R event s)).1.Build.Runner := by
  unfold enrichRecord
  rw [enrichArtifacts_record, enrichSecrets_record]
  exact ⟨rfl, rfl, rfl⟩

/-- C17 (as stated, refuted): the jobs fetch succeeds and no job has a
timestamp, yet the record keeps a start: the fallback record keeps the start
it was built with (the current time 5000), the skeleton keeps its own start
950 and completion 960. -/
theorem C17_prior_timestamps_kept :
    ((jobsOnlyRemote []).GetJobs "acme".toList "widget".toList 42 ()).1 = Except.ok [] ∧
      ExtractTimestamps [] = (none, none) ∧
      (enrichRecord sampleLib (jobsOnlyRemote []) sampleEvent startState).1.Build.StartedAt
        = some 5000 ∧
      ((onlineRemote [untimedJob]).GetJobs "acme".toList "widget".toList 42 ()).1
        = Except.ok [untimedJob] ∧
      ExtractTimestamps [untimedJob] = (none, none) ∧
      (enrichRecord sampleLib (onlineRemote [untimedJob]) sampleEvent
        startState).1.Build.StartedAt = some 950 ∧
      (enrichRecord sampleLib (onlineRemote [untimedJob]) sampleEvent
        startState).1.Build.CompletedAt = some 960 := by
  decide

/-- C17 (amended): when the jobs fetch succeeds, the start of the record
handed to `Store` is the earliest job start if some job has one, and
otherwise the start the skeleton or fallback record of step 1 carried; its
completion is the latest job completion if some job has one, and otherwise
the completion that record carried. -/
theorem C17_timestamps_after_jobs {W : Type} (L : Lib) (R : Remote W)
    (event : WebhookEvent) (s : St W) (jobs : List Job)
    (hjobs : (R.GetJobs event.Repository.OwnerLogin event.Repository.Name
      event.WorkflowRun.ID (resolveSkeleton L R event s).2.world).1 = Except.ok jobs) :
    (enrichRecord L R event s).1.Build.StartedAt =
        (ExtractTimestamps jobs).1.or (resolveSkeleton L R event s).1.Build.StartedAt ∧
      (enrichRecord L R event s).1.Build.CompletedAt =
        (ExtractTimestamps jobs).2.or (resolveSkeleton L R event s).1.Build.CompletedAt := by
  obtain ⟨h1, h2, _⟩ := enrichRecord_times L R event s
  rw [h1, h2, enrichFromJobs_record, hjobs]
  simp only []
  rw [applyJobs_eq]
  exact ⟨rfl, rfl⟩

theorem C17_timestamps_after_jobs_witness :
    ((onlineRemote [mkJob [] [] []]).GetJobs sampleEvent.Repository.OwnerLogin
        sampleEvent.Repository.Name sampleEvent.WorkflowRun.ID
        (resolveSkeleton sampleLib (onlineRemote [mkJob [] [] []]) sampleEvent
          startState).2.world).1 = Except.ok [mkJob [] [] []] ∧
      ((enrichRecord sampleLib (onlineRemote [mkJob [] [] []]) sampleEvent
          startState).1.Build.StartedAt =
        (ExtractTimestamps [mkJob [] [] []]).1.or
          (resolveSkeleton sampleLib (onlineRemote [mkJob [] [] []]) sampleEvent
            startState).1.Build.StartedAt ∧
      (enrichRecord sampleLib (onlineRemote [mkJob [] [] []]) sampleEvent
          startState).1.Build.CompletedAt =
        (ExtractTimestamps [mkJob [] [] []]).2.or
          (resolveSkeleton sampleLib (onlineRemote [mkJob [] [] []]) sampleEvent
            startState).1.Build.CompletedAt) :=
  ⟨rfl, C17_timestamps_after_jobs sampleLib (onlineRemote [mkJob [] [] []]) sampleEvent
    startState [mkJob [] [] []] rfl⟩

/-- C18: the fallback record is built from the event alone, with the fields
the claim lists; it is the record of step 1 whenever skeleton resolution
returns an error.  For run 42 of acme/widget with a head SHA of forty "a"
and conclusion "success", in a world where nothing can be fetched, the record
handed to `Store` has id "fallback-42", that head SHA, status "success" and no
artifacts. -/
theorem C18_fallback_record {W : Type} (L : Lib) (R : Remote W) (event : WebhookEvent)
    (s : St W) (now : Time) :
    ((buildFallbackPBOM now event).ID = "fallback-".toList ++ formatInt event.WorkflowRun.ID ∧
      (buildFallbackPBOM now event).Source.Repository = event.Repository.FullName ∧
      (buildFallbackPBOM now event).Source.CommitSHA = event.WorkflowRun.HeadSHA ∧
      (buildFallbackPBOM now event).Source.Branch = event.WorkflowRun.HeadBranch ∧
      (buildFallbackPBOM now event).Source.Author = event.WorkflowRun.ActorLogin ∧
      (buildFallbackPBOM now event).Build.Actor = event.WorkflowRun.ActorLogin ∧
      (buildFallbackPBOM now event).Build.WorkflowRunID = formatInt event.WorkflowRun.ID ∧
      (buildFallbackPBOM now event).Build.WorkflowName = event.WorkflowRun.Name ∧
      (buildFallbackPBOM now event).Build.WorkflowFile = event.WorkflowRun.Path ∧
      (buildFallbackPBOM now event).Build.Trigger = event.WorkflowRun.Event ∧
      (buildFallbackPBOM now event).Build.Status = event.WorkflowRun.Conclusion ∧
      (buildFallbackPBOM now event).Artifacts = [] ∧
      (buildFallbackPBOM now event).Build.Runner = none ∧
      (buildFallbackPBOM now event).Build.StartedAt
        = some (buildFallbackPBOM now event).Timestamp ∧
      (buildFallbackPBOM now event).Timestamp = now) ∧
    (∀ err s1,
      findSkeletonWithRetry L R event.Repository.OwnerLogin event.Repository.Name
        event.WorkflowRun.HeadSHA s = (Except.error err, s1) →
      (resolveSkeleton L R event s).1 = buildFallbackPBOM (R.Now s1.world).1 event) ∧
    ((enrichRecord sampleLib offlineRemote sampleEvent startState).1.ID
        = "fallback-42".toList ∧
      (enrichRecord sampleLib offlineRemote sampleEvent startState).1.Source.CommitSHA
        = List.replicate 40 'a' ∧
      (enrichRecord sampleLib offlineRemote sampleEvent startState).1.Build.Status
        = "success".toList ∧
      (enrichRecord sampleLib offlineRemote sampleEvent startState).1.Artifacts = []) := by
  refine ⟨⟨rfl, rfl, rfl, rfl, rfl, rfl, rfl, rfl, rfl, rfl, rfl, rfl, rfl, rfl, rfl⟩,
    ?_, by decide⟩
  intro err s1 h
  unfold resolveSkeleton
  rw [h]
  rfl

/-- C19: whatever the remote calls return, `Enrich` enters `Store` exactly
once, with the storage directory and the identity (owner login, repository
name, run id) of the event; the only file it can write is the one named
owner, repo and decimal run id joined by underscores with the extension
".pbom.json" in that directory. -/
theorem C19_exactly_one_store {W : Type} (L : Lib) (R : Remote W) (e : Enricher)
    (event : WebhookEvent) (s : St W) :
    storeKeys (Enrich L R e event s).trace =
        storeKeys s.trace ++ [(e.storageDir, event.Repository.OwnerLogin,
          event.Repository.Name, event.WorkflowRun.ID)] ∧
      (∃ paths, writtenPaths (Enrich L R e event s).trace = writtenPaths s.trace ++ paths ∧
        (paths = [] ∨ paths = [L.filepathJoin e.storageDir
          (storeFileName event.Repository.OwnerLogin event.Repository.Name
            event.WorkflowRun.ID)])) ∧
      storeFileName event.Repository.OwnerLogin event.Repository.Name event.WorkflowRun.ID =
        event.Repository.OwnerLogin ++ "_".toList ++ event.Repository.Name ++ "_".toList ++
          formatInt event.WorkflowRun.ID ++ ".pbom.json".toList ∧
      storeFileName "acme".toList "widget".toList 42 = "acme_widget_42.pbom.json".toList ∧
      writtenPaths (Enrich sampleLib offlineRemote { storageDir := "/data".toList }
        sampleEvent startState).trace = ["/data/acme_widget_42.pbom.json".toList] := by
  refine ⟨?_, ?_, rfl, by decide, by decide⟩
  · unfold storeKeys
    rw [enrich_storeCalls, List.map_append]
    rfl
  · obtain ⟨fetches, writes, ht, hall, hcase⟩ := enrich_trace L R e event s
    rw [ht, writtenPaths_append, writtenPaths_append, writtenPaths_fetches fetches hall]
    rcases hcase with h | ⟨data, h⟩
    · exact ⟨[], by rw [h]; simp [writtenPaths], Or.inl rfl⟩
    · exact ⟨_, by rw [h]; simp [writtenPaths], Or.inr rfl⟩

/-! ## Skeleton resolution: which errors are retried -/

theorem lookupCount_append (a b : List Call) :
    lookupCount (a ++ b) = lookupCount a + lookupCount b := by
  induction a with
  | nil => simp [lookupCount]
  | cons c cs ih =>
    cases c <;> simp [lookupCount, ih]
    omega

theorem findCollectorRun_trace {W : Type} (R : Remote W) (owner repo headSHA : Str)
    (s : St W) :
    (FindCollectorRun R owner repo headSHA s).2.trace =
      s.trace ++ [Call.ListRunsByCommit owner repo headSHA] := by
  have h : (clientListRunsByCommit R owner repo headSHA s).2.trace =
      s.trace ++ [Call.ListRunsByCommit owner repo headSHA] := rfl
  unfold FindCollectorRun
  split
  · next err s1 heq => rw [heq] at h; exact h
  · next runs s1 heq =>
    rw [heq] at h
    split <;> exact h

theorem findCollectorRun_lookups {W : Type} (R : Remote W) (owner repo headSHA : Str)
    (s : St W) :
    lookupCount (FindCollectorRun R owner repo headSHA s).2.trace
      = lookupCount s.trace + 1 := by
  rw [findCollectorRun_trace, lookupCount_append]
  rfl

theorem wait_lookups {W : Type} (R : Remote W) (delay : Nat) (s : St W) :
    lookupCount (if delay > 0 then waitAfter R delay s else (true, s)).2.trace
      = lookupCount s.trace := by
  split
  · show lookupCount (s.trace ++ [Call.After delay]) = _
    rw [lookupCount_append]
    rfl
  · rfl

theorem findSkeletonAttempts_error {W : Type} (L : Lib) (R : Remote W)
    (owner repo headSHA : Str) (delays : List Nat) (attempt : Nat) (s : St W)
    (hlen : attempt + delays.length = 4) (hne : delays ≠ []) (err : GoError)
    (hres : (findSkeletonAttempts L R owner repo headSHA attempt delays s).1
      = Except.error err) :
    (lookupCount (findSkeletonAttempts L R owner repo headSHA attempt delays s).2.trace
        = lookupCount s.trace + delays.length ∧
      ∃ cause, err = GoError.wrap "after 4 attempts".toList cause) ∨
    err = GoError.ctxDone ∨
    ∃ cause, err = GoError.wrap "downloading skeleton".toList cause := by
  induction delays generalizing attempt s with
  | nil => exact absurd rfl hne
  | cons delay rest ih =>
    have hw := wait_lookups R delay s
    unfold findSkeletonAttempts at hres ⊢
    split at hres
    · next s1 heq =>
      right
      left
      exact (Except.error.inj hres).symm
    · next s1 heq =>
      rw [heq] at hw
      simp only [] at hw
      have hf := findCollectorRun_lookups R owner repo headSHA s1
      split at hres
      · next e2 s2 heq2 =>
        rw [heq2] at hf
        simp only [] at hf
        split at hres
        · next hlt =>
          have hrest : rest ≠ [] := by
            intro h0
            rw [h0] at hlen
            simp only [List.length_cons, List.length_nil] at hlen
            omega
          have hlen2 : attempt + 1 + rest.length = 4 := by
            simp only [List.length_cons] at hlen
            omega
          rcases ih (attempt + 1) s2 hlen2 hrest hres with ⟨hc, hcause⟩ | h | h
          · left
            refine ⟨?_, hcause⟩
            simp only [heq, heq2, hlt, if_true]
            rw [hc, hf, hw, List.length_cons]
            omega
          · exact Or.inr (Or.inl h)
          · exact Or.inr (Or.inr h)
        · next hge =>
          left
          have hrest : rest = [] := by
            cases rest with
            | nil => rfl
            | cons a as =>
              simp only [List.length_cons] at hlen
              omega
          refine ⟨?_, e2, (Except.error.inj hres).symm⟩
          simp only [heq, heq2, hge, if_false]
          rw [hf, hw, hrest]
          rfl
      · next run s2 heq2 =>
        split at hres
        · next e3 s3 heq3 =>
          exact Or.inr (Or.inr ⟨e3, (Except.error.inj hres).symm⟩)
        · next pbom s3 heq3 => cases hres

/-- C20 (as stated, refuted): with the collector run listed on the first
lookup, resolution fails after that single lookup when listing the collector
run's artifacts fails, when the designated artifact is missing, when its
download fails, and when its content does not decode. -/
theorem C20_download_errors_not_retried :
    ((findSkeletonWithRetry sampleLib
          (collectorFoundRemote (Except.error (GoError.msg "offline".toList))
            (Except.ok [1]))
          "acme".toList "widget".toList "abc".toList startState).1 =
        Except.error (GoError.wrap "downloading skeleton".toList
          (GoError.wrap "getting collector artifacts".toList
            (GoError.msg "offline".toList))) ∧
      lookupCount (findSkeletonWithRetry sampleLib
          (collectorFoundRemote (Except.error (GoError.msg "offline".toList))
            (Except.ok [1]))
          "acme".toList "widget".toList "abc".toList startState).2.trace = 1) ∧
    ((findSkeletonWithRetry sampleLib (collectorFoundRemote (Except.ok []) (Except.ok [1]))
          "acme".toList "widget".toList "abc".toList startState).1 =
        Except.error (GoError.wrap "downloading skeleton".toList
          (GoError.msg "no artifact named \"pbom-7\" found in collector run 7".toList)) ∧
      lookupCount (findSkeletonWithRetry sampleLib
          (collectorFoundRemote (Except.ok []) (Except.ok [1]))
          "acme".toList "widget".toList "abc".toList startState).2.trace = 1) ∧
    ((findSkeletonWithRetry sampleLib
          (collectorFoundRemote (Except.ok [samplePbomArtifact])
            (Except.error (GoError.msg "offline".toList)))
          "acme".toList "widget".toList "abc".toList startState).1 =
        Except.error (GoError.wrap "downloading skeleton".toList
          (GoError.wrap "downloading PBOM artifact".toList
            (GoError.msg "offline".toList))) ∧
      lookupCount (findSkeletonWithRetry sampleLib
          (collectorFoundRemote (Except.ok [samplePbomArtifact])
            (Except.error (GoError.msg "offline".toList)))
          "acme".toList "widget".toList "abc".toList startState).2.trace = 1) ∧
    ((findSkeletonWithRetry sampleLib
          (collectorFoundRemote (Except.ok [samplePbomArtifact]) (Except.ok [9]))
          "acme".toList "widget".toList "abc".toList startState).1 =
        Except.error (GoError.wrap "downloading skeleton".toList
          (GoError.wrap "parsing PBOM JSON".toList
            (GoError.msg "invalid character".toList))) ∧
      lookupCount (findSkeletonWithRetry sampleLib
          (collectorFoundRemote (Except.ok [samplePbomArtifact]) (Except.ok [9]))
          "acme".toList "widget".toList "abc".toList startState).2.trace = 1) := by
  decide

/-- C20 (amended): in skeleton resolution only a failed lookup of the
collector run (listing runs fails, or no run matches) is swallowed: on an
attempt that is not the fourth it is followed by the next attempt.  When the
lookup succeeds and `DownloadSkeletonPBOM` fails (listing the collector run's
artifacts, finding the designated artifact, downloading or decoding it),
resolution fails at once with that error, on whichever attempt.  When the
context is done during a wait, resolution fails at once with the context's
error, without another lookup.  So resolution fails either after four
lookups, or because the context was done during a wait, or with a skeleton
download error. -/
theorem C20_only_lookup_errors_retried {W : Type} (L : Lib) (R : Remote W)
    (owner repo headSHA : Str) (s : St W) :
    (∀ (attempt delay : Nat) (rest : List Nat) (s0 s1 s2 : St W) (err : GoError),
      (if delay > 0 then waitAfter R delay s0 else (true, s0)) = (true, s1) →
      FindCollectorRun R owner repo headSHA s1 = (Except.error err, s2) →
      attempt < 3 →
      findSkeletonAttempts L R owner repo headSHA attempt (delay :: rest) s0 =
        findSkeletonAttempts L R owner repo headSHA (attempt + 1) rest s2) ∧
    (∀ (attempt delay : Nat) (rest : List Nat) (s0 s1 s2 s3 : St W)
        (run : gh.WorkflowRun) (err : GoError),
      (if delay > 0 then waitAfter R delay s0 else (true, s0)) = (true, s1) →
      FindCollectorRun R owner repo headSHA s1 = (Except.ok run, s2) →
      DownloadSkeletonPBOM L R owner repo run.ID s2 = (Except.error err, s3) →
      findSkeletonAttempts L R owner repo headSHA attempt (delay :: rest) s0 =
        (Except.error (GoError.wrap "downloading skeleton".toList err), s3)) ∧
    (∀ (attempt delay : Nat) (rest : List Nat) (s0 : St W),
      delay > 0 → (R.After delay s0.world).1 = false →
      findSkeletonAttempts L R owner repo headSHA attempt (delay :: rest) s0 =
        (Except.error GoError.ctxDone, (waitAfter R delay s0).2) ∧
      (waitAfter R delay s0).2.trace = s0.trace ++ [Call.After delay] ∧
      lookupCount (findSkeletonAttempts L R owner repo headSHA attempt
        (delay :: rest) s0).2.trace = lookupCount s0.trace) ∧
    (∀ err, (findSkeletonWithRetry L R owner repo headSHA s).1 = Except.error err →
      (lookupCount (findSkeletonWithRetry L R owner repo headSHA s).2.trace
          = lookupCount s.trace + 4 ∧
        ∃ cause, err = GoError.wrap "after 4 attempts".toList cause) ∨
      err = GoError.ctxDone ∨
      ∃ cause, err = GoError.wrap "downloading skeleton".toList cause) ∧
    findSkeletonWithRetry sampleLib stalledRemote "acme".toList "widget".toList
        "abc".toList startState =
      (Except.error GoError.ctxDone,
        { world := (),
          trace := [Call.ListRunsByCommit "acme".toList "widget".toList "abc".toList,
            Call.After 10] }) := by
  refine ⟨?_, ?_, ?_, ?_, by decide⟩
  · intro attempt delay rest s0 s1 s2 err hw hf hlt
    have hlt2 : attempt < 4 - 1 := hlt
    conv => lhs; unfold findSkeletonAttempts
    simp only [hw, hf, hlt2, if_true]
  · intro attempt delay rest s0 s1 s2 s3 run err hw hf hd
    conv => lhs; unfold findSkeletonAttempts
    simp only [hw, hf, hd]
  · intro attempt delay rest s0 hd hstop
    have hw : (if delay > 0 then waitAfter R delay s0 else (true, s0)) =
        (false, (waitAfter R delay s0).2) := by
      rw [if_pos hd]
      show ((R.After delay s0.world).1, _) = _
      rw [hstop]
      rfl
    have hres : findSkeletonAttempts L R owner repo headSHA attempt (delay :: rest) s0 =
        (Except.error GoError.ctxDone, (waitAfter R delay s0).2) := by
      conv => lhs; unfold findSkeletonAttempts
      simp only [hw]
    refine ⟨hres, rfl, ?_⟩
    rw [hres]
    show lookupCount (s0.trace ++ [Call.After delay]) = _
    rw [lookupCount_append]
    rfl
  · intro err hres
    exact findSkeletonAttempts_error L R owner repo headSHA [0, 10, 30, 60] 0 s rfl
      (by simp) err hres

theorem C20_only_lookup_errors_retried_witness :
    findSkeletonAttempts sampleLib stalledRemote "acme".toList "widget".toList "abc".toList
        1 [10, 30, 60] startState =
      (Except.error GoError.ctxDone, (waitAfter stalledRemote 10 startState).2) :=
  ((C20_only_lookup_errors_retried sampleLib stalledRemote "acme".toList "widget".toList
    "abc".toList startState).2.2.1 1 10 [30, 60] startState (by decide) rfl).1

/-! ## Skeleton resolution: the schedule -/

theorem findCollectorRun_result {W : Type} (R : Remote W) (owner repo headSHA : Str)
    (s : St W) :
    (FindCollectorRun R owner repo headSHA s).1 =
      match (R.ListRunsByCommit owner repo headSHA s.world).1 with
      | Except.error err =>
        Except.error (GoError.wrap ("listing runs for commit ".toList ++ headSHA) err)
      | Except.ok runs =>
        match runs.find? (fun run => decide (run.Name = "PBOM Collector".toList ∧
            run.Conclusion = "success".toList)) with
        | some run => Except.ok run
        | none =>
          Except.error (GoError.msg
            ("no completed PBOM Collector run found for commit ".toList ++ headSHA)) := by
  unfold FindCollectorRun clientListRunsByCommit
  cases (R.ListRunsByCommit owner repo headSHA s.world).1 with
  | error err => rfl
  | ok runs =>
    simp only []
    cases runs.find? (fun run => decide (run.Name = "PBOM Collector".toList ∧
      run.Conclusion = "success".toList)) <;> rfl

/-- C22: when the listing fails `FindCollectorRun` returns an error; when it
returns runs, `FindCollectorRun` succeeds exactly if some run has name
"PBOM Collector" and conclusion "success", the run it returns is the first
such run of the list, and otherwise it returns an error.  A collector run
with conclusion "failure" or with an empty conclusion is not a match. -/
theorem C22_first_successful_collector {W : Type} (R : Remote W)
    (owner repo headSHA : Str) (s : St W) :
    (∀ err, (R.ListRunsByCommit owner repo headSHA s.world).1 = Except.error err →
      (FindCollectorRun R owner repo headSHA s).1 =
        Except.error (GoError.wrap ("listing runs for commit ".toList ++ headSHA) err)) ∧
    (∀ runs, (R.ListRunsByCommit owner repo headSHA s.world).1 = Except.ok runs →
      ((∃ run, (FindCollectorRun R owner repo headSHA s).1 = Except.ok run) ↔
        ∃ r ∈ runs, r.Name = "PBOM Collector".toList ∧ r.Conclusion = "success".toList) ∧
      (∀ run, (FindCollectorRun R owner repo headSHA s).1 = Except.ok run →
        run.Name = "PBOM Collector".toList ∧ run.Conclusion = "success".toList ∧
        ∃ pre post, runs = pre ++ run :: post ∧
          ∀ x ∈ pre, ¬ (x.Name = "PBOM Collector".toList ∧
            x.Conclusion = "success".toList)) ∧
      ((∀ r ∈ runs, ¬ (r.Name = "PBOM Collector".toList ∧
          r.Conclusion = "success".toList)) →
        (FindCollectorRun R owner repo headSHA s).1 =
          Except.error (GoError.msg
            ("no completed PBOM Collector run found for commit ".toList ++ headSHA)))) ∧
    (FindCollectorRun
        (fixedRemote (Except.ok
          [{ sampleCollectorRun with ID := 5, Conclusion := "failure".toList },
           { sampleCollectorRun with ID := 6, Conclusion := [] },
           { sampleCollectorRun with ID := 9, Name := "CI".toList }])
          (Except.ok []) (fun _ => Except.ok []) (fun _ => Except.ok []) (Except.ok []) 0)
        "acme".toList "widget".toList "abc".toList startState).1 =
      Except.error (GoError.msg
        "no completed PBOM Collector run found for commit abc".toList) ∧
    (FindCollectorRun
        (fixedRemote (Except.ok
          [{ sampleCollectorRun with ID := 5, Conclusion := "failure".toList },
           sampleCollectorRun,
           { sampleCollectorRun with ID := 8 }])
          (Except.ok []) (fun _ => Except.ok []) (fun _ => Except.ok []) (Except.ok []) 0)
        "acme".toList "widget".toList "abc".toList startState).1 =
      Except.ok sampleCollectorRun := by
  refine ⟨?_, ?_, by decide, by decide⟩
  · intro err h
    rw [findCollectorRun_result, h]
  · intro runs h
    rw [findCollectorRun_result, h]
    simp only []
    cases hfind : runs.find? (fun run => decide (run.Name = "PBOM Collector".toList ∧
        run.Conclusion = "success".toList)) with
    | none =>
      have hnone := List.find?_eq_none.mp hfind
      refine ⟨⟨?_, ?_⟩, ?_, fun _ => rfl⟩
      · rintro ⟨run, hr⟩
        cases hr
      · rintro ⟨r, hr, hm⟩
        exact absurd (decide_eq_true hm) (hnone r hr)
      · intro run hr
        cases hr
    | some found =>
      obtain ⟨hp, pre, post, hsplit, hpre⟩ := List.find?_eq_some.mp hfind
      have hp2 := of_decide_eq_true hp
      refine ⟨⟨fun _ => ⟨found, ?_, hp2⟩, fun _ => ⟨found, rfl⟩⟩, ?_, ?_⟩
      · rw [hsplit]
        simp
      · intro run hr
        have hrun : found = run := Except.ok.inj hr
        subst hrun
        refine ⟨hp2.1, hp2.2, pre, post, hsplit, ?_⟩
        intro x hx hm
        have := hpre x hx
        rw [decide_eq_true hm] at this
        cases this
      · intro hall
        have hmem : found ∈ runs := by
          rw [hsplit]
          simp
        exact absurd hp2 (hall found hmem)

theorem C22_first_successful_collector_witness :
    (FindCollectorRun offlineRemote "acme".toList "widget".toList "abc".toList
        startState).1 =
      Except.error (GoError.wrap ("listing runs for commit ".toList ++ "abc".toList)
        (GoError.msg "offline".toList)) :=
  (C22_first_successful_collector offlineRemote "acme".toList "widget".toList "abc".toList
    startState).1 (GoError.msg "offline".toList) rfl

/-! ## Archive extraction -/

theorem find?_first {α : Type} (p : α → Bool) (pre post : List α) (f : α)
    (hpre : ∀ g ∈ pre, p g = false) (hf : p f = true) :
    (pre ++ f :: post).find? p = some f := by
  induction pre with
  | nil => simp [List.find?, hf]
  | cons x xs ih =>
    have hx : p x = false := hpre x (List.mem_cons_self x xs)
    have hxs : ∀ g ∈ xs, p g = false := fun g hg => hpre g (List.mem_cons_of_mem x hg)
    simp [List.find?, hx, ih hxs]

theorem suffix_false_of_not (f : ZipFile) (h : ¬ (".json".toList <:+ f.Name)) :
    List.isSuffixOf ".json".toList f.Name = false := by
  cases hb : List.isSuffixOf ".json".toList f.Name with
  | false => rfl
  | true => exact absurd (List.isSuffixOf_iff_suffix.mp hb) h

/-- C23: for an archive whose entries are `pre ++ f :: post`, where no entry
of `pre` has a name ending in ".json" and the name of `f` does, both
`extractPBOMFromZip` and `downloadAndParseDockerMetadata` are decided by `f`
alone: they fail when `f` cannot be opened or its content does not decode,
whatever `post` holds, and otherwise return the decoded content of `f`.  When
no entry has the suffix both fail. -/
theorem C23_first_json_entry_decides {W : Type} (L : Lib) (R : Remote W) (url : Str)
    (s : St W) (zipData : Bytes) (files : List ZipFile)
    (hdown : (R.DownloadArtifact url s.world).1 = Except.ok zipData)
    (hzip : L.zipNewReader zipData = Except.ok files) :
    ((∀ g ∈ files, ¬ (".json".toList <:+ g.Name)) →
      extractPBOMFromZip L zipData =
        Except.error (GoError.msg "no JSON file found in PBOM artifact zip".toList) ∧
      (downloadAndParseDockerMetadata L R url s).1 =
        Except.error (GoError.msg "no JSON file found in artifact zip".toList)) ∧
    (∀ pre f post, files = pre ++ f :: post →
      (∀ g ∈ pre, ¬ (".json".toList <:+ g.Name)) → ".json".toList <:+ f.Name →
      extractPBOMFromZip L zipData =
        (match f.Open with
         | Except.error err => Except.error (GoError.wrap ("opening ".toList ++ f.Name) err)
         | Except.ok content =>
           match L.decodePBOM content with
           | Except.error err => Except.error (GoError.wrap "parsing PBOM JSON".toList err)
           | Except.ok pbom => Except.ok pbom) ∧
      (downloadAndParseDockerMetadata L R url s).1 =
        (match f.Open with
         | Except.error err => Except.error (GoError.wrap ("opening ".toList ++ f.Name) err)
         | Except.ok content =>
           match L.decodeDockerMetadata content with
           | Except.error err =>
             Except.error (GoError.wrap ("parsing ".toList ++ f.Name) err)
           | Except.ok dockerMeta => Except.ok dockerMeta)) := by
  constructor
  · intro hnone
    have hfind : files.find? (fun f => List.isSuffixOf ".json".toList f.Name) = none :=
      List.find?_eq_none.mpr (fun g hg => by
        rw [suffix_false_of_not g (hnone g hg)]
        simp)
    constructor
    · unfold extractPBOMFromZip
      rw [hzip]
      simp only []
      rw [hfind]
    · unfold downloadAndParseDockerMetadata clientDownloadArtifact
      rw [hdown]
      simp only []
      rw [hzip]
      simp only []
      rw [hfind]
  · intro pre f post hsplit hpre hf
    have hfind : files.find? (fun f => List.isSuffixOf ".json".toList f.Name) = some f := by
      rw [hsplit]
      exact find?_first _ pre post f (fun g hg => suffix_false_of_not g (hpre g hg))
        (List.isSuffixOf_iff_suffix.mpr hf)
    constructor
    · unfold extractPBOMFromZip
      rw [hzip]
      simp only []
      rw [hfind]
    · unfold downloadAndParseDockerMetadata clientDownloadArtifact
      rw [hdown]
      simp only []
      rw [hzip]
      simp only []
      rw [hfind]
      simp only []
      cases f.Open with
      | error err => rfl
      | ok content =>
        simp only []
        cases L.decodeDockerMetadata content <;> rfl

theorem C23_first_json_entry_decides_witness :
    extractPBOMFromZip threeEntryLib [2] =
        Except.error (GoError.wrap "parsing PBOM JSON".toList
          (GoError.msg "invalid character".toList)) ∧
      (downloadAndParseDockerMetadata threeEntryLib (onlineRemote []) "url/docker".toList
          startState).1 =
        Except.error (GoError.wrap "parsing a.json".toList
          (GoError.msg "invalid character".toList)) :=
  (C23_first_json_entry_decides threeEntryLib (onlineRemote []) "url/docker".toList
      startState [2] _ rfl rfl).2
    [{ Name := "README.txt".toList, Open := Except.ok [1] }]
    { Name := "a.json".toList, Open := Except.ok [9] }
    [{ Name := "b.json".toList, Open := Except.ok [1] },
     { Name := "c.json".toList, Open := Except.ok [2] }]
    rfl (by decide) (by decide)

/-! ## Docker artifacts -/

theorem downloadAndParse_answer {W : Type} (L : Lib) (R : Remote W) (url : Str)
    (s t : St W)
    (h : (R.DownloadArtifact url s.world).1 = (R.DownloadArtifact url t.world).1) :
    (downloadAndParseDockerMetadata L R url s).1 =
      (downloadAndParseDockerMetadata L R url t).1 := by
  unfold downloadAndParseDockerMetadata clientDownloadArtifact
  rw [h]
  cases (R.DownloadArtifact url t.world).1 with
  | error err => rfl
  | ok zipData =>
    simp only []
    cases L.zipNewReader zipData with
    | error err => rfl
    | ok files =>
      simp only []
      cases files.find? (fun f => List.isSuffixOf ".json".toList f.Name) with
      | none => rfl
      | some f =>
        simp only []
        cases f.Open with
        | error err => rfl
        | ok content =>
          simp only []
          cases L.decodeDockerMetadata content <;> rfl

theorem extractDockerLoop_acc {W : Type} (L : Lib) (R : Remote W) (repo : Str)
    (arts : List gh.Artifact) (result : List Artifact) (s : St W) :
    extractDockerLoop L R repo arts result s =
      (result ++ (extractDockerLoop L R repo arts [] s).1,
        (extractDockerLoop L R repo arts [] s).2) := by
  induction arts generalizing result s with
  | nil => simp [extractDockerLoop]
  | cons art arts ih =>
    unfold extractDockerLoop
    by_cases hp : List.isPrefixOf "docker-metadata-".toList art.Name = false
    · rw [if_pos hp, if_pos hp]
      exact ih result s
    · rw [if_neg hp, if_neg hp]
      cases hd : downloadAndParseDockerMetadata L R art.ArchiveDownloadURL s with
      | mk res s1 =>
        cases res with
        | error err =>
          simp only []
          exact ih result s1
        | ok dockerMeta =>
          simp only []
          rw [ih (result ++ [dockerArtifact repo dockerMeta]) s1,
            ih ([] ++ [dockerArtifact repo dockerMeta]) s1]
          simp

theorem extractDockerLoop_cons {W : Type} (L : Lib) (R : Remote W) (repo : Str)
    (art : gh.Artifact) (arts : List gh.Artifact) (result : List Artifact) (s : St W) :
    extractDockerLoop L R repo (art :: arts) result s =
      if List.isPrefixOf "docker-metadata-".toList art.Name = false then
        extractDockerLoop L R repo arts result s
      else
        match downloadAndParseDockerMetadata L R art.ArchiveDownloadURL s with
        | (Except.error _, s1) => extractDockerLoop L R repo arts result s1
        | (Except.ok dockerMeta, s1) =>
          extractDockerLoop L R repo arts (result ++ [dockerArtifact repo dockerMeta]) s1 := by
  rw [extractDockerLoop]

theorem extractDockerLoop_append {W : Type} (L : Lib) (R : Remote W) (repo : Str)
    (pre post : List gh.Artifact) (result : List Artifact) (s : St W) :
    extractDockerLoop L R repo (pre ++ post) result s =
      extractDockerLoop L R repo post (extractDockerLoop L R repo pre result s).1
        (extractDockerLoop L R repo pre result s).2 := by
  induction pre generalizing result s with
  | nil => simp [extractDockerLoop]
  | cons art arts ih =>
    rw [List.cons_append, extractDockerLoop_cons, extractDockerLoop_cons L R repo art arts]
    by_cases hp : List.isPrefixOf "docker-metadata-".toList art.Name = false
    · rw [if_pos hp, if_pos hp]
      exact ih result s
    · rw [if_neg hp, if_neg hp]
      cases hd : downloadAndParseDockerMetadata L R art.ArchiveDownloadURL s with
      | mk res s1 =>
        cases res with
        | error err =>
          simp only []
          exact ih result s1
        | ok dockerMeta =>
          simp only []
          exact ih _ s1

theorem extractDockerLoop_single {W : Type} (L : Lib) (R : Remote W) (repo : Str)
    (art : gh.Artifact) (s : St W) :
    (extractDockerLoop L R repo [art] [] s).1 = (dockerEntry L R repo art s).toList := by
  rw [extractDockerLoop_cons]
  unfold dockerEntry
  cases hb : List.isPrefixOf "docker-metadata-".toList art.Name with
  | false =>
    rw [if_pos rfl, if_neg (by simp)]
    rfl
  | true =>
    rw [if_neg (by simp), if_pos rfl]
    cases hd : downloadAndParseDockerMetadata L R art.ArchiveDownloadURL s with
    | mk res s1 =>
      cases res with
      | error err => rfl
      | ok dockerMeta => rfl

theorem extractDockerLoop_filterMap {W : Type} (L : Lib) (R : Remote W) (repo : Str)
    (hind : ∀ url w w2, (R.DownloadArtifact url w).1 = (R.DownloadArtifact url w2).1)
    (arts : List gh.Artifact) (s s0 : St W) :
    (extractDockerLoop L R repo arts [] s).1 =
      arts.filterMap (fun art => dockerEntry L R repo art s0) := by
  induction arts generalizing s with
  | nil => simp [extractDockerLoop]
  | cons art arts ih =>
    have hsplit : art :: arts = [art] ++ arts := rfl
    have hentry : dockerEntry L R repo art s = dockerEntry L R repo art s0 := by
      unfold dockerEntry
      rw [downloadAndParse_answer L R art.ArchiveDownloadURL s s0 (hind _ _ _)]
    rw [hsplit, extractDockerLoop_append, extractDockerLoop_acc, ← hsplit]
    show (extractDockerLoop L R repo [art] [] s).1 ++
        (extractDockerLoop L R repo arts [] (extractDockerLoop L R repo [art] [] s).2).1 = _
    rw [extractDockerLoop_single, ih, hentry, List.filterMap_cons]
    cases dockerEntry L R repo art s0 <;> rfl

/-- C24: a failed artifact listing gives the empty result.  For a listing
`pre ++ art :: post` the result is what `pre` yields, then the entry of `art`
(none when its name lacks the prefix "docker-metadata-" or its download or
decoding fails, else one entry), then what `post` yields: a failure on `art`
removes only its own entry.  When the answer to a download does not depend on
the state of the world, the result is the listing filtered and mapped, in
order, by the per-artifact entry. -/
theorem C24_artifacts_processed_independently {W : Type} (L : Lib) (R : Remote W)
    (owner repo : Str) (runID : Int) (s : St W) :
    (∀ err, (R.GetArtifacts owner repo runID s.world).1 = Except.error err →
      (ExtractDockerArtifacts L R owner repo runID s).1 = []) ∧
    (∀ arts, (R.GetArtifacts owner repo runID s.world).1 = Except.ok arts →
      (∀ pre art post, arts = pre ++ art :: post →
        (ExtractDockerArtifacts L R owner repo runID s).1 =
          (extractDockerLoop L R repo pre [] (clientGetArtifacts R owner repo runID s).2).1 ++
          (dockerEntry L R repo art
            (extractDockerLoop L R repo pre []
              (clientGetArtifacts R owner repo runID s).2).2).toList ++
          (extractDockerLoop L R repo post []
            (extractDockerLoop L R repo [art] []
              (extractDockerLoop L R repo pre []
                (clientGetArtifacts R owner repo runID s).2).2).2).1) ∧
      ((∀ url w w2, (R.DownloadArtifact url w).1 = (R.DownloadArtifact url w2).1) →
        ∀ s0, (ExtractDockerArtifacts L R owner repo runID s).1 =
          arts.filterMap (fun art => dockerEntry L R repo art s0))) ∧
    (∀ art t entry, dockerEntry L R repo art t = some entry ↔
      ("docker-metadata-".toList <+: art.Name) ∧
        ∃ dockerMeta, (downloadAndParseDockerMetadata L R art.ArchiveDownloadURL t).1 =
            Except.ok dockerMeta ∧ entry = dockerArtifact repo dockerMeta) := by
  have hlist : ∀ arts, (R.GetArtifacts owner repo runID s.world).1 = Except.ok arts →
      ExtractDockerArtifacts L R owner repo runID s =
        extractDockerLoop L R repo arts [] (clientGetArtifacts R owner repo runID s).2 := by
    intro arts h
    unfold ExtractDockerArtifacts clientGetArtifacts
    rw [h]
  refine ⟨?_, ?_, ?_⟩
  · intro err h
    unfold ExtractDockerArtifacts clientGetArtifacts
    rw [h]
  · intro arts h
    rw [hlist arts h]
    constructor
    · intro pre art post hsplit
      have hcons : art :: post = [art] ++ post := rfl
      rw [hsplit, extractDockerLoop_append, extractDockerLoop_acc, hcons,
        extractDockerLoop_append, extractDockerLoop_acc, extractDockerLoop_single]
      simp only [List.nil_append, List.append_assoc]
      rw [extractDockerLoop_acc L R repo post (dockerEntry L R repo art _).toList]
    · intro hind s0
      exact extractDockerLoop_filterMap L R repo hind arts _ s0
  · intro art t entry
    unfold dockerEntry
    cases hb : List.isPrefixOf "docker-metadata-".toList art.Name with
    | false =>
      have hnot : ¬ ("docker-metadata-".toList <+: art.Name) := by
        intro hpre
        rw [List.isPrefixOf_iff_prefix.mpr hpre] at hb
        cases hb
      rw [if_neg (by simp)]
      constructor
      · intro h
        cases h
      · intro h
        exact absurd h.1 hnot
    | true =>
      rw [if_pos rfl]
      have hpre := List.isPrefixOf_iff_prefix.mp hb
      cases (downloadAndParseDockerMetadata L R art.ArchiveDownloadURL t).1 with
      | error err =>
        constructor
        · intro h
          cases h
        · rintro ⟨_, dockerMeta, hm, _⟩
          cases hm
      | ok dockerMeta =>
        constructor
        · intro h
          exact ⟨hpre, dockerMeta, rfl, (Option.some.inj h).symm⟩
        · rintro ⟨_, m, hm, he⟩
          cases hm
          rw [he]

theorem C24_artifacts_processed_independently_witness :
    (ExtractDockerArtifacts sampleLib fourArtifactsRemote "acme".toList "widget".toList 42
        startState).1 =
      fourArtifacts.filterMap
        (fun art => dockerEntry sampleLib fourArtifactsRemote "widget".toList art startState) :=
  ((C24_artifacts_processed_independently sampleLib fourArtifactsRemote "acme".toList
      "widget".toList 42 startState).2.1 fourArtifacts rfl).2 (fun _ _ _ => rfl) startState

/-! ## Runner defaults -/

theorem guessOS_cases (lower : Str → Str) (name : Str) :
    ((stringsContains (lower name) "ubuntu".toList = true ∨
        stringsContains (lower name) "linux".toList = true) →
      guessOSFromRunnerName lower name = "Linux".toList) ∧
    (stringsContains (lower name) "ubuntu".toList = false →
      stringsContains (lower name) "linux".toList = false →
      stringsContains (lower name) "macos".toList = true →
      guessOSFromRunnerName lower name = "macOS".toList) ∧
    (stringsContains (lower name) "ubuntu".toList = false →
      stringsContains (lower name) "linux".toList = false →
      stringsContains (lower name) "macos".toList = false →
      stringsContains (lower name) "windows".toList = true →
      guessOSFromRunnerName lower name = "Windows".toList) ∧
    (stringsContains (lower name) "ubuntu".toList = false →
      stringsContains (lower name) "linux".toList = false →
      stringsContains (lower name) "macos".toList = false →
      stringsContains (lower name) "windows".toList = false →
      guessOSFromRunnerName lower name = "Linux".toList) := by
  unfold guessOSFromRunnerName
  refine ⟨?_, ?_, ?_, ?_⟩
  · intro h
    rw [if_pos h]
  · intro h1 h2 h3
    rw [if_neg (by rw [h1, h2]; decide), if_pos h3]
  · intro h1 h2 h3 h4
    rw [if_neg (by rw [h1, h2]; decide), if_neg (by rw [h3]; decide), if_pos h4]
  · intro h1 h2 h3 h4
    rw [if_neg (by rw [h1, h2]; decide), if_neg (by rw [h3]; decide),
      if_neg (by rw [h4]; decide)]

/-- C28: for a non-empty job list, when no label of the first job maps to an
OS the runner's OS is `guessOSFromRunnerName` of the first job's runner name:
"Linux" when the lowercased name contains "ubuntu" or "linux", else "macOS"
when it contains "macos", else "Windows" when it contains "windows", else
"Linux"; when no label maps to an architecture, Arch is "X64". -/
theorem C28_os_from_runner_name_arch_default (lower : Str → Str) (job : Job)
    (rest : List Job) :
    ∃ r, ExtractRunner lower (job :: rest) = some r ∧
      ((∀ x ∈ job.Labels, labelOS lower x = none) →
        r.OS = guessOSFromRunnerName lower job.RunnerName ∧
        ((stringsContains (lower job.RunnerName) "ubuntu".toList = true ∨
            stringsContains (lower job.RunnerName) "linux".toList = true) →
          r.OS = "Linux".toList) ∧
        (stringsContains (lower job.RunnerName) "ubuntu".toList = false →
          stringsContains (lower job.RunnerName) "linux".toList = false →
          stringsContains (lower job.RunnerName) "macos".toList = true →
          r.OS = "macOS".toList) ∧
        (stringsContains (lower job.RunnerName) "ubuntu".toList = false →
          stringsContains (lower job.RunnerName) "linux".toList = false →
          stringsContains (lower job.RunnerName) "macos".toList = false →
          stringsContains (lower job.RunnerName) "windows".toList = true →
          r.OS = "Windows".toList) ∧
        (stringsContains (lower job.RunnerName) "ubuntu".toList = false →
          stringsContains (lower job.RunnerName) "linux".toList = false →
          stringsContains (lower job.RunnerName) "macos".toList = false →
          stringsContains (lower job.RunnerName) "windows".toList = false →
          r.OS = "Linux".toList)) ∧
      ((∀ x ∈ job.Labels, labelArch lower x = none) → r.Arch = "X64".toList) := by
  refine ⟨_, rfl, ?_, ?_⟩
  · intro hnone
    have key := foldl_labelStep_OS_none lower job.Labels
      { OS := [], Arch := [], Name := job.RunnerName,
        SelfHosted := decide (job.RunnerGroupName ≠ [] ∧
          job.RunnerGroupName ≠ "GitHub Actions".toList) } hnone
    have hos : ∀ r, ExtractRunner lower (job :: rest) = some r →
        r.OS = guessOSFromRunnerName lower job.RunnerName := by
      intro r hr
      have hr2 := Option.some.inj hr
      rw [← hr2, if_pos key]
      split_ifs <;> rfl
    have hos := hos _ rfl
    obtain ⟨g1, g2, g3, g4⟩ := guessOS_cases lower job.RunnerName
    refine ⟨hos, ?_, ?_, ?_, ?_⟩
    · intro h
      exact hos.trans (g1 h)
    · intro h1 h2 h3
      exact hos.trans (g2 h1 h2 h3)
    · intro h1 h2 h3 h4
      exact hos.trans (g3 h1 h2 h3 h4)
    · intro h1 h2 h3 h4
      exact hos.trans (g4 h1 h2 h3 h4)
  · intro hnone
    have key := foldl_labelStep_Arch_none lower job.Labels
      { OS := [], Arch := [], Name := job.RunnerName,
        SelfHosted := decide (job.RunnerGroupName ≠ [] ∧
          job.RunnerGroupName ≠ "GitHub Actions".toList) } hnone
    show Runner.Arch (ite _ _ _) = _
    split_ifs <;> rfl

theorem C28_os_from_runner_name_arch_default_witness :
    ∃ r, ExtractRunner asciiToLower
        [mkJob ["self-hosted".toList, "gpu".toList] "Build-MacOS-03".toList
          "Custom Runners".toList] = some r ∧
      r.OS = "macOS".toList ∧ r.Arch = "X64".toList :=
  match C28_os_from_runner_name_arch_default asciiToLower
      (mkJob ["self-hosted".toList, "gpu".toList] "Build-MacOS-03".toList
        "Custom Runners".toList) [] with
  | ⟨r, hr, hos, harch⟩ =>
    ⟨r, hr, (hos (by decide)).2.2.1 (by decide) (by decide) (by decide),
      harch (by decide)⟩

/-- C29: `ExtractRunner` returns absent for the empty job list; for a
non-empty list it returns a runner, the same one as for the list of the first
job alone, whatever the other jobs are. -/
theorem C29_only_first_job_read (lower : Str → Str) :
    ExtractRunner lower [] = none ∧
    (∀ (j : Job) (rest : List Job),
      ExtractRunner lower (j :: rest) = ExtractRunner lower [j] ∧
      (ExtractRunner lower (j :: rest)).isSome = true) ∧
    (∀ (j : Job) (rest other : List Job),
      ExtractRunner lower (j :: rest) = ExtractRunner lower (j :: other)) :=
  ⟨rfl, fun _ _ => ⟨rfl, rfl⟩, fun _ _ _ => rfl⟩

/-! ## Fields outside the remit of enrichment -/

theorem enrichFromJobs_frame {W : Type} (L : Lib) (R : Remote W) (event : WebhookEvent)
    (r : PBOM × St W) :
    (enrichFromJobs L R event r).1.PBOMVersion = r.1.PBOMVersion ∧
      (enrichFromJobs L R event r).1.ID = r.1.ID ∧
      (enrichFromJobs L R event r).1.Timestamp = r.1.Timestamp ∧
      (enrichFromJobs L R event r).1.Source = r.1.Source ∧
      (enrichFromJobs L R event r).1.Build.WorkflowRunID = r.1.Build.WorkflowRunID ∧
      (enrichFromJobs L R event r).1.Build.Trigger = r.1.Build.Trigger ∧
      (enrichFromJobs L R event r).1.Build.Actor = r.1.Build.Actor ∧
      (enrichFromJobs L R event r).1.Build.ToolVersions = r.1.Build.ToolVersions ∧
      (enrichFromJobs L R event r).1.Promotion = r.1.Promotion := by
  rw [enrichFromJobs_record]
  split
  · exact ⟨rfl, rfl, rfl, rfl, rfl, rfl, rfl, rfl, rfl⟩
  · rw [applyJobs_eq]
    exact ⟨rfl, rfl, rfl, rfl, rfl, rfl, rfl, rfl, rfl⟩

theorem enrichRecord_frame {W : Type} (L : Lib) (R : Remote W) (event : WebhookEvent)
    (s : St W) :
    (enrichRecord L R event s).1.PBOMVersion = (resolveSkeleton L R event s).1.PBOMVersion ∧
      (enrichRecord L R event s).1.ID = (resolveSkeleton L R event s).1.ID ∧
      (enrichRecord L R event s).1.Timestamp = (resolveSkeleton L R event s).1.Timestamp ∧
      (enrichRecord L R event s).1.Source = (resolveSkeleton L R event s).1.Source ∧
      (enrichRecord L R event s).1.Build.WorkflowRunID =
        (resolveSkeleton L R event s).1.Build.WorkflowRunID ∧
      (enrichRecord L R event s).1.Build.Trigger =
        (resolveSkeleton L R event s).1.Build.Trigger ∧
      (enrichRecord L R event s).1.Build.Actor = (resolveSkeleton L R event s).1.Build.Actor ∧
      (enrichRecord L R event s).1.Build.ToolVersions =
        (resolveSkeleton L R event s).1.Build.ToolVersions ∧
      (enrichRecord L R event s).1.Promotion = (resolveSkeleton L R event s).1.Promotion := by
  obtain ⟨h1, h2, h3, h4, h5, h6, h7, h8, h9⟩ :=
    enrichFromJobs_frame L R event (resolveSkeleton L R event s)
  unfold enrichRecord
  rw [enrichArtifacts_record, enrichSecrets_record]
  exact ⟨h1, h2, h3, h4, h5, h6, h7, h8, h9⟩

/-- C30: when `findSkeletonWithRetry` delivers a skeleton, then whatever the
other remote calls return, the one record `Enrich` hands to `Store` has the
skeleton's pbom_version, id, timestamp, source block, build.workflow_run_id,
build.trigger, build.actor, build.tool_versions and promotion block. -/
theorem C30_fields_outside_remit_kept {W : Type} (L : Lib) (R : Remote W) (e : Enricher)
    (event : WebhookEvent) (s s1 : St W) (skeleton : PBOM)
    (hfound : findSkeletonWithRetry L R event.Repository.OwnerLogin event.Repository.Name
      event.WorkflowRun.HeadSHA s = (Except.ok skeleton, s1)) :
    recordsStored (Enrich L R e event s).trace =
        recordsStored s.trace ++ [(enrichRecord L R event s).1] ∧
      (enrichRecord L R event s).1.PBOMVersion = skeleton.PBOMVersion ∧
      (enrichRecord L R event s).1.ID = skeleton.ID ∧
      (enrichRecord L R event s).1.Timestamp = skeleton.Timestamp ∧
      (enrichRecord L R event s).1.Source = skeleton.Source ∧
      (enrichRecord L R event s).1.Build.WorkflowRunID = skeleton.Build.WorkflowRunID ∧
      (enrichRecord L R event s).1.Build.Trigger = skeleton.Build.Trigger ∧
      (enrichRecord L R event s).1.Build.Actor = skeleton.Build.Actor ∧
      (enrichRecord L R event s).1.Build.ToolVersions = skeleton.Build.ToolVersions ∧
      (enrichRecord L R event s).1.Promotion = skeleton.Promotion := by
  have hskel : (resolveSkeleton L R event s).1 = skeleton := by
    unfold resolveSkeleton
    rw [hfound]
  have hframe := enrichRecord_frame L R event s
  rw [hskel] at hframe
  exact ⟨enrichRecord_stored L R e event s, hframe⟩

theorem C30_fields_outside_remit_kept_witness :
    (enrichRecord sampleLib (onlineRemote [untimedJob]) sampleEvent startState).1.ID =
        sampleSkeleton.ID ∧
      (enrichRecord sampleLib (onlineRemote [untimedJob]) sampleEvent startState).1.Source =
        sampleSkeleton.Source ∧
      (enrichRecord sampleLib (onlineRemote [untimedJob]) sampleEvent
        startState).1.Build.ToolVersions = sampleSkeleton.Build.ToolVersions :=
  match C30_fields_outside_remit_kept sampleLib (onlineRemote [untimedJob])
      { storageDir := "/data".toList } sampleEvent startState _ sampleSkeleton rfl with
  | ⟨_, _, hid, _, hsrc, _, _, _, htools, _⟩ => ⟨hid, hsrc, htools⟩

/-! ## Digest validation -/

theorem isLowerHexRune_iff (c : Char) :
    isLowerHexRune c = true ↔ c ∈ "0123456789abcdef".toList := by
  constructor
  · intro h
    have e0 : '0'.toNat = 48 := rfl
    have e9 : '9'.toNat = 57 := rfl
    have ea : 'a'.toNat = 97 := rfl
    have ef : 'f'.toNat = 102 := rfl
    simp only [isLowerHexRune, Bool.or_eq_true, Bool.and_eq_true, decide_eq_true_eq,
      e0, e9, ea, ef] at h
    rw [← Char.ofNat_toNat c]
    generalize c.toNat = n at h
    rcases h with ⟨h1, h2⟩ | ⟨h1, h2⟩ <;> interval_cases n <;> decide
  · intro h
    simp only [String.toList, List.mem_cons, List.mem_singleton] at h
    have hnil : c ∉ ([] : List Char) := List.not_mem_nil c
    rcases h with h | h | h | h | h | h | h | h | h | h | h | h | h | h | h | h | h
    all_goals first
      | exact absurd h hnil
      | (subst h; decide)

theorem runeLen_of_hex (c : Char) (h : isLowerHexRune c = true) : runeLen c = 1 := by
  have e0 : '0'.toNat = 48 := rfl
  have e9 : '9'.toNat = 57 := rfl
  have ea : 'a'.toNat = 97 := rfl
  have ef : 'f'.toNat = 102 := rfl
  simp only [isLowerHexRune, Bool.or_eq_true, Bool.and_eq_true, decide_eq_true_eq,
    e0, e9, ea, ef] at h
  unfold runeLen
  rw [if_pos (by omega)]

theorem byteLen_of_hex (t : Str) (h : ∀ c ∈ t, isLowerHexRune c = true) :
    byteLen t = t.length := by
  induction t with
  | nil => rfl
  | cons x xs ih =>
    have hx := runeLen_of_hex x (h x (List.mem_cons_self x xs))
    have hxs := ih (fun c hc => h c (List.mem_cons_of_mem x hc))
    unfold byteLen at hxs ⊢
    rw [List.map_cons, List.sum_cons, hx, hxs, List.length_cons]
    omega

theorem trimPrefixStr_append (lead t : Str) : trimPrefixStr (lead ++ t) lead = t := by
  unfold trimPrefixStr
  rw [if_pos (List.isPrefixOf_iff_prefix.mpr (List.prefix_append lead t)), List.drop_left]

/-- C27: `isValidDigest s` is true exactly when `s` is "sha256:" followed by
64 characters, each one of 0-9 or a-f.  The cases of the test table: two valid
digests, then a missing prefix, another prefix, a short digest, uppercase
digits and the empty string, all invalid; a digest of 63 or of 65 digits and
one with the character g are invalid too. -/
theorem C27_isValidDigest_iff (s : Str) :
    (isValidDigest s = true ↔
      ∃ hex, s = "sha256:".toList ++ hex ∧ hex.length = 64 ∧
        ∀ c ∈ hex, c ∈ "0123456789abcdef".toList) ∧
    isValidDigest
      "sha256:9f86d081884c7d659a2feaa0c55ad015a3bf4f1b2b0b822cd15d6c15b0f00a08".toList
      = true ∧
    isValidDigest ("sha256:".toList ++ List.replicate 64 '0') = true ∧
    isValidDigest
      "9f86d081884c7d659a2feaa0c55ad015a3bf4f1b2b0b822cd15d6c15b0f00a08".toList = false ∧
    isValidDigest
      "md5:9f86d081884c7d659a2feaa0c55ad015a3bf4f1b2b0b822cd15d6c15b0f00a08".toList
      = false ∧
    isValidDigest "sha256:9f86d081884c7d65".toList = false ∧
    isValidDigest
      "sha256:9F86D081884C7D659A2FEAA0C55AD015A3BF4F1B2B0B822CD15D6C15B0F00A08".toList
      = false ∧
    isValidDigest [] = false ∧
    isValidDigest ("sha256:".toList ++ List.replicate 63 'a') = false ∧
    isValidDigest ("sha256:".toList ++ List.replicate 65 'a') = false ∧
    isValidDigest ("sha256:".toList ++ List.replicate 63 'a' ++ ['g']) = false ∧
    isValidDigest ("SHA256:".toList ++ List.replicate 64 'a') = false := by
  refine ⟨?_, by decide, by decide, by decide, by decide, by decide, by decide, by decide,
    by decide, by decide, by decide, by decide⟩
  constructor
  · intro h
    unfold isValidDigest at h
    cases hp : List.isPrefixOf "sha256:".toList s with
    | false =>
      rw [hp, if_pos rfl] at h
      cases h
    | true =>
      obtain ⟨hex, hs⟩ := List.isPrefixOf_iff_prefix.mp hp
      subst hs
      rw [hp, if_neg (by simp), trimPrefixStr_append] at h
      by_cases hl : byteLen hex = 64
      · rw [if_neg (by simp [hl])] at h
        have hall : ∀ c ∈ hex, isLowerHexRune c = true := List.all_eq_true.mp h
        refine ⟨hex, rfl, ?_, fun c hc => (isLowerHexRune_iff c).mp (hall c hc)⟩
        rw [← byteLen_of_hex hex hall]
        exact hl
      · rw [if_pos hl] at h
        cases h
  · rintro ⟨hex, hs, hlen, hall⟩
    subst hs
    have hall2 : ∀ c ∈ hex, isLowerHexRune c = true :=
      fun c hc => (isLowerHexRune_iff c).mpr (hall c hc)
    have hbytes : byteLen hex = 64 := by
      rw [byteLen_of_hex hex hall2]
      exact hlen
    unfold isValidDigest
    rw [List.isPrefixOf_iff_prefix.mpr (List.prefix_append _ hex), if_neg (by simp),
      trimPrefixStr_append, if_neg (by simp [hbytes])]
    exact List.all_eq_true.mpr hall2

/-! ## Store over a file system -/

theorem store_fileMap_ok (L : Lib) (dir owner repo : Str) (runID : Int) (pbom : PBOM)
    (data : Bytes) (s : St FileMap) (h : L.MarshalIndent pbom = Except.ok data) :
    (Store L fileMapRemote dir pbom owner repo runID s).1 =
        Except.ok (L.filepathJoin dir (storeFileName owner repo runID)) ∧
      (Store L fileMapRemote dir pbom owner repo runID s).2.world =
        fun q => if q = L.filepathJoin dir (storeFileName owner repo runID) then some data
          else s.world q := by
  unfold Store
  simp only [fileMapRemote]
  rw [h]
  exact ⟨rfl, rfl⟩

theorem store_fileMap_error (L : Lib) (dir owner repo : Str) (runID : Int) (pbom : PBOM)
    (err : GoError) (s : St FileMap) (h : L.MarshalIndent pbom = Except.error err) :
    (Store L fileMapRemote dir pbom owner repo runID s).2.world = s.world := by
  unfold Store
  simp only [fileMapRemote]
  rw [h]

/-- C26: over a file system that is a map from path to content, when record
B serializes, storing A and then B under the same directory, owner, repo and
run id returns the path of that identity, leaves that path holding exactly
the serialization of B, leaves the file system in the same state as storing
B alone, and leaves every other path as it was before the two calls. -/
theorem C26_store_last_write_wins (L : Lib) (dir owner repo : Str) (runID : Int)
    (A B : PBOM) (dataB : Bytes) (s : St FileMap)
    (hB : L.MarshalIndent B = Except.ok dataB) :
    (Store L fileMapRemote dir B owner repo runID
        (Store L fileMapRemote dir A owner repo runID s).2).1 =
      Except.ok (L.filepathJoin dir (storeFileName owner repo runID)) ∧
    (Store L fileMapRemote dir B owner repo runID
        (Store L fileMapRemote dir A owner repo runID s).2).2.world
        (L.filepathJoin dir (storeFileName owner repo runID)) = some dataB ∧
    (Store L fileMapRemote dir B owner repo runID
        (Store L fileMapRemote dir A owner repo runID s).2).2.world =
      (Store L fileMapRemote dir B owner repo runID s).2.world ∧
    (∀ q, q ≠ L.filepathJoin dir (storeFileName owner repo runID) →
      (Store L fileMapRemote dir B owner repo runID
        (Store L fileMapRemote dir A owner repo runID s).2).2.world q = s.world q) := by
  obtain ⟨hres, hAB⟩ := store_fileMap_ok L dir owner repo runID B dataB
    (Store L fileMapRemote dir A owner repo runID s).2 hB
  obtain ⟨_, hBonly⟩ := store_fileMap_ok L dir owner repo runID B dataB s hB
  have hA : ∀ q, q ≠ L.filepathJoin dir (storeFileName owner repo runID) →
      (Store L fileMapRemote dir A owner repo runID s).2.world q = s.world q := by
    intro q hq
    cases hm : L.MarshalIndent A with
    | error err => rw [store_fileMap_error L dir owner repo runID A err s hm]
    | ok dataA =>
      rw [(store_fileMap_ok L dir owner repo runID A dataA s hm).2]
      simp only [if_neg hq]
  refine ⟨hres, ?_, ?_, ?_⟩
  · rw [hAB]
    simp only [if_true]
  · rw [hAB, hBonly]
    funext q
    by_cases hq : q = L.filepathJoin dir (storeFileName owner repo runID)
    · simp only [if_pos hq]
    · simp only [if_neg hq]
      exact hA q hq
  · intro q hq
    rw [hAB]
    simp only [if_neg hq]
    exact hA q hq

theorem C26_store_last_write_wins_witness :
    (Store idMarshalLib fileMapRemote "/data".toList
        { sampleSkeleton with ID := "b".toList } "acme".toList "widget".toList 42
        (Store idMarshalLib fileMapRemote "/data".toList sampleSkeleton "acme".toList
          "widget".toList 42 emptyDisk).2).2.world
        (idMarshalLib.filepathJoin "/data".toList
          (storeFileName "acme".toList "widget".toList 42)) = some [98] :=
  (C26_store_last_write_wins idMarshalLib "/data".toList "acme".toList "widget".toList 42
    sampleSkeleton { sampleSkeleton with ID := "b".toList } [98] emptyDisk rfl).2.1

/-! ## File names of Store -/

theorem digitChar_value (k : Nat) (h : k < 10) : (Nat.digitChar k).toNat - 48 = k := by
  interval_cases k <;> rfl

theorem digitChar_plain (k : Nat) (h : k < 10) :
    Nat.digitChar k ≠ '_' ∧ Nat.digitChar k ≠ '-' ∧ Nat.digitChar k ≠ '.' := by
  interval_cases k <;> decide

theorem toDigitsCore_decode (fuel : Nat) : ∀ (n : Nat) (ds : List Char), n < fuel →
    (Nat.toDigitsCore 10 fuel n ds).foldl digitStep 0 = ds.foldl digitStep n := by
  induction fuel with
  | zero => intro n ds h; omega
  | succ fuel ih =>
    intro n ds h
    unfold Nat.toDigitsCore
    simp only []
    by_cases h0 : n / 10 = 0
    · rw [if_pos h0, List.foldl_cons]
      have : digitStep 0 (Nat.digitChar (n % 10)) = n := by
        unfold digitStep
        rw [digitChar_value _ (Nat.mod_lt _ (by decide))]
        omega
      rw [this]
    · rw [if_neg h0, ih (n / 10) _ (by omega), List.foldl_cons]
      have : digitStep (n / 10) (Nat.digitChar (n % 10)) = n := by
        unfold digitStep
        rw [digitChar_value _ (Nat.mod_lt _ (by decide))]
        omega
      rw [this]

theorem toDigitsCore_chars (fuel : Nat) : ∀ (n : Nat) (ds : List Char) (c : Char),
    c ∈ Nat.toDigitsCore 10 fuel n ds → c ∈ ds ∨ ∃ k, k < 10 ∧ c = Nat.digitChar k := by
  induction fuel with
  | zero =>
    intro n ds c h
    exact Or.inl h
  | succ fuel ih =>
    intro n ds c h
    unfold Nat.toDigitsCore at h
    simp only [] at h
    by_cases h0 : n / 10 = 0
    · rw [if_pos h0] at h
      rcases List.mem_cons.mp h with h | h
      · exact Or.inr ⟨n % 10, Nat.mod_lt _ (by decide), h⟩
      · exact Or.inl h
    · rw [if_neg h0] at h
      rcases ih _ _ _ h with h | h
      · rcases List.mem_cons.mp h with h | h
        · exact Or.inr ⟨n % 10, Nat.mod_lt _ (by decide), h⟩
        · exact Or.inl h
      · exact Or.inr h

theorem toDigits_injective (n m : Nat) (h : Nat.toDigits 10 n = Nat.toDigits 10 m) : n = m := by
  have hn := toDigitsCore_decode (n + 1) n [] (by omega)
  have hm := toDigitsCore_decode (m + 1) m [] (by omega)
  unfold Nat.toDigits at h
  rw [h, hm] at hn
  exact hn.symm

theorem formatInt_chars (n : Int) (c : Char) (h : c ∈ formatInt n) :
    c = '-' ∨ ∃ k, k < 10 ∧ c = Nat.digitChar k := by
  unfold formatInt Nat.toDigits at h
  split_ifs at h
  · rcases List.mem_cons.mp h with h | h
    · exact Or.inl h
    · rcases toDigitsCore_chars _ _ _ _ h with h | h
      · exact absurd h (List.not_mem_nil c)
      · exact Or.inr h
  · rcases toDigitsCore_chars _ _ _ _ h with h | h
    · exact absurd h (List.not_mem_nil c)
    · exact Or.inr h

theorem toDigits_no_minus (n : Nat) (rest : Str) (h : Nat.toDigits 10 n = '-' :: rest) :
    False := by
  have hmem : '-' ∈ Nat.toDigits 10 n := by
    rw [h]
    exact List.mem_cons_self _ _
  unfold Nat.toDigits at hmem
  rcases toDigitsCore_chars _ _ _ _ hmem with h | ⟨k, hk, h⟩
  · exact absurd h (List.not_mem_nil _)
  · exact (digitChar_plain k hk).2.1 h.symm

theorem formatInt_injective (n m : Int) (h : formatInt n = formatInt m) : n = m := by
  unfold formatInt at h
  by_cases hn : n < 0 <;> by_cases hm : m < 0
  · rw [if_pos hn, if_pos hm] at h
    have := toDigits_injective _ _ (List.cons.inj h).2
    omega
  · rw [if_pos hn, if_neg hm] at h
    exact absurd (toDigits_no_minus _ _ h.symm) id
  · rw [if_neg hn, if_pos hm] at h
    exact absurd (toDigits_no_minus _ _ h) id
  · rw [if_neg hn, if_neg hm] at h
    have := toDigits_injective _ _ h
    omega

theorem underscore_not_in_tail (n : Int) : '_' ∉ formatInt n ++ ".pbom.json".toList := by
  intro h
  rcases List.mem_append.mp h with h | h
  · rcases formatInt_chars n _ h with h | ⟨k, hk, h⟩
    · exact absurd h (by decide)
    · exact (digitChar_plain k hk).1 h.symm
  · exact absurd h (by decide)

theorem split_at_last (sep : Char) (r r2 t t2 : Str) (ht : sep ∉ t) (ht2 : sep ∉ t2)
    (h : r ++ sep :: t = r2 ++ sep :: t2) : r = r2 ∧ t = t2 := by
  have hrev : t.reverse ++ sep :: r.reverse = t2.reverse ++ sep :: r2.reverse := by
    have := congrArg List.reverse h
    simpa [List.reverse_append, List.reverse_cons] using this
  have c1 := cutAt_append sep t.reverse r.reverse (fun hm => ht (List.mem_reverse.mp hm))
  have c2 := cutAt_append sep t2.reverse r2.reverse (fun hm => ht2 (List.mem_reverse.mp hm))
  rw [hrev, c2] at c1
  have hpair := Option.some.inj c1
  exact ⟨List.reverse_injective (congrArg Prod.snd hpair).symm,
    List.reverse_injective (congrArg Prod.fst hpair).symm⟩

theorem storeFileName_injective (owner repo owner2 repo2 : Str) (runID runID2 : Int)
    (h1 : '_' ∉ owner) (h2 : '_' ∉ owner2)
    (h : storeFileName owner repo runID = storeFileName owner2 repo2 runID2) :
    owner = owner2 ∧ repo = repo2 ∧ runID = runID2 := by
  have shape : ∀ (o r : Str) (n : Int), storeFileName o r n =
      o ++ '_' :: (r ++ '_' :: (formatInt n ++ ".pbom.json".toList)) := by
    intro o r n
    unfold storeFileName
    simp [List.append_assoc]
  rw [shape, shape] at h
  have c1 := cutAt_append '_' owner (repo ++ '_' :: (formatInt runID ++ ".pbom.json".toList)) h1
  have c2 := cutAt_append '_' owner2
    (repo2 ++ '_' :: (formatInt runID2 ++ ".pbom.json".toList)) h2
  rw [h, c2] at c1
  have hpair := Option.some.inj c1
  have ho : owner = owner2 := (congrArg Prod.fst hpair).symm
  have hrest := (congrArg Prod.snd hpair).symm
  obtain ⟨hr, ht⟩ := split_at_last '_' repo repo2 _ _ (underscore_not_in_tail runID)
    (underscore_not_in_tail runID2) hrest
  exact ⟨ho, hr, formatInt_injective _ _ (List.append_cancel_right ht)⟩

/-- C25 (as stated, refuted): owner "a_b" with repo "c" and owner "a" with
repo "b_c" are distinct identities with the same run id, and `Store` computes
the same file name, and writes the same path, for both. -/
theorem C25_underscore_identities_collide :
    ("a_b".toList, "c".toList, (7 : Int)) ≠ ("a".toList, "b_c".toList, (7 : Int)) ∧
      storeFileName "a_b".toList "c".toList 7 = storeFileName "a".toList "b_c".toList 7 ∧
      storeFileName "a_b".toList "c".toList 7 = "a_b_c_7.pbom.json".toList ∧
      (Store sampleLib offlineRemote "/data".toList sampleSkeleton "a_b".toList "c".toList 7
          startState).1 = Except.ok "/data/a_b_c_7.pbom.json".toList ∧
      (Store sampleLib offlineRemote "/data".toList sampleSkeleton "a".toList "b_c".toList 7
          startState).1 = Except.ok "/data/a_b_c_7.pbom.json".toList := by
  decide

theorem digitChar_no_separator (k : Nat) (h : k < 10) :
    Nat.digitChar k ≠ '/' ∧ Nat.digitChar k ≠ '\\' := by
  interval_cases k <;> decide

theorem storeFileName_no_separator (c : Char) (hc : c = '/' ∨ c = '\\')
    (owner repo : Str) (runID : Int) (ho : c ∉ owner) (hr : c ∉ repo) :
    c ∉ storeFileName owner repo runID := by
  have hplain : c ∉ "_".toList ∧ c ∉ ".pbom.json".toList ∧ c ≠ '-' := by
    rcases hc with h | h <;> rw [h] <;> decide
  unfold storeFileName
  intro hm
  rcases List.mem_append.mp hm with hm | hm
  · rcases List.mem_append.mp hm with hm | hm
    · rcases List.mem_append.mp hm with hm | hm
      · rcases List.mem_append.mp hm with hm | hm
        · rcases List.mem_append.mp hm with hm | hm
          · exact ho hm
          · exact hplain.1 hm
        · exact hr hm
      · exact hplain.1 hm
    · rcases formatInt_chars runID c hm with h | ⟨k, hk, h⟩
      · exact hplain.2.2 h
      · rcases hc with h2 | h2
        · exact (digitChar_no_separator k hk).1 (h ▸ h2)
        · exact (digitChar_no_separator k hk).2 (h ▸ h2)
  · exact hplain.2.1 hm

theorem storeFileName_has_underscore (owner repo : Str) (runID : Int) :
    '_' ∈ storeFileName owner repo runID := by
  unfold storeFileName
  simp

theorem storeFileName_proper (owner repo : Str) (runID : Int) :
    storeFileName owner repo runID ≠ [] ∧ storeFileName owner repo runID ≠ ".".toList ∧
      storeFileName owner repo runID ≠ "..".toList := by
  have h := storeFileName_has_underscore owner repo runID
  refine ⟨?_, ?_, ?_⟩ <;>
  · intro he
    rw [he] at h
    exact absurd h (by decide)

theorem store_ok_path {W : Type} (L : Lib) (R : Remote W) (dir : Str) (pbom : PBOM)
    (owner repo : Str) (runID : Int) (s : St W) (path : Str)
    (h : (Store L R dir pbom owner repo runID s).1 = Except.ok path) :
    path = L.filepathJoin dir (storeFileName owner repo runID) := by
  unfold Store at h
  split at h
  · cases h
  · split at h
    · cases h
    · split at h
      · cases h
      · exact (Except.ok.inj h).symm

/-- C25 (amended): take identities (owner, repo, run id) that differ in at
least one component, whose owners contain no underscore and whose owners and
repos contain no path separator ("/" or "\"), and a `filepath.Join` that keeps
apart, in one directory, distinct file names without separator other than
the empty name, "." and "..".  Then `Store` computes different file names and
different paths for the two, any two successful calls return different
paths, and over a file system that is a map from path to content, after
storing a record under each identity both files hold their own record. -/
theorem C25_distinct_files_for_plain_identities (L : Lib)
    (dir owner repo owner2 repo2 : Str) (runID runID2 : Int)
    (hjoin : ∀ a b : Str, '/' ∉ a → '\\' ∉ a → '/' ∉ b → '\\' ∉ b →
      a ≠ [] → a ≠ ".".toList → a ≠ "..".toList →
      b ≠ [] → b ≠ ".".toList → b ≠ "..".toList →
      L.filepathJoin dir a = L.filepathJoin dir b → a = b)
    (h1 : '_' ∉ owner) (h2 : '_' ∉ owner2)
    (hs1 : '/' ∉ owner ∧ '\\' ∉ owner) (hs2 : '/' ∉ repo ∧ '\\' ∉ repo)
    (hs3 : '/' ∉ owner2 ∧ '\\' ∉ owner2) (hs4 : '/' ∉ repo2 ∧ '\\' ∉ repo2)
    (hne : (owner, repo, runID) ≠ (owner2, repo2, runID2)) :
    storeFileName owner repo runID ≠ storeFileName owner2 repo2 runID2 ∧
    L.filepathJoin dir (storeFileName owner repo runID) ≠
      L.filepathJoin dir (storeFileName owner2 repo2 runID2) ∧
    (∀ (W : Type) (R : Remote W) (pbom pbom2 : PBOM) (s s2 : St W) (path path2 : Str),
      (Store L R dir pbom owner repo runID s).1 = Except.ok path →
      (Store L R dir pbom2 owner2 repo2 runID2 s2).1 = Except.ok path2 →
      path ≠ path2) ∧
    (∀ (A B : PBOM) (dataA dataB : Bytes) (s : St FileMap),
      L.MarshalIndent A = Except.ok dataA → L.MarshalIndent B = Except.ok dataB →
      (Store L fileMapRemote dir B owner2 repo2 runID2
          (Store L fileMapRemote dir A owner repo runID s).2).2.world
          (L.filepathJoin dir (storeFileName owner repo runID)) = some dataA ∧
      (Store L fileMapRemote dir B owner2 repo2 runID2
          (Store L fileMapRemote dir A owner repo runID s).2).2.world
          (L.filepathJoin dir (storeFileName owner2 repo2 runID2)) = some dataB) := by
  have hname : storeFileName owner repo runID ≠ storeFileName owner2 repo2 runID2 := by
    intro h
    obtain ⟨ho, hr, hn⟩ :=
      storeFileName_injective owner repo owner2 repo2 runID runID2 h1 h2 h
    exact hne (by rw [ho, hr, hn])
  have hpath : L.filepathJoin dir (storeFileName owner repo runID) ≠
      L.filepathJoin dir (storeFileName owner2 repo2 runID2) := by
    intro h
    obtain ⟨p1, p2, p3⟩ := storeFileName_proper owner repo runID
    obtain ⟨q1, q2, q3⟩ := storeFileName_proper owner2 repo2 runID2
    exact hname (hjoin _ _
      (storeFileName_no_separator '/' (Or.inl rfl) owner repo runID hs1.1 hs2.1)
      (storeFileName_no_separator '\\' (Or.inr rfl) owner repo runID hs1.2 hs2.2)
      (storeFileName_no_separator '/' (Or.inl rfl) owner2 repo2 runID2 hs3.1 hs4.1)
      (storeFileName_no_separator '\\' (Or.inr rfl) owner2 repo2 runID2 hs3.2 hs4.2)
      p1 p2 p3 q1 q2 q3 h)
  refine ⟨hname, hpath, ?_, ?_⟩
  · intro W R pbom pbom2 s s2 path path2 hp hp2 he
    rw [store_ok_path L R dir pbom owner repo runID s path hp,
      store_ok_path L R dir pbom2 owner2 repo2 runID2 s2 path2 hp2] at he
    exact hpath he
  · intro A B dataA dataB s hA hB
    have hwA := (store_fileMap_ok L dir owner repo runID A dataA s hA).2
    have hwB := (store_fileMap_ok L dir owner2 repo2 runID2 B dataB
      (Store L fileMapRemote dir A owner repo runID s).2 hB).2
    rw [hwB, hwA]
    constructor
    · simp only [if_neg hpath, if_true]
    · simp only [if_true]

theorem sampleLib_join_injective (dir a b : Str)
    (h : sampleLib.filepathJoin dir a = sampleLib.filepathJoin dir b) : a = b := by
  have h2 : dir ++ "/".toList ++ a = dir ++ "/".toList ++ b := h
  exact List.append_cancel_left h2

theorem C25_distinct_files_for_plain_identities_witness :
    sampleLib.filepathJoin "/data".toList (storeFileName "acme".toList "my_repo".toList 12) ≠
      sampleLib.filepathJoin "/data".toList (storeFileName "acme".toList "my".toList 12) :=
  (C25_distinct_files_for_plain_identities sampleLib "/data".toList "acme".toList
    "my_repo".toList "acme".toList "my".toList 12 12
    (fun a b _ _ _ _ _ _ _ _ _ _ h => sampleLib_join_injective "/data".toList a b h)
    (by decide) (by decide) (by decide) (by decide) (by decide) (by decide) (by decide)).2.1

/-! ## Commit SHA validation -/

/-- C37: `isValidSHA s` is true exactly when `s` has 40 characters, each one
of 0-9 or a-f.  The cases of the test table: three valid SHAs, then a short
one, a long one, uppercase digits, the character g and the empty string, all
invalid. -/
theorem C37_isValidSHA_iff (s : Str) :
    (isValidSHA s = true ↔
      s.length = 40 ∧ ∀ c ∈ s, c ∈ "0123456789abcdef".toList) ∧
    isValidSHA "a1b2c3d4e5f6a1b2c3d4e5f6a1b2c3d4e5f6a1b2".toList = true ∧
    isValidSHA (List.replicate 40 '0') = true ∧
    isValidSHA (List.replicate 40 'f') = true ∧
    isValidSHA "a1b2c3d4e5f6".toList = false ∧
    isValidSHA "a1b2c3d4e5f6a1b2c3d4e5f6a1b2c3d4e5f6a1b2a".toList = false ∧
    isValidSHA "A1B2C3D4E5F6A1B2C3D4E5F6A1B2C3D4E5F6A1B2".toList = false ∧
    isValidSHA "g1b2c3d4e5f6a1b2c3d4e5f6a1b2c3d4e5f6a1b2".toList = false ∧
    isValidSHA [] = false ∧
    isValidSHA (List.replicate 39 'a') = false ∧
    isValidSHA (List.replicate 41 'a') = false := by
  refine ⟨?_, by decide, by decide, by decide, by decide, by decide, by decide, by decide,
    by decide, by decide, by decide⟩
  constructor
  · intro h
    unfold isValidSHA at h
    by_cases hl : byteLen s = 40
    · rw [if_neg (by simp [hl])] at h
      have hall : ∀ c ∈ s, isLowerHexRune c = true := List.all_eq_true.mp h
      refine ⟨?_, fun c hc => (isLowerHexRune_iff c).mp (hall c hc)⟩
      rw [← byteLen_of_hex s hall]
      exact hl
    · rw [if_pos hl] at h
      cases h
  · rintro ⟨hlen, hall⟩
    have hall2 : ∀ c ∈ s, isLowerHexRune c = true :=
      fun c hc => (isLowerHexRune_iff c).mpr (hall c hc)
    have hbytes : byteLen s = 40 := by
      rw [byteLen_of_hex s hall2]
      exact hlen
    unfold isValidSHA
    rw [if_neg (by simp [hbytes])]
    exact List.all_eq_true.mpr hall2

/-! ## The runner is fully populated -/

theorem labelOS_values (lower : Str → Str) (l o : Str) (h : labelOS lower l = some o) :
    o = "Linux".toList ∨ o = "macOS".toList ∨ o = "Windows".toList := by
  unfold labelOS at h
  split_ifs at h
  · exact Or.inl (Option.some.inj h).symm
  · exact Or.inr (Or.inl (Option.some.inj h).symm)
  · exact Or.inr (Or.inr (Option.some.inj h).symm)

theorem labelArch_values (lower : Str → Str) (l a : Str) (h : labelArch lower l = some a) :
    a = "X64".toList ∨ a = "ARM64".toList := by
  unfold labelArch at h
  split_ifs at h
  · exact Or.inl (Option.some.inj h).symm
  · exact Or.inr (Option.some.inj h).symm

theorem foldl_labelStep_OS_values (lower : Str → Str) (labels : List Str) (r : Runner)
    (h : r.OS = [] ∨ r.OS = "Linux".toList ∨ r.OS = "macOS".toList ∨
      r.OS = "Windows".toList) :
    (labels.foldl (labelStep lower) r).OS = [] ∨
      (labels.foldl (labelStep lower) r).OS = "Linux".toList ∨
      (labels.foldl (labelStep lower) r).OS = "macOS".toList ∨
      (labels.foldl (labelStep lower) r).OS = "Windows".toList := by
  induction labels generalizing r with
  | nil => exact h
  | cons x xs ih =>
    rw [List.foldl_cons]
    apply ih
    rw [labelStep_OS]
    cases hx : labelOS lower x with
    | none => exact h
    | some o => exact Or.inr (labelOS_values lower x o hx)

theorem foldl_labelStep_Arch_values (lower : Str → Str) (labels : List Str) (r : Runner)
    (h : r.Arch = [] ∨ r.Arch = "X64".toList ∨ r.Arch = "ARM64".toList) :
    (labels.foldl (labelStep lower) r).Arch = [] ∨
      (labels.foldl (labelStep lower) r).Arch = "X64".toList ∨
      (labels.foldl (labelStep lower) r).Arch = "ARM64".toList := by
  induction labels generalizing r with
  | nil => exact h
  | cons x xs ih =>
    rw [List.foldl_cons]
    apply ih
    rw [labelStep_Arch]
    cases hx : labelArch lower x with
    | none => exact h
    | some a => exact Or.inr (labelArch_values lower x a hx)

theorem foldl_labelStep_Name (lower : Str → Str) (labels : List Str) (r : Runner) :
    (labels.foldl (labelStep lower) r).Name = r.Name := by
  induction labels generalizing r with
  | nil => rfl
  | cons x xs ih => rw [List.foldl_cons, ih, labelStep_Name]

theorem guessOS_values (lower : Str → Str) (name : Str) :
    guessOSFromRunnerName lower name = "Linux".toList ∨
      guessOSFromRunnerName lower name = "macOS".toList ∨
      guessOSFromRunnerName lower name = "Windows".toList := by
  unfold guessOSFromRunnerName
  split_ifs
  · exact Or.inl rfl
  · exact Or.inr (Or.inl rfl)
  · exact Or.inr (Or.inr rfl)
  · exact Or.inl rfl

theorem runner_defaults_values (r1 : Runner) (guess : Str)
    (hos : r1.OS = [] ∨ r1.OS = "Linux".toList ∨ r1.OS = "macOS".toList ∨
      r1.OS = "Windows".toList)
    (harch : r1.Arch = [] ∨ r1.Arch = "X64".toList ∨ r1.Arch = "ARM64".toList)
    (hguess : guess = "Linux".toList ∨ guess = "macOS".toList ∨ guess = "Windows".toList)
    (r : Runner)
    (hr : (if (if r1.OS = [] then { r1 with OS := guess } else r1).Arch = [] then
        { (if r1.OS = [] then { r1 with OS := guess } else r1) with Arch := "X64".toList }
      else (if r1.OS = [] then { r1 with OS := guess } else r1)) = r) :
    (r.OS = "Linux".toList ∨ r.OS = "macOS".toList ∨ r.OS = "Windows".toList) ∧
      (r.Arch = "X64".toList ∨ r.Arch = "ARM64".toList) ∧ r.Name = r1.Name := by
  subst hr
  by_cases h1 : r1.OS = []
  · by_cases h2 : r1.Arch = []
    · rw [if_pos h1, if_pos (show Runner.Arch { r1 with OS := guess } = [] from h2)]
      exact ⟨hguess, Or.inl rfl, rfl⟩
    · rw [if_pos h1, if_neg (show ¬ Runner.Arch { r1 with OS := guess } = [] from h2)]
      rcases harch with h | h
      · exact absurd h h2
      · exact ⟨hguess, h, rfl⟩
  · rcases hos with h | hos
    · exact absurd h h1
    by_cases h2 : r1.Arch = []
    · rw [if_neg h1, if_pos h2]
      exact ⟨hos, Or.inl rfl, rfl⟩
    · rw [if_neg h1, if_neg h2]
      rcases harch with h | h
      · exact absurd h h2
      · exact ⟨hos, h, rfl⟩

/-- C39: for every non-empty job list, `ExtractRunner` returns a runner whose
OS is "Linux", "macOS" or "Windows", whose Arch is "X64" or "ARM64", neither
of them empty, and whose Name is the runner name of the first job. -/
theorem C39_runner_fully_populated (lower : Str → Str) (job : Job) (rest : List Job) :
    ∃ r, ExtractRunner lower (job :: rest) = some r ∧
      (r.OS = "Linux".toList ∨ r.OS = "macOS".toList ∨ r.OS = "Windows".toList) ∧
      (r.Arch = "X64".toList ∨ r.Arch = "ARM64".toList) ∧
      r.OS ≠ [] ∧ r.Arch ≠ [] ∧ r.Name = job.RunnerName := by
  have hos := foldl_labelStep_OS_values lower job.Labels
    { OS := [], Arch := [], Name := job.RunnerName,
      SelfHosted := decide (job.RunnerGroupName ≠ [] ∧
        job.RunnerGroupName ≠ "GitHub Actions".toList) } (Or.inl rfl)
  have harch := foldl_labelStep_Arch_values lower job.Labels
    { OS := [], Arch := [], Name := job.RunnerName,
      SelfHosted := decide (job.RunnerGroupName ≠ [] ∧
        job.RunnerGroupName ≠ "GitHub Actions".toList) } (Or.inl rfl)
  have hname := foldl_labelStep_Name lower job.Labels
    { OS := [], Arch := [], Name := job.RunnerName,
      SelfHosted := decide (job.RunnerGroupName ≠ [] ∧
        job.RunnerGroupName ≠ "GitHub Actions".toList) }
  obtain ⟨h1, h2, h3⟩ := runner_defaults_values _ _ hos harch
    (guessOS_values lower job.RunnerName) _ rfl
  refine ⟨_, rfl, h1, h2, ?_, ?_, h3.trans hname⟩
  · rcases h1 with h | h | h <;> rw [h] <;> decide
  · rcases h2 with h | h <;> rw [h] <;> decide

/-! ## Transport errors and the body cap -/

/-- C32: a request whose method is not POST is answered 405 and dispatches
nothing, whatever its body, signature and headers.  A POST request whose body
is read and whose signature does not verify over the bytes read is answered
401 and dispatches nothing, whatever its event-type header is and whatever
the body decodes to.  (A POST whose body cannot be read is answered 400
before the signature is looked at.) -/
theorem C32_method_then_signature (mac : Str → Bytes → Bytes)
    (unmarshal : Bytes → Option WebhookEvent) (s : Server) (r : Request) :
    (r.Method ≠ "POST".toList →
      (handleWebhook mac unmarshal s r).reply = Reply.status 405 ∧
      (handleWebhook mac unmarshal s r).dispatched = []) ∧
    (∀ body e, r.Method = "POST".toList → readLimitedBody r.Body = some body →
      VerifySignature mac body r.HubSignature256 s.cfg.WebhookSecret = Except.error e →
      ∀ (eventType : Str) (decoder : Bytes → Option WebhookEvent),
        (handleWebhook mac decoder s { r with GitHubEvent := eventType }).reply =
          Reply.status 401 ∧
        (handleWebhook mac decoder s { r with GitHubEvent := eventType }).dispatched = []) ∧
    (r.Method = "POST".toList → readLimitedBody r.Body = none →
      (handleWebhook mac unmarshal s r).reply = Reply.status 400 ∧
      (handleWebhook mac unmarshal s r).dispatched = []) := by
  refine ⟨?_, ?_, ?_⟩
  · intro hm
    unfold handleWebhook
    rw [if_pos hm]
    exact ⟨rfl, rfl⟩
  · intro body e hm hb hv eventType decoder
    unfold handleWebhook
    rw [if_neg (by simp only [ne_eq, hm, not_true_eq_false, not_false_eq_true])]
    simp only [hb, hv, and_self]
  · intro hm hb
    unfold handleWebhook
    rw [if_neg (by simp only [ne_eq, hm, not_true_eq_false, not_false_eq_true])]
    simp only [hb, and_self]

theorem C32_method_then_signature_witness :
    (handleWebhook sampleMac sampleUnmarshal (NewServer sampleConfig)
        { signedRequest [1, 2, 3] "workflow_run".toList with Method := "GET".toList }).reply =
      Reply.status 405 :=
  ((C32_method_then_signature sampleMac sampleUnmarshal (NewServer sampleConfig)
    { signedRequest [1, 2, 3] "workflow_run".toList with Method := "GET".toList }).1
    (by decide)).1

theorem oversizedBody_long : maxBodyBytes < oversizedRequest.Body.data.length := by
  have hd : oversizedRequest.Body.data = [1, 2, 3] ++ List.replicate maxBodyBytes 32 := rfl
  have h3 : ([1, 2, 3] : Bytes).length = 3 := rfl
  rw [hd, List.length_append, List.length_replicate, h3]
  omega

theorem readLimitedBody_long (b : RequestBody) (h : maxBodyBytes ≤ b.data.length) :
    readLimitedBody b = some (b.data.take maxBodyBytes) := by
  unfold readLimitedBody
  rw [if_neg (fun hc => absurd hc.2 (by omega))]

theorem readLimitedBody_complete (data : Bytes) :
    readLimitedBody { data := data, fails := false } = some (data.take maxBodyBytes) := by
  unfold readLimitedBody
  rw [if_neg (fun hc => by
    have h1 : false = true := hc.1
    cases h1)]

theorem oversizedRequest_verifies :
    VerifySignature sampleMac (oversizedBody.take maxBodyBytes)
      oversizedRequest.HubSignature256 (NewServer sampleConfig).cfg.WebhookSecret =
      Except.ok () :=
  (verifySignature_ok_iff sampleMac (oversizedBody.take maxBodyBytes)
      oversizedRequest.HubSignature256 (NewServer sampleConfig).cfg.WebhookSecret).mpr
    ⟨by decide,
      hexEncodeToString (sampleMac "s3cret".toList (oversizedBody.take maxBodyBytes)),
      rfl, hexDecode_encode _⟩

theorem oversizedRequest_decodes :
    paddedUnmarshal (oversizedBody.take maxBodyBytes) = some sampleEvent := by
  have h3 : min 3 maxBodyBytes = 3 := Nat.min_eq_left (by decide)
  have hhead : List.take 3 oversizedBody = [1, 2, 3] := rfl
  unfold paddedUnmarshal
  rw [List.take_take, h3, hhead]
  rfl

/-- C31 (as stated, refuted): a POST request whose body is three bytes longer
than 10 MiB and whose signature header is the signature of the first 10 MiB
is answered 202 and its event is dispatched: the handler reads the first
10 MiB and never looks at the rest. -/
theorem C31_oversized_body_accepted :
    maxBodyBytes < oversizedRequest.Body.data.length ∧
      (handleWebhook sampleMac paddedUnmarshal (NewServer sampleConfig)
        oversizedRequest).reply = Reply.status 202 ∧
      (handleWebhook sampleMac paddedUnmarshal (NewServer sampleConfig)
        oversizedRequest).dispatched = [sampleEvent] :=
  ⟨oversizedBody_long,
    handleWebhook_accepts sampleMac paddedUnmarshal (NewServer sampleConfig)
      oversizedRequest (oversizedBody.take maxBodyBytes) sampleEvent rfl
      (readLimitedBody_complete oversizedBody) oversizedRequest_verifies rfl
      oversizedRequest_decodes (by decide) (by decide) (by decide)⟩

/-- C31 (amended): a request whose body is longer than 10 MiB is handled
exactly as the same request with the body cut to its first 10 MiB; when its
signature does not verify over those first 10 MiB it is answered 405 (not a
POST) or 401 and nothing is dispatched. -/
theorem C31_body_cut_at_cap (mac : Str → Bytes → Bytes)
    (unmarshal : Bytes → Option WebhookEvent) (s : Server) (r : Request)
    (hlong : maxBodyBytes < r.Body.data.length) :
    handleWebhook mac unmarshal s r =
        handleWebhook mac unmarshal s
          { r with Body := { data := r.Body.data.take maxBodyBytes, fails := false } } ∧
      (∀ e, VerifySignature mac (r.Body.data.take maxBodyBytes) r.HubSignature256
          s.cfg.WebhookSecret = Except.error e →
        ((handleWebhook mac unmarshal s r).reply = Reply.status 405 ∨
          (handleWebhook mac unmarshal s r).reply = Reply.status 401) ∧
        (handleWebhook mac unmarshal s r).dispatched = []) := by
  have hb := readLimitedBody_long r.Body (Nat.le_of_lt hlong)
  have hcut : readLimitedBody { data := r.Body.data.take maxBodyBytes, fails := false } =
      some (r.Body.data.take maxBodyBytes) := by
    rw [readLimitedBody_complete, List.take_take, Nat.min_self]
  constructor
  · unfold handleWebhook
    simp only [hb, hcut]
  · intro e hv
    unfold handleWebhook
    by_cases hm : r.Method = "POST".toList
    · rw [if_neg (by simp only [ne_eq, hm, not_true_eq_false, not_false_eq_true])]
      simp only [hb, hv, or_true, and_self]
    · rw [if_pos hm]
      exact ⟨Or.inl rfl, rfl⟩

theorem C31_body_cut_at_cap_witness :
    handleWebhook sampleMac paddedUnmarshal (NewServer sampleConfig) oversizedRequest =
      handleWebhook sampleMac paddedUnmarshal (NewServer sampleConfig)
        { oversizedRequest with
          Body := { data := oversizedRequest.Body.data.take maxBodyBytes, fails := false } } :=
  (C31_body_cut_at_cap sampleMac paddedUnmarshal (NewServer sampleConfig) oversizedRequest
    oversizedBody_long).1

/-! ## The entries appended for docker metadata -/

theorem downloadAndParse_decoded {W : Type} (L : Lib) (R : Remote W) (url : Str) (s : St W)
    (dockerMeta : DockerMetadata)
    (h : (downloadAndParseDockerMetadata L R url s).1 = Except.ok dockerMeta) :
    ∃ content, L.decodeDockerMetadata content = Except.ok dockerMeta := by
  unfold downloadAndParseDockerMetadata clientDownloadArtifact at h
  cases hd : (R.DownloadArtifact url s.world).1 with
  | error err =>
    rw [hd] at h
    cases h
  | ok zipData =>
    rw [hd] at h
    simp only [] at h
    cases hz : L.zipNewReader zipData with
    | error err =>
      rw [hz] at h
      cases h
    | ok files =>
      rw [hz] at h
      simp only [] at h
      cases hf : files.find? (fun f => List.isSuffixOf ".json".toList f.Name) with
      | none =>
        rw [hf] at h
        cases h
      | some f =>
        rw [hf] at h
        simp only [] at h
        cases ho : f.Open with
        | error err =>
          rw [ho] at h
          cases h
        | ok content =>
          rw [ho] at h
          simp only [] at h
          cases hc : L.decodeDockerMetadata content with
          | error err =>
            rw [hc] at h
            cases h
          | ok decoded =>
            rw [hc] at h
            have he : decoded = dockerMeta := Except.ok.inj h
            subst he
            exact ⟨content, hc⟩

theorem dockerEntry_decoded {W : Type} (L : Lib) (R : Remote W) (repo : Str)
    (art : gh.Artifact) (s : St W) (entry : Artifact)
    (h : dockerEntry L R repo art s = some entry) :
    ∃ content dockerMeta, L.decodeDockerMetadata content = Except.ok dockerMeta ∧
      entry = dockerArtifact repo dockerMeta := by
  unfold dockerEntry at h
  split_ifs at h
  cases hd : (downloadAndParseDockerMetadata L R art.ArchiveDownloadURL s).1 with
  | error err =>
    rw [hd] at h
    cases h
  | ok dockerMeta =>
    rw [hd] at h
    obtain ⟨content, hc⟩ := downloadAndParse_decoded L R _ s dockerMeta hd
    exact ⟨content, dockerMeta, hc, (Option.some.inj h).symm⟩

theorem extractDockerLoop_mem {W : Type} (L : Lib) (R : Remote W) (repo : Str)
    (arts : List gh.Artifact) (s : St W) (entry : Artifact)
    (h : entry ∈ (extractDockerLoop L R repo arts [] s).1) :
    ∃ content dockerMeta, L.decodeDockerMetadata content = Except.ok dockerMeta ∧
      entry = dockerArtifact repo dockerMeta := by
  induction arts generalizing s with
  | nil =>
    exact absurd h (List.not_mem_nil entry)
  | cons art arts ih =>
    have hsplit : art :: arts = [art] ++ arts := rfl
    rw [hsplit, extractDockerLoop_append, extractDockerLoop_acc,
      extractDockerLoop_single] at h
    rcases List.mem_append.mp h with h | h
    · cases he : dockerEntry L R repo art s with
      | none =>
        rw [he] at h
        exact absurd h (List.not_mem_nil entry)
      | some e =>
        rw [he] at h
        have hee : entry = e := List.mem_singleton.mp h
        rw [hee]
        exact dockerEntry_decoded L R repo art s e he
    · exact ih _ h

theorem extractDockerArtifacts_mem {W : Type} (L : Lib) (R : Remote W) (owner repo : Str)
    (runID : Int) (s : St W) (entry : Artifact)
    (h : entry ∈ (ExtractDockerArtifacts L R owner repo runID s).1) :
    ∃ content dockerMeta, L.decodeDockerMetadata content = Except.ok dockerMeta ∧
      entry = dockerArtifact repo dockerMeta := by
  unfold ExtractDockerArtifacts clientGetArtifacts at h
  cases hg : (R.GetArtifacts owner repo runID s.world).1 with
  | error err =>
    rw [hg] at h
    exact absurd h (List.not_mem_nil entry)
  | ok arts =>
    rw [hg] at h
    exact extractDockerLoop_mem L R repo arts _ entry h

theorem enrichRecord_artifacts {W : Type} (L : Lib) (R : Remote W) (event : WebhookEvent)
    (s : St W) :
    ∃ st, (enrichRecord L R event s).1.Artifacts =
      (resolveSkeleton L R event s).1.Artifacts ++
        (ExtractDockerArtifacts L R event.Repository.OwnerLogin event.Repository.Name
          event.WorkflowRun.ID st).1 := by
  have hk := (enrichFromJobs_keeps L R event (resolveSkeleton L R event s)).2
  refine ⟨(enrichSecrets R event
    ((overwriteRunFields event (enrichFromJobs L R event (resolveSkeleton L R event s)).1),
      (enrichFromJobs L R event (resolveSkeleton L R event s)).2)).2, ?_⟩
  unfold enrichRecord
  rw [enrichArtifacts_record, enrichSecrets_record]
  show (overwriteRunFields event
    (enrichFromJobs L R event (resolveSkeleton L R event s)).1).Artifacts ++ _ = _
  have hk2 : (overwriteRunFields event
      (enrichFromJobs L R event (resolveSkeleton L R event s)).1).Artifacts =
      (resolveSkeleton L R event s).1.Artifacts := hk
  rw [hk2]

/-! ## Splitting and trimming -/

theorem stringsSplit_cons_sep (sep : Char) (cs : Str) :
    stringsSplit sep (sep :: cs) = [] :: stringsSplit sep cs := by
  rw [stringsSplit, if_pos rfl]

theorem stringsSplit_cons_other (sep c : Char) (cs : Str) (h : c ≠ sep) :
    stringsSplit sep (c :: cs) =
      match stringsSplit sep cs with
      | part :: parts => (c :: part) :: parts
      | [] => [[c]] := by
  rw [stringsSplit, if_neg h]

theorem stringsSplit_no_sep (sep : Char) (s : Str) (h : sep ∉ s) :
    stringsSplit sep s = [s] := by
  induction s with
  | nil => rfl
  | cons x xs ih =>
    have hx : x ≠ sep := fun e => h (e ▸ List.mem_cons_self x xs)
    rw [stringsSplit_cons_other sep x xs hx, ih (fun hm => h (List.mem_cons_of_mem x hm))]

theorem stringsSplit_first (sep : Char) (a b : Str) (h : sep ∉ a) :
    stringsSplit sep (a ++ sep :: b) = a :: stringsSplit sep b := by
  induction a with
  | nil => exact stringsSplit_cons_sep sep b
  | cons x xs ih =>
    have hx : x ≠ sep := fun e => h (e ▸ List.mem_cons_self x xs)
    rw [List.cons_append, stringsSplit_cons_other sep x _ hx,
      ih (fun hm => h (List.mem_cons_of_mem x hm))]

theorem stringsSplit_two (sep : Char) (a b : Str) :
    ∃ p q rest, stringsSplit sep (a ++ sep :: b) = p :: q :: rest ∧
      (q :: rest).getLast? = (stringsSplit sep b).getLast? := by
  induction a with
  | nil =>
    rw [List.nil_append, stringsSplit_cons_sep]
    cases hb : stringsSplit sep b with
    | nil =>
      cases b with
      | nil => cases hb
      | cons y ys =>
        unfold stringsSplit at hb
        split_ifs at hb
        split at hb <;> cases hb
    | cons q rest => exact ⟨[], q, rest, rfl, rfl⟩
  | cons x xs ih =>
    obtain ⟨p, q, rest, hs, hl⟩ := ih
    rw [List.cons_append]
    by_cases hx : x = sep
    · rw [hx, stringsSplit_cons_sep, hs]
      refine ⟨[], p, q :: rest, rfl, ?_⟩
      rw [List.getLast?_cons_cons]
      exact hl
    · rw [stringsSplit_cons_other sep x _ hx, hs]
      exact ⟨x :: p, q, rest, rfl, hl⟩

theorem repoBaseName_plain (seg : Str) (h : '/' ∉ seg) : repoBaseName seg = seg := by
  unfold repoBaseName
  rw [stringsSplit_no_sep '/' seg h]
  rfl

theorem repoBaseName_after_slash (pre rest : Str) :
    repoBaseName (pre ++ '/' :: rest) = repoBaseName rest := by
  obtain ⟨p, q, tail, hs, hl⟩ := stringsSplit_two '/' pre rest
  have hne : ∃ last, (stringsSplit '/' rest).getLast? = some last := by
    rw [← hl]
    exact ⟨(q :: tail).getLast (by simp), List.getLast?_eq_getLast _ (by simp)⟩
  obtain ⟨last, hlast⟩ := hne
  unfold repoBaseName
  rw [hs, List.getLast?_cons_cons, hl, hlast]

theorem dropWhile_all (p : Char → Bool) (pre rest : Str) (h : ∀ c ∈ pre, p c = true) :
    (pre ++ rest).dropWhile p = rest.dropWhile p := by
  induction pre with
  | nil => rfl
  | cons x xs ih =>
    rw [List.cons_append, List.dropWhile_cons, if_pos (h x (List.mem_cons_self x xs))]
    exact ih (fun c hc => h c (List.mem_cons_of_mem x hc))

theorem dropWhile_stop (p : Char → Bool) (s : Str)
    (h : ∀ x xs, s = x :: xs → p x = false) : s.dropWhile p = s := by
  cases s with
  | nil => rfl
  | cons x xs =>
    rw [List.dropWhile_cons, if_neg (by rw [h x xs rfl]; decide)]

theorem stringsTrimSpace_core (pre core post : Str)
    (hpre : ∀ c ∈ pre, isUnicodeSpace c = true) (hpost : ∀ c ∈ post, isUnicodeSpace c = true)
    (hfirst : ∀ x xs, core = x :: xs → isUnicodeSpace x = false)
    (hlast : ∀ xs x, core = xs ++ [x] → isUnicodeSpace x = false) :
    stringsTrimSpace (pre ++ core ++ post) = core := by
  unfold stringsTrimSpace
  rw [List.append_assoc, dropWhile_all _ pre _ hpre]
  cases core with
  | nil =>
    rw [List.nil_append]
    have h1 := dropWhile_all isUnicodeSpace post [] hpost
    rw [List.append_nil] at h1
    rw [h1]
    rfl
  | cons x xs =>
    rw [dropWhile_stop isUnicodeSpace ((x :: xs) ++ post) (fun y ys hy => by
      have : x = y := (List.cons.inj hy).1
      rw [← this]
      exact hfirst x xs rfl)]
    rw [List.reverse_append, dropWhile_all _ post.reverse _
      (fun c hc => hpost c (List.mem_reverse.mp hc))]
    rw [dropWhile_stop isUnicodeSpace (x :: xs).reverse (fun y ys hy => by
      apply hlast ys.reverse y
      have := congrArg List.reverse hy
      rw [List.reverse_reverse, List.reverse_cons] at this
      exact this)]
    exact List.reverse_reverse _

theorem parseTags_line (line rest : Str) (h : '\n' ∉ line) :
    parseTags (line ++ '\n' :: rest) =
      (if stringsTrimSpace line = [] then [] else [stringsTrimSpace line]) ++
        parseTags rest := by
  have hrest : ((stringsSplit '\n' rest).map stringsTrimSpace).filter
      (fun t => decide (t ≠ [])) = parseTags rest := by
    unfold parseTags
    by_cases hr : rest = []
    · rw [if_pos hr, hr]
      rfl
    · rw [if_neg hr]
  have hL : parseTags (line ++ '\n' :: rest) =
      ((stringsSplit '\n' (line ++ '\n' :: rest)).map stringsTrimSpace).filter
        (fun t => decide (t ≠ [])) := by
    unfold parseTags
    rw [if_neg (by simp)]
  rw [hL, stringsSplit_first '\n' line rest h, List.map_cons, List.filter_cons, hrest]
  by_cases ht : stringsTrimSpace line = []
  · rw [ht]
    simp
  · simp [ht]

theorem parseTags_last_line (line : Str) (h : '\n' ∉ line) :
    parseTags line = if stringsTrimSpace line = [] then [] else [stringsTrimSpace line] := by
  unfold parseTags
  by_cases hl : line = []
  · rw [if_pos hl, hl]
    rfl
  · rw [if_neg hl, stringsSplit_no_sep '\n' line h, List.map_cons, List.filter_cons]
    by_cases ht : stringsTrimSpace line = []
    · rw [ht]
      simp
    · simp [ht]

theorem dockerEntry_of_decoded {W : Type} (L : Lib) (R : Remote W) (repo : Str)
    (art : gh.Artifact) (s : St W) (dockerMeta : DockerMetadata)
    (hname : "docker-metadata-".toList <+: art.Name)
    (hd : (downloadAndParseDockerMetadata L R art.ArchiveDownloadURL s).1 =
      Except.ok dockerMeta) :
    dockerEntry L R repo art s = some (dockerArtifact repo dockerMeta) := by
  unfold dockerEntry
  rw [if_pos (List.isPrefixOf_iff_prefix.mpr hname), hd]

theorem dockerEntry_some {W : Type} (L : Lib) (R : Remote W) (repo : Str)
    (art : gh.Artifact) (s : St W) (entry : Artifact)
    (h : dockerEntry L R repo art s = some entry) :
    ("docker-metadata-".toList <+: art.Name) ∧
      ∃ dockerMeta, (downloadAndParseDockerMetadata L R art.ArchiveDownloadURL s).1 =
          Except.ok dockerMeta ∧ entry = dockerArtifact repo dockerMeta := by
  unfold dockerEntry at h
  cases hb : List.isPrefixOf "docker-metadata-".toList art.Name with
  | false =>
    rw [hb] at h
    cases h
  | true =>
    rw [hb, if_pos rfl] at h
    cases hd : (downloadAndParseDockerMetadata L R art.ArchiveDownloadURL s).1 with
    | error err =>
      rw [hd] at h
      cases h
    | ok dockerMeta =>
      rw [hd] at h
      exact ⟨List.isPrefixOf_iff_prefix.mp hb, dockerMeta, rfl, (Option.some.inj h).symm⟩

theorem extractDockerLoop_split {W : Type} (L : Lib) (R : Remote W) (repo : Str)
    (pre post : List gh.Artifact) (art : gh.Artifact) (s : St W) :
    (extractDockerLoop L R repo (pre ++ art :: post) [] s).1 =
      (extractDockerLoop L R repo pre [] s).1 ++
        ((dockerEntry L R repo art (extractDockerLoop L R repo pre [] s).2).toList ++
          (extractDockerLoop L R repo post []
            (extractDockerLoop L R repo [art] []
              (extractDockerLoop L R repo pre [] s).2).2).1) := by
  have hcons : art :: post = [art] ++ post := rfl
  rw [extractDockerLoop_append, extractDockerLoop_acc, hcons,
    extractDockerLoop_append, extractDockerLoop_acc, extractDockerLoop_single]
  simp only [List.nil_append, List.append_assoc]
  rw [extractDockerLoop_acc L R repo post (dockerEntry L R repo art _).toList]

theorem extractDockerLoop_mem_artifact {W : Type} (L : Lib) (R : Remote W) (repo : Str)
    (arts : List gh.Artifact) (s : St W) (entry : Artifact)
    (h : entry ∈ (extractDockerLoop L R repo arts [] s).1) :
    ∃ art ∈ arts, ∃ (st : St W) (dockerMeta : DockerMetadata),
      ("docker-metadata-".toList <+: art.Name) ∧
      (downloadAndParseDockerMetadata L R art.ArchiveDownloadURL st).1 =
        Except.ok dockerMeta ∧
      entry = dockerArtifact repo dockerMeta := by
  induction arts generalizing s with
  | nil =>
    exact absurd h (List.not_mem_nil entry)
  | cons art arts ih =>
    have hsplit : art :: arts = [art] ++ arts := rfl
    rw [hsplit, extractDockerLoop_append, extractDockerLoop_acc,
      extractDockerLoop_single] at h
    rcases List.mem_append.mp h with h | h
    · cases he : dockerEntry L R repo art s with
      | none =>
        rw [he] at h
        exact absurd h (List.not_mem_nil entry)
      | some e =>
        rw [he] at h
        have hee : entry = e := List.mem_singleton.mp h
        obtain ⟨hname, dockerMeta, hd, hentry⟩ := dockerEntry_some L R repo art s e he
        exact ⟨art, List.mem_cons_self art arts, s, dockerMeta, hname, hd,
          hee.trans hentry⟩
    · obtain ⟨art2, hmem, st, dockerMeta, hname, hd, hentry⟩ := ih _ h
      exact ⟨art2, List.mem_cons_of_mem art hmem, st, dockerMeta, hname, hd, hentry⟩

/-- C33: when the artifact listing is `pre ++ art :: post`, the name of `art`
starts with "docker-metadata-" and its archive is downloaded and decoded to a
metadata record, `ExtractDockerArtifacts` returns what `pre` yields, then one
entry for that record, then what `post` yields; that entry has type
"container-image", the record's digest, as URI the image when the digest is
empty and image, "@", digest otherwise, and as tags `parseTags` of the
record's tags.  Conversely every entry of the result is the entry of some
listed artifact with that name prefix whose archive decoded.  `parseTags` of
the empty string is the empty list; otherwise it works line by line: a line
contributes its trimmed text unless that is empty, and trimming removes the
white space around a core that neither starts nor ends with white space. -/
theorem C33_entry_fields_from_metadata {W : Type} (L : Lib) (R : Remote W)
    (owner repo : Str) (runID : Int) (s : St W) :
    (∀ arts, (R.GetArtifacts owner repo runID s.world).1 = Except.ok arts →
      (∀ pre art post dockerMeta, arts = pre ++ art :: post →
        ("docker-metadata-".toList <+: art.Name) →
        (downloadAndParseDockerMetadata L R art.ArchiveDownloadURL
          (extractDockerLoop L R repo pre []
            (clientGetArtifacts R owner repo runID s).2).2).1 = Except.ok dockerMeta →
        ∃ entry,
          (ExtractDockerArtifacts L R owner repo runID s).1 =
            (extractDockerLoop L R repo pre []
                (clientGetArtifacts R owner repo runID s).2).1 ++
              entry ::
              (extractDockerLoop L R repo post []
                (extractDockerLoop L R repo [art] []
                  (extractDockerLoop L R repo pre []
                    (clientGetArtifacts R owner repo runID s).2).2).2).1 ∧
          entry.Type_ = "container-image".toList ∧
          entry.Digest = dockerMeta.Digest ∧
          entry.URI =
            (if dockerMeta.Digest = [] then dockerMeta.Image
              else dockerMeta.Image ++ "@".toList ++ dockerMeta.Digest) ∧
          entry.Tags = parseTags dockerMeta.Tags) ∧
      (∀ entry ∈ (ExtractDockerArtifacts L R owner repo runID s).1,
        ∃ art ∈ arts, ∃ (st : St W) (dockerMeta : DockerMetadata),
          ("docker-metadata-".toList <+: art.Name) ∧
          (downloadAndParseDockerMetadata L R art.ArchiveDownloadURL st).1 =
            Except.ok dockerMeta ∧
          entry.Type_ = "container-image".toList ∧
          entry.Digest = dockerMeta.Digest ∧
          entry.URI =
            (if dockerMeta.Digest = [] then dockerMeta.Image
              else dockerMeta.Image ++ "@".toList ++ dockerMeta.Digest) ∧
          entry.Tags = parseTags dockerMeta.Tags)) ∧
    parseTags [] = [] ∧
    (∀ line rest, '\n' ∉ line →
      parseTags (line ++ '\n' :: rest) =
        (if stringsTrimSpace line = [] then [] else [stringsTrimSpace line]) ++
          parseTags rest) ∧
    (∀ line, '\n' ∉ line →
      parseTags line =
        if stringsTrimSpace line = [] then [] else [stringsTrimSpace line]) ∧
    (∀ pre core post : Str,
      (∀ c ∈ pre, isUnicodeSpace c = true) → (∀ c ∈ post, isUnicodeSpace c = true) →
      (∀ x xs, core = x :: xs → isUnicodeSpace x = false) →
      (∀ xs x, core = xs ++ [x] → isUnicodeSpace x = false) →
      stringsTrimSpace (pre ++ core ++ post) = core) ∧
    parseTags "v1\nlatest\n".toList = ["v1".toList, "latest".toList] ∧
    parseTags " v1.2 \r\n\n \t \nlatest".toList = ["v1.2".toList, "latest".toList] ∧
    parseTags " \n\n".toList = [] ∧
    (ExtractDockerArtifacts sampleLib fourArtifactsRemote "acme".toList "widget".toList 42
        startState).1 =
      [{ Name := "widget".toList, Type_ := "container-image".toList,
         Digest := "sha256:".toList ++ List.replicate 64 'b',
         URI := "ghcr.io/acme/widget@sha256:".toList ++ List.replicate 64 'b',
         Tags := ["v1".toList, "latest".toList], Provenance := none,
         Vulnerabilities := none },
       { Name := "widget".toList, Type_ := "container-image".toList,
         Digest := "sha256:".toList ++ List.replicate 64 'b',
         URI := "ghcr.io/acme/widget@sha256:".toList ++ List.replicate 64 'b',
         Tags := ["v1".toList, "latest".toList], Provenance := none,
         Vulnerabilities := none }] := by
  have hfields : ∀ dockerMeta : DockerMetadata,
      (dockerArtifact repo dockerMeta).Type_ = "container-image".toList ∧
      (dockerArtifact repo dockerMeta).Digest = dockerMeta.Digest ∧
      (dockerArtifact repo dockerMeta).URI =
        (if dockerMeta.Digest = [] then dockerMeta.Image
          else dockerMeta.Image ++ "@".toList ++ dockerMeta.Digest) ∧
      (dockerArtifact repo dockerMeta).Tags = parseTags dockerMeta.Tags := by
    intro dockerMeta
    refine ⟨rfl, rfl, ?_, rfl⟩
    unfold dockerArtifact
    by_cases hd : dockerMeta.Digest = []
    · simp only [hd, ne_eq, not_true_eq_false, if_false, if_true]
    · simp only [hd, ne_eq, not_false_eq_true, if_true, if_false]
  refine ⟨?_, rfl, parseTags_line, parseTags_last_line, stringsTrimSpace_core, by decide,
    by decide, by decide, by decide⟩
  intro arts hlist
  have hrun : ExtractDockerArtifacts L R owner repo runID s =
      extractDockerLoop L R repo arts [] (clientGetArtifacts R owner repo runID s).2 := by
    unfold ExtractDockerArtifacts clientGetArtifacts
    rw [hlist]
  constructor
  · intro pre art post dockerMeta hsplit hname hd
    refine ⟨dockerArtifact repo dockerMeta, ?_, hfields dockerMeta⟩
    rw [hrun, hsplit, extractDockerLoop_split,
      dockerEntry_of_decoded L R repo art _ dockerMeta hname hd]
    rfl
  · intro entry hmem
    rw [hrun] at hmem
    obtain ⟨art, hart, st, dockerMeta, hname, hd, hentry⟩ :=
      extractDockerLoop_mem_artifact L R repo arts _ entry hmem
    rw [hentry]
    exact ⟨art, hart, st, dockerMeta, hname, hd, hfields dockerMeta⟩

theorem C33_entry_fields_from_metadata_witness :
    ∃ entry,
      (ExtractDockerArtifacts sampleLib fourArtifactsRemote "acme".toList "widget".toList 42
          startState).1 =
        (extractDockerLoop sampleLib fourArtifactsRemote "widget".toList [] []
            (clientGetArtifacts fourArtifactsRemote "acme".toList "widget".toList 42
              startState).2).1 ++
          entry ::
          (extractDockerLoop sampleLib fourArtifactsRemote "widget".toList
            (fourArtifacts.drop 1) []
            (extractDockerLoop sampleLib fourArtifactsRemote "widget".toList
              (fourArtifacts.take 1) []
              (extractDockerLoop sampleLib fourArtifactsRemote "widget".toList [] []
                (clientGetArtifacts fourArtifactsRemote "acme".toList "widget".toList 42
                  startState).2).2).2).1 ∧
      entry.Type_ = "container-image".toList ∧
      entry.Digest = "sha256:".toList ++ List.replicate 64 'b' ∧
      entry.Tags = parseTags "v1\nlatest\n".toList :=
  match ((C33_entry_fields_from_metadata sampleLib fourArtifactsRemote "acme".toList
      "widget".toList 42 startState).1 fourArtifacts rfl).1 []
      { ID := 1, Name := "docker-metadata-api".toList, SizeInBytes := 1,
        ArchiveDownloadURL := "url/docker".toList, Digest := [] }
      (fourArtifacts.drop 1)
      { Image := "ghcr.io/acme/widget".toList,
        Digest := "sha256:".toList ++ List.replicate 64 'b',
        Tags := "v1\nlatest\n".toList }
      rfl (by decide) (by decide) with
  | ⟨entry, hres, htype, hdigest, _, htags⟩ => ⟨entry, hres, htype, hdigest, htags⟩

/-- C38 (as stated, refuted): for an event whose repository name is "gadget"
and whose repository full name is "acme/widget", the entries appended by
enrichment are named "gadget", not "widget", the last segment of the full
name. -/
theorem C38_name_not_from_full_name :
    renamedEvent.Repository.FullName = "acme/widget".toList ∧
      repoBaseName renamedEvent.Repository.FullName = "widget".toList ∧
      (resolveSkeleton sampleLib fourArtifactsRemote renamedEvent startState).1.Artifacts
        = [] ∧
      (enrichRecord sampleLib fourArtifactsRemote renamedEvent startState).1.Artifacts.map
        Artifact.Name = ["gadget".toList, "gadget".toList] := by
  decide

/-- C38 (amended): the artifacts of the record handed to `Store` are those of
the skeleton or fallback record followed by the appended entries, and the name
of each appended entry is the last "/"-separated segment of the event's
repository name; it is the last segment of the repository full name whenever
the full name ends in "/" followed by the name.  The last segment of a text
without "/" is the text itself, that of `pre`, "/", `rest` is that of
`rest`. -/
theorem C38_entry_name_from_repository_name {W : Type} (L : Lib) (R : Remote W)
    (event : WebhookEvent) (s : St W) :
    (∃ docker, (enrichRecord L R event s).1.Artifacts =
        (resolveSkeleton L R event s).1.Artifacts ++ docker ∧
      (∀ a ∈ docker, a.Name = repoBaseName event.Repository.Name) ∧
      (∀ ownerPart, event.Repository.FullName = ownerPart ++ '/' :: event.Repository.Name →
        ∀ a ∈ docker, a.Name = repoBaseName event.Repository.FullName)) ∧
    (∀ seg : Str, '/' ∉ seg → repoBaseName seg = seg) ∧
    (∀ pre rest : Str, repoBaseName (pre ++ '/' :: rest) = repoBaseName rest) := by
  refine ⟨?_, repoBaseName_plain, repoBaseName_after_slash⟩
  obtain ⟨st, hst⟩ := enrichRecord_artifacts L R event s
  have hname : ∀ a ∈ (ExtractDockerArtifacts L R event.Repository.OwnerLogin
      event.Repository.Name event.WorkflowRun.ID st).1,
      a.Name = repoBaseName event.Repository.Name := by
    intro a ha
    obtain ⟨content, dockerMeta, _, he⟩ := extractDockerArtifacts_mem L R _ _ _ st a ha
    rw [he]
    rfl
  refine ⟨_, hst, hname, ?_⟩
  intro ownerPart hfull a ha
  rw [hfull, repoBaseName_after_slash]
  exact hname a ha

theorem C38_entry_name_from_repository_name_witness :
    ∃ docker, (enrichRecord sampleLib (onlineRemote []) sampleEvent startState).1.Artifacts =
        (resolveSkeleton sampleLib (onlineRemote []) sampleEvent startState).1.Artifacts ++
          docker ∧
      ∀ a ∈ docker, a.Name = repoBaseName sampleEvent.Repository.FullName :=
  match (C38_entry_name_from_repository_name sampleLib (onlineRemote []) sampleEvent
      startState).1 with
  | ⟨docker, hd, _, hfull⟩ => ⟨docker, hd, hfull "acme".toList rfl⟩

/-! ## Record invariants after enrichment -/

theorem filter_matches_iff (rule : filter.Rule) (propVal : Str) :
    filter.matches rule propVal = true ↔
      (rule.Value ≠ [] ∧ propVal = rule.Value) ∨ propVal ∈ rule.Values := by
  unfold filter.matches
  by_cases h : rule.Value ≠ [] ∧ propVal = rule.Value
  · rw [if_pos h]
    exact ⟨fun _ => Or.inl h, fun _ => rfl⟩
  · rw [if_neg h]
    constructor
    · intro ha
      obtain ⟨v, hv, he⟩ := List.any_eq_true.mp ha
      exact Or.inr ((of_decide_eq_true he) ▸ hv)
    · rintro (hc | hm)
      · exact absurd hc h
      · exact List.any_eq_true.mpr ⟨propVal, hm, decide_eq_true rfl⟩

theorem evaluateRules_skip (quote : Str → Str) (cfg : filter.Config)
    (properties : Str → Option Str) (pre rest : List filter.Rule)
    (hpre : ∀ r ∈ pre, ¬ ∃ v, properties r.Property = some v ∧
      ((r.Value ≠ [] ∧ v = r.Value) ∨ v ∈ r.Values)) :
    filter.evaluateRules quote cfg properties (pre ++ rest) =
      filter.evaluateRules quote cfg properties rest := by
  induction pre with
  | nil => rfl
  | cons r rs ih =>
    have hr := hpre r (List.mem_cons_self r rs)
    have hrs := ih (fun x hx => hpre x (List.mem_cons_of_mem r hx))
    rw [List.cons_append, filter.evaluateRules]
    cases hp : properties r.Property with
    | none => exact hrs
    | some v =>
      have hm : filter.matches r v = false := by
        cases hb : filter.matches r v with
        | false => rfl
        | true => exact absurd ⟨v, hp, (filter_matches_iff r v).mp hb⟩ hr
      simp only [hm]
      exact hrs

/-- C35: when the rules are `pre ++ rule :: post`, no rule of `pre` matches
and `rule` matches (its property is present in the map with a value that
equals the rule's non-empty `value` or is among its `values`), `Evaluate`
includes exactly when the action of `rule` is "include"; when no rule
matches, it includes exactly when default_action is "include".  The cases of
the tests of filter_test.go follow. -/
theorem C35_first_matching_rule_decides (quote : Str → Str) (cfg : filter.Config)
    (properties : Str → Option Str) :
    (∀ pre rule post, cfg.Filtering.Rules = pre ++ rule :: post →
      (∀ r ∈ pre, ¬ ∃ v, properties r.Property = some v ∧
        ((r.Value ≠ [] ∧ v = r.Value) ∨ v ∈ r.Values)) →
      (∃ v, properties rule.Property = some v ∧
        ((rule.Value ≠ [] ∧ v = rule.Value) ∨ v ∈ rule.Values)) →
      ((filter.Evaluate quote cfg properties).1 = true ↔
        rule.Action = "include".toList)) ∧
    ((∀ r ∈ cfg.Filtering.Rules, ¬ ∃ v, properties r.Property = some v ∧
        ((r.Value ≠ [] ∧ v = r.Value) ∨ v ∈ r.Values)) →
      ((filter.Evaluate quote cfg properties).1 = true ↔
        cfg.Filtering.DefaultAction = "include".toList)) ∧
    (filter.Evaluate sampleQuote (makeConfig "exclude".toList [])
      (propertiesOf [("foo".toList, "bar".toList)])).1 = false ∧
    (filter.Evaluate sampleQuote (makeConfig "include".toList [])
      (propertiesOf [("foo".toList, "bar".toList)])).1 = true ∧
    (filter.Evaluate sampleQuote (makeConfig "exclude".toList [enabledRule])
      (propertiesOf [("pbom-enabled".toList, "true".toList)])).1 = true ∧
    (filter.Evaluate sampleQuote (makeConfig "exclude".toList [enabledRule])
      (propertiesOf [("pbom-enabled".toList, "false".toList)])).1 = false ∧
    (filter.Evaluate sampleQuote (makeConfig "exclude".toList [tierRule])
      (propertiesOf [("tier".toList, "production".toList)])).1 = true ∧
    (filter.Evaluate sampleQuote (makeConfig "exclude".toList [tierRule])
      (propertiesOf [("tier".toList, "staging".toList)])).1 = true ∧
    (filter.Evaluate sampleQuote (makeConfig "exclude".toList [tierRule])
      (propertiesOf [("tier".toList, "development".toList)])).1 = false ∧
    (filter.Evaluate sampleQuote (makeConfig "exclude".toList [deprecatedRule, enabledRule])
      (propertiesOf [("lifecycle".toList, "deprecated".toList),
        ("pbom-enabled".toList, "true".toList)])).1 = false ∧
    (filter.Evaluate sampleQuote (makeConfig "include".toList [deprecatedRule])
      (propertiesOf [("lifecycle".toList, "deprecated".toList)])).1 = false ∧
    (filter.Evaluate sampleQuote (makeConfig "exclude".toList [enabledRule])
      (propertiesOf [])).1 = false ∧
    (filter.Evaluate sampleQuote (makeConfig "exclude".toList [enabledRule])
      (propertiesOf [("other-prop".toList, "whatever".toList)])).1 = false ∧
    (filter.Evaluate sampleQuote (makeConfig "include".toList [])
      (fun _ => none)).1 = true ∧
    filter.Evaluate sampleQuote (makeConfig "exclude".toList [deprecatedRule, enabledRule])
      (propertiesOf [("pbom-enabled".toList, "true".toList)]) =
      (true, "matched rule: property \"pbom-enabled\" = \"true\" → include".toList) := by
  refine ⟨?_, ?_, by decide, by decide, by decide, by decide, by decide, by decide,
    by decide, by decide, by decide, by decide, by decide, by decide, by decide⟩
  · intro pre rule post hsplit hpre hrule
    obtain ⟨v, hp, hv⟩ := hrule
    unfold filter.Evaluate
    rw [hsplit, evaluateRules_skip quote cfg properties pre _ hpre, filter.evaluateRules]
    simp only [hp, (filter_matches_iff rule v).mpr hv, if_true, decide_eq_true_eq]
  · intro hnone
    unfold filter.Evaluate
    have h := evaluateRules_skip quote cfg properties cfg.Filtering.Rules [] hnone
    rw [List.append_nil] at h
    rw [h, filter.evaluateRules]
    simp only [decide_eq_true_eq]

theorem C35_first_matching_rule_decides_witness :
    ((filter.Evaluate sampleQuote (makeConfig "exclude".toList [deprecatedRule, enabledRule])
        (propertiesOf [("pbom-enabled".toList, "true".toList)])).1 = true ↔
      enabledRule.Action = "include".toList) :=
  (C35_first_matching_rule_decides sampleQuote
    (makeConfig "exclude".toList [deprecatedRule, enabledRule])
    (propertiesOf [("pbom-enabled".toList, "true".toList)])).1
    [deprecatedRule] enabledRule [] rfl
    (by
      intro r hr
      rw [List.mem_singleton.mp hr]
      rintro ⟨v, hv, _⟩
      cases hv)
    ⟨"true".toList, rfl, Or.inl ⟨by decide, rfl⟩⟩

/-! ## Config validation -/

theorem ruleError_none_iff (quote : Str → Str) (i : Nat) (r : filter.Rule) :
    filter.ruleError quote i r = none ↔
      r.Property ≠ [] ∧ (r.Value ≠ [] ∨ r.Values ≠ []) ∧
        (r.Action = "include".toList ∨ r.Action = "exclude".toList) := by
  unfold filter.ruleError
  by_cases hp : r.Property = []
  · rw [if_pos hp]
    exact ⟨fun h => (by cases h), fun h => absurd hp h.1⟩
  rw [if_neg hp]
  by_cases hv : r.Value = [] ∧ r.Values.length = 0
  · rw [if_pos hv]
    refine ⟨fun h => (by cases h), fun h => ?_⟩
    rcases h.2.1 with h1 | h1
    · exact absurd hv.1 h1
    · exact absurd (List.length_eq_zero.mp hv.2) h1
  rw [if_neg hv]
  have hv2 : r.Value ≠ [] ∨ r.Values ≠ [] := by
    by_cases h1 : r.Value = []
    · right
      intro h2
      exact hv ⟨h1, by rw [h2]; rfl⟩
    · exact Or.inl h1
  by_cases ha : r.Action ≠ "include".toList ∧ r.Action ≠ "exclude".toList
  · rw [if_pos ha]
    refine ⟨fun h => (by cases h), fun h => ?_⟩
    rcases h.2.2 with h1 | h1
    · exact absurd h1 ha.1
    · exact absurd h1 ha.2
  rw [if_neg ha]
  refine ⟨fun _ => ⟨hp, hv2, ?_⟩, fun _ => rfl⟩
  by_cases h1 : r.Action = "include".toList
  · exact Or.inl h1
  · right
    by_contra h2
    exact ha ⟨h1, h2⟩

theorem validateRules_none_iff (quote : Str → Str) (rules : List filter.Rule) (i : Nat) :
    filter.validateRules quote i rules = none ↔
      ∀ r ∈ rules, r.Property ≠ [] ∧ (r.Value ≠ [] ∨ r.Values ≠ []) ∧
        (r.Action = "include".toList ∨ r.Action = "exclude".toList) := by
  induction rules generalizing i with
  | nil => exact ⟨fun _ r hr => absurd hr (List.not_mem_nil r), fun _ => rfl⟩
  | cons r rs ih =>
    rw [filter.validateRules]
    cases he : filter.ruleError quote i r with
    | some err =>
      refine ⟨fun h => (by cases h), fun h => ?_⟩
      have hok := (ruleError_none_iff quote i r).mpr (h r (List.mem_cons_self r rs))
      rw [he] at hok
      cases hok
    | none =>
      have hok := (ruleError_none_iff quote i r).mp he
      simp only []
      rw [ih (i + 1)]
      constructor
      · intro h x hx
        rcases List.mem_cons.mp hx with hx | hx
        · rw [hx]
          exact hok
        · exact h x hx
      · intro h x hx
        exact h x (List.mem_cons_of_mem r hx)

theorem validateRules_first_offender (quote : Str → Str) (pre post : List filter.Rule)
    (r : filter.Rule) (i : Nat)
    (hpre : ∀ x ∈ pre, x.Property ≠ [] ∧ (x.Value ≠ [] ∨ x.Values ≠ []) ∧
      (x.Action = "include".toList ∨ x.Action = "exclude".toList))
    (hr : ¬ (r.Property ≠ [] ∧ (r.Value ≠ [] ∨ r.Values ≠ []) ∧
      (r.Action = "include".toList ∨ r.Action = "exclude".toList))) :
    filter.validateRules quote i (pre ++ r :: post) =
        filter.ruleError quote (i + pre.length) r ∧
      filter.ruleError quote (i + pre.length) r ≠ none := by
  induction pre generalizing i with
  | nil =>
    have hne : filter.ruleError quote i r ≠ none :=
      fun h => hr ((ruleError_none_iff quote i r).mp h)
    have h0 : i + ([] : List filter.Rule).length = i := rfl
    rw [List.nil_append, filter.validateRules, h0]
    refine ⟨?_, hne⟩
    cases he : filter.ruleError quote i r with
    | some err => rfl
    | none => exact absurd he hne
  | cons x xs ih =>
    have hx := (ruleError_none_iff quote i x).mpr (hpre x (List.mem_cons_self x xs))
    have hrest := ih (i + 1) (fun y hy => hpre y (List.mem_cons_of_mem x hy))
    rw [List.cons_append, filter.validateRules, hx, List.length_cons]
    simp only []
    have hidx : i + (xs.length + 1) = i + 1 + xs.length := by omega
    rw [hidx]
    exact hrest

/-- C36: `validateConfig` returns no error exactly when the version is
non-empty, default_action is "include" or "exclude", and every rule has a
non-empty property, a non-empty value or a non-empty values list, and an
action that is "include" or "exclude".  Otherwise it returns an error: the
version error, else the default_action error, else the error of the first
offending rule in rule order, numbered by its position.  The cases of the
tests of filter_test.go follow. -/
theorem C36_validateConfig_accepts_iff (quote : Str → Str) (cfg : filter.Config) :
    (filter.validateConfig quote cfg = none ↔
      cfg.Version ≠ [] ∧
      (cfg.Filtering.DefaultAction = "include".toList ∨
        cfg.Filtering.DefaultAction = "exclude".toList) ∧
      ∀ r ∈ cfg.Filtering.Rules, r.Property ≠ [] ∧ (r.Value ≠ [] ∨ r.Values ≠ []) ∧
        (r.Action = "include".toList ∨ r.Action = "exclude".toList)) ∧
    (cfg.Version = [] →
      filter.validateConfig quote cfg =
        some (GoError.msg "config missing required field: version".toList)) ∧
    (cfg.Version ≠ [] →
      ¬ (cfg.Filtering.DefaultAction = "include".toList ∨
        cfg.Filtering.DefaultAction = "exclude".toList) →
      filter.validateConfig quote cfg =
        some (GoError.msg ("invalid default_action ".toList ++
          quote cfg.Filtering.DefaultAction ++
          ": must be \"include\" or \"exclude\"".toList))) ∧
    (cfg.Version ≠ [] →
      (cfg.Filtering.DefaultAction = "include".toList ∨
        cfg.Filtering.DefaultAction = "exclude".toList) →
      ∀ pre r post, cfg.Filtering.Rules = pre ++ r :: post →
        (∀ x ∈ pre, x.Property ≠ [] ∧ (x.Value ≠ [] ∨ x.Values ≠ []) ∧
          (x.Action = "include".toList ∨ x.Action = "exclude".toList)) →
        ¬ (r.Property ≠ [] ∧ (r.Value ≠ [] ∨ r.Values ≠ []) ∧
          (r.Action = "include".toList ∨ r.Action = "exclude".toList)) →
        filter.validateConfig quote cfg = filter.ruleError quote pre.length r ∧
        filter.ruleError quote pre.length r ≠ none) ∧
    filter.validateConfig sampleQuote (makeConfig "exclude".toList [enabledRule, tierRule]) =
      none ∧
    filter.validateConfig sampleQuote
      { Version := [], Filtering := { DefaultAction := "exclude".toList, Rules := [] } } =
      some (GoError.msg "config missing required field: version".toList) ∧
    filter.validateConfig sampleQuote (makeConfig "maybe".toList []) =
      some (GoError.msg
        "invalid default_action \"maybe\": must be \"include\" or \"exclude\"".toList) ∧
    filter.validateConfig sampleQuote
      (makeConfig "exclude".toList [{ enabledRule with Property := [] }]) =
      some (GoError.msg "rule 0: missing required field: property".toList) ∧
    filter.validateConfig sampleQuote
      (makeConfig "exclude".toList
        [{ Property := "foo".toList, Value := [], Values := [],
           Action := "include".toList }]) =
      some (GoError.msg "rule 0: must specify value or values".toList) ∧
    filter.validateConfig sampleQuote
      (makeConfig "exclude".toList
        [{ Property := "foo".toList, Value := "bar".toList, Values := [],
           Action := "maybe".toList }]) =
      some (GoError.msg
        "rule 0: invalid action \"maybe\": must be \"include\" or \"exclude\"".toList) ∧
    filter.validateConfig sampleQuote
      (makeConfig "exclude".toList
        [enabledRule, { tierRule with Values := [] }, { enabledRule with Property := [] }]) =
      some (GoError.msg "rule 1: must specify value or values".toList) := by
  have hda : ¬ (cfg.Filtering.DefaultAction ≠ "include".toList ∧
      cfg.Filtering.DefaultAction ≠ "exclude".toList) ↔
      (cfg.Filtering.DefaultAction = "include".toList ∨
        cfg.Filtering.DefaultAction = "exclude".toList) := by
    constructor
    · intro h
      by_cases h1 : cfg.Filtering.DefaultAction = "include".toList
      · exact Or.inl h1
      · right
        by_contra h2
        exact h ⟨h1, h2⟩
    · rintro (h | h) ⟨h1, h2⟩
      · exact h1 h
      · exact h2 h
  refine ⟨?_, ?_, ?_, ?_, by decide, by decide, by decide, by decide, by decide, by decide,
    by decide⟩
  · unfold filter.validateConfig
    by_cases hv : cfg.Version = []
    · rw [if_pos hv]
      exact ⟨fun h => (by cases h), fun h => absurd hv h.1⟩
    rw [if_neg hv]
    by_cases ha : cfg.Filtering.DefaultAction ≠ "include".toList ∧
        cfg.Filtering.DefaultAction ≠ "exclude".toList
    · rw [if_pos ha]
      exact ⟨fun h => (by cases h), fun h => absurd (hda.mpr h.2.1) (fun hn => hn ha)⟩
    rw [if_neg ha, validateRules_none_iff]
    exact ⟨fun h => ⟨hv, hda.mp ha, h⟩, fun h => h.2.2⟩
  · intro hv
    unfold filter.validateConfig
    rw [if_pos hv]
  · intro hv ha
    unfold filter.validateConfig
    rw [if_neg hv, if_pos (by
      by_contra hn
      exact ha (hda.mp hn))]
  · intro hv ha pre r post hsplit hpre hr
    unfold filter.validateConfig
    rw [if_neg hv, if_neg (hda.mpr ha), hsplit]
    have h := validateRules_first_offender quote pre post r 0 hpre hr
    rw [Nat.zero_add] at h
    exact h

theorem C36_validateConfig_accepts_iff_witness :
    filter.validateConfig sampleQuote
        (makeConfig "exclude".toList [enabledRule, { tierRule with Values := [] }]) =
      filter.ruleError sampleQuote 1 { tierRule with Values := [] } :=
  ((C36_validateConfig_accepts_iff sampleQuote
    (makeConfig "exclude".toList [enabledRule, { tierRule with Values := [] }])).2.2.2.1
    (by decide) (Or.inr rfl) [enabledRule] { tierRule with Values := [] } [] rfl
    (by decide) (by decide)).1

/-! ## The Go version probe -/

theorem firstByte_digit (c : Char) :
    ('0'.toNat ≤ firstByte c ∧ firstByte c ≤ '9'.toNat) ↔ c ∈ "0123456789".toList := by
  have e0 : '0'.toNat = 48 := rfl
  have e9 : '9'.toNat = 57 := rfl
  rw [e0, e9]
  constructor
  · intro h
    have hlt : c.toNat < 0x80 := by
      by_contra hn
      unfold firstByte at h
      rw [if_neg hn] at h
      split_ifs at h <;> omega
    unfold firstByte at h
    rw [if_pos hlt] at h
    rw [← Char.ofNat_toNat c]
    generalize c.toNat = n at h
    obtain ⟨h1, h2⟩ := h
    interval_cases n <;> decide
  · intro h
    simp only [String.toList, List.mem_cons, List.mem_singleton] at h
    have hnil : c ∉ ([] : List Char) := List.not_mem_nil c
    rcases h with h | h | h | h | h | h | h | h | h | h | h
    all_goals first
      | exact absurd h hnil
      | (subst h; decide)

theorem isGoVersionField_iff (field : Str) :
    isGoVersionField field = true ↔
      ∃ d rest, field = 'g' :: 'o' :: d :: rest ∧ d ∈ "0123456789".toList := by
  constructor
  · intro h
    unfold isGoVersionField at h
    simp only [Bool.and_eq_true, decide_eq_true_eq] at h
    obtain ⟨⟨hp, _⟩, hd⟩ := h
    obtain ⟨t, ht⟩ := List.isPrefixOf_iff_prefix.mp hp
    subst ht
    have hdrop : List.drop 2 ("go".toList ++ t) = t := rfl
    rw [hdrop] at hd
    cases t with
    | nil => simp at hd
    | cons d rest =>
      simp only [Bool.and_eq_true, decide_eq_true_eq] at hd
      exact ⟨d, rest, rfl, (firstByte_digit d).mp hd⟩
  · rintro ⟨d, rest, hf, hd⟩
    subst hf
    have hb := (firstByte_digit d).mpr hd
    unfold isGoVersionField
    have hlen : byteLen ('g' :: 'o' :: d :: rest) > 2 := by
      unfold byteLen
      simp only [List.map_cons, List.sum_cons]
      have h1 : runeLen 'g' = 1 := rfl
      have h2 : runeLen 'o' = 1 := rfl
      have h3 : 1 ≤ runeLen d := by
        unfold runeLen
        split_ifs <;> omega
      omega
    simp only [Bool.and_eq_true, decide_eq_true_eq]
    refine ⟨⟨?_, hlen⟩, ?_⟩
    · rfl
    · show (decide _ && decide _) = true
      simp only [Bool.and_eq_true, decide_eq_true_eq]
      exact hb

theorem fieldsFrom_word (word : Str) (cur rest : Str)
    (h : ∀ c ∈ word, isUnicodeSpace c = false) :
    fieldsFrom cur (word ++ rest) = fieldsFrom (word.reverse ++ cur) rest := by
  induction word generalizing cur with
  | nil => rfl
  | cons x xs ih =>
    have hx : ¬ isUnicodeSpace x = true := by
      rw [h x (List.mem_cons_self x xs)]
      decide
    rw [List.cons_append, fieldsFrom, if_neg hx,
      ih (x :: cur) (fun c hc => h c (List.mem_cons_of_mem x hc)), List.reverse_cons,
      List.append_assoc]
    rfl

theorem fieldsFrom_spaces (spaces rest : Str) (h : ∀ c ∈ spaces, isUnicodeSpace c = true) :
    fieldsFrom [] (spaces ++ rest) = fieldsFrom [] rest := by
  induction spaces with
  | nil => rfl
  | cons x xs ih =>
    rw [List.cons_append, fieldsFrom, if_pos (h x (List.mem_cons_self x xs)), if_pos rfl]
    exact ih (fun c hc => h c (List.mem_cons_of_mem x hc))

theorem stringsFields_word_then (spaces word rest : Str) (sep : Char)
    (hs : ∀ c ∈ spaces, isUnicodeSpace c = true) (hw : ∀ c ∈ word, isUnicodeSpace c = false)
    (hne : word ≠ []) (hsep : isUnicodeSpace sep = true) :
    stringsFields (spaces ++ word ++ sep :: rest) = word :: stringsFields rest := by
  unfold stringsFields
  rw [List.append_assoc, fieldsFrom_spaces spaces _ hs, fieldsFrom_word word [] _ hw,
    List.append_nil, fieldsFrom, if_pos hsep,
    if_neg (fun h => hne (List.reverse_eq_nil_iff.mp h)), List.reverse_reverse]

theorem stringsFields_last_word (spaces word : Str)
    (hs : ∀ c ∈ spaces, isUnicodeSpace c = true) (hw : ∀ c ∈ word, isUnicodeSpace c = false)
    (hne : word ≠ []) :
    stringsFields (spaces ++ word) = [word] := by
  have h := fieldsFrom_word word [] [] hw
  rw [List.append_nil, List.append_nil] at h
  unfold stringsFields
  rw [fieldsFrom_spaces spaces _ hs, h, fieldsFrom,
    if_neg (fun h => hne (List.reverse_eq_nil_iff.mp h)), List.reverse_reverse]

theorem stringsFields_spaces (spaces : Str) (hs : ∀ c ∈ spaces, isUnicodeSpace c = true) :
    stringsFields spaces = [] := by
  have h := fieldsFrom_spaces spaces [] hs
  rw [List.append_nil] at h
  unfold stringsFields
  rw [h]
  rfl

theorem find?_none_of_all {α : Type} (p : α → Bool) (l : List α)
    (h : ∀ x ∈ l, p x = false) : l.find? p = none :=
  List.find?_eq_none.mpr (fun x hx => by rw [h x hx]; decide)

/-- C40: when the fields of the input are `pre ++ field :: post`, no field of
`pre` is "go" followed by a decimal digit and more, and `field` is "go", a
digit `d` and `rest`, `parseGo` returns `d :: rest`; when no field has that
form it returns the input unchanged.  The fields are the maximal runs of
characters that are not white space.  The cases of the test table follow,
and inputs in which the fields "go" and "golang" are skipped. -/
theorem C40_parseGo_first_version_field (s : Str) :
    (∀ pre field post, stringsFields s = pre ++ field :: post →
      (∀ f ∈ pre, ¬ ∃ d rest, f = 'g' :: 'o' :: d :: rest ∧ d ∈ "0123456789".toList) →
      ∀ d rest, field = 'g' :: 'o' :: d :: rest → d ∈ "0123456789".toList →
        parseGo s = d :: rest) ∧
    ((∀ f ∈ stringsFields s,
        ¬ ∃ d rest, f = 'g' :: 'o' :: d :: rest ∧ d ∈ "0123456789".toList) →
      parseGo s = s) ∧
    (∀ (spaces word rest : Str) (sep : Char),
      (∀ c ∈ spaces, isUnicodeSpace c = true) → (∀ c ∈ word, isUnicodeSpace c = false) →
      word ≠ [] → isUnicodeSpace sep = true →
      stringsFields (spaces ++ word ++ sep :: rest) = word :: stringsFields rest) ∧
    (∀ spaces word : Str,
      (∀ c ∈ spaces, isUnicodeSpace c = true) → (∀ c ∈ word, isUnicodeSpace c = false) →
      word ≠ [] → stringsFields (spaces ++ word) = [word]) ∧
    (∀ spaces : Str, (∀ c ∈ spaces, isUnicodeSpace c = true) → stringsFields spaces = []) ∧
    parseGo "go version go1.22.4 linux/amd64".toList = "1.22.4".toList ∧
    parseGo "go version go1.25.5 darwin/arm64".toList = "1.25.5".toList ∧
    parseGo "go version go1.23rc1 linux/amd64".toList = "1.23rc1".toList ∧
    parseGo "some unknown output".toList = "some unknown output".toList ∧
    parseGo [] = [] ∧
    parseGo "go golang gopher go-1 go1.21 go1.22".toList = "1.21".toList ∧
    parseGo "go golang".toList = "go golang".toList ∧
    parseGo " \t ".toList = " \t ".toList := by
  refine ⟨?_, ?_, stringsFields_word_then, stringsFields_last_word, stringsFields_spaces,
    by decide, by decide, by decide, by decide, by decide, by decide, by decide, by decide⟩
  · intro pre field post hsplit hpre d rest hfield hd
    have hfind : (stringsFields s).find? isGoVersionField = some field := by
      rw [hsplit]
      refine find?_first _ pre post field (fun f hf => ?_)
        ((isGoVersionField_iff field).mpr ⟨d, rest, hfield, hd⟩)
      cases hb : isGoVersionField f with
      | false => rfl
      | true => exact absurd ((isGoVersionField_iff f).mp hb) (hpre f hf)
    unfold parseGo
    rw [hfind, hfield]
    rfl
  · intro hnone
    have hfind : (stringsFields s).find? isGoVersionField = none := by
      refine find?_none_of_all _ _ (fun f hf => ?_)
      cases hb : isGoVersionField f with
      | false => rfl
      | true => exact absurd ((isGoVersionField_iff f).mp hb) (hnone f hf)
    unfold parseGo
    rw [hfind]

theorem C40_parseGo_first_version_field_witness :
    parseGo "go version go1.22.4 linux/amd64".toList = '1' :: ".22.4".toList :=
  (C40_parseGo_first_version_field "go version go1.22.4 linux/amd64".toList).1
    ["go".toList, "version".toList] "go1.22.4".toList ["linux/amd64".toList] (by decide)
    (by
      intro f hf hq
      have hb := (isGoVersionField_iff f).mpr hq
      rcases List.mem_cons.mp hf with h | h
      · rw [h] at hb
        exact absurd hb (by decide)
      · rw [List.mem_singleton.mp h] at hb
        exact absurd hb (by decide))
    '1' ".22.4".toList rfl (by decide)

end Pbom
